import Mathlib

/-!
# lua-bz2 (`lbz.c`): shallow embedding of the streaming session

The C file binds libbzip2 to Lua.  The embedding keeps the C names.

* A byte is a natural number (the newline is `10`); nothing below depends on
  bytes being smaller than 256.
* `lbz_state` is the C struct.  `bz_stream` and `buf` are pointers: `none` is
  `NULL`.  `buf = some m` is the malloc'ed block, `m` listing its bytes from
  offset 0 up to the last offset written so far; only the first `buf_size`
  bytes are live.
* libbzip2 is not part of the file: a `BZFILE` opened for reading holds the list
  of answers (`bzerror`, bytes) that successive `BZ2_bzRead` calls will give.
  Once the list is used up the library reports `BZ_SEQUENCE_ERROR` and no bytes,
  which is what its decompressor does after the logical end of the stream.
* A Lua C function returns the values it leaves on top of the stack; the
  embedding returns them as an `Outcome` together with the new state.
-/

namespace LuaBz2

abbrev Byte := Nat

/-- The C string literal as bytes. -/
def cstr (s : String) : List Byte := s.toList.map Char.toNat

/-- The newline character searched by `memchr(buf, '\n', buf_len)`. -/
def NL : Byte := 10

/-! ## libbzip2 constants -/

def BZ_OK : Int := 0
def BZ_RUN_OK : Int := 1
def BZ_FLUSH_OK : Int := 2
def BZ_FINISH_OK : Int := 3
def BZ_STREAM_END : Int := 4
def BZ_SEQUENCE_ERROR : Int := -1
def BZ_PARAM_ERROR : Int := -2
def BZ_DATA_ERROR : Int := -4

def BZ_RUN : Int := 0
def BZ_FINISH : Int := 2

def INT_MAX : Int := 2147483647

/-! ## Lua values and outcomes -/

inductive LuaValue where
  | nil
  | boolean (b : Bool)
  | number (n : Int)
  | string (s : List Byte)
  | userdata
  deriving DecidableEq, Repr

/-- What a call of a C function of the binding ends in. -/
inductive Outcome where
  /-- normal return: the values returned to Lua, in order -/
  | values (vs : List LuaValue)
  /-- a Lua error was raised (`luaL_error`, `luaL_argerror`, a failed `luaL_check*`) -/
  | raise (msg : List Byte)
  /-- libbzip2 dereferenced a `NULL` handle, or `memchr`/`memmove` a `NULL` block -/
  | fault
  /-- the `assert` of `lbz_buffer_append` failed -/
  | abort
  deriving DecidableEq, Repr

/-- Converts a Lua value to a C boolean: `lua_toboolean`. An absent argument is `nil`. -/
def lua_toboolean : LuaValue → Bool
  | .nil => false
  | .boolean b => b
  | _ => true

/-- The top `n` values of a stack, which `return n` hands back to Lua. -/
def top (n : Nat) (stack : List LuaValue) : List LuaValue :=
  stack.drop (stack.length - n)

/-! ## The codec handle -/

/-- One answer of `BZ2_bzRead`: the status stored in `bzerror` and the bytes
written to the caller's buffer (the return value is their number). -/
structure Pull where
  data : List Byte
  bzerror : Int
  deriving DecidableEq, Repr

/-- The object behind a `BZFILE *`. -/
structure BZFILE where
  /-- opened with `BZ2_bzWriteOpen` -/
  writing : Bool
  /-- reader: the answers of the coming `BZ2_bzRead` calls -/
  reads : List Pull
  /-- writer: the `bzerror` of the coming `BZ2_bzWrite` calls (`BZ_OK` afterwards) -/
  wstatus : List Int
  /-- writer: bytes accepted so far -/
  total_in : Nat
  /-- writer: the compressed size the library reports on `BZ2_bzWriteClose` -/
  total_out : Nat
  deriving DecidableEq, Repr

/-- The table `bzerrorstrings` of libbzip2, indexed by the negated error code. -/
def bzerrorstrings : List String :=
  ["OK", "SEQUENCE_ERROR", "PARAM_ERROR", "MEM_ERROR", "DATA_ERROR",
   "DATA_ERROR_MAGIC", "IO_ERROR", "UNEXPECTED_EOF", "OUTBUFF_FULL",
   "CONFIG_ERROR", "???", "???", "???", "???", "???", "???"]

/-- The call `BZ2_bzerror(b, &errnum)`: the text of the last error of handle `b`.
The library reads `b->lastErr` first, so a `NULL` handle is a fault (`none`). -/
def BZ2_bzerror (b : Option BZFILE) (lastErr : Int) : Option (List Byte) :=
  match b with
  | none => none
  | some _ =>
    let err := if lastErr > 0 then 0 else lastErr
    some (cstr (bzerrorstrings.getD (-err).toNat "???"))

/-- The call `BZ2_bzRead(&bzerror, b, buf, len)`: status, bytes delivered, handle afterwards. -/
def BZ2_bzRead (b : Option BZFILE) (len : Int) : Int × List Byte × Option BZFILE :=
  match b with
  | none => (BZ_PARAM_ERROR, [], none)
  | some bz =>
    if len < 0 then (BZ_PARAM_ERROR, [], some bz)
    else if bz.writing then (BZ_SEQUENCE_ERROR, [], some bz)
    else if len = 0 then (BZ_OK, [], some bz)
    else
      match bz.reads with
      | [] => (BZ_SEQUENCE_ERROR, [], some bz)
      | p :: rest => (p.bzerror, p.data, some { bz with reads := rest })

/-- The call `BZ2_bzWrite(&bzerror, b, buf, len)`: status and handle afterwards. -/
def BZ2_bzWrite (b : Option BZFILE) (data : List Byte) : Int × Option BZFILE :=
  match b with
  | none => (BZ_PARAM_ERROR, none)
  | some bz =>
    if !bz.writing then (BZ_SEQUENCE_ERROR, some bz)
    else
      match bz.wstatus with
      | [] => (BZ_OK, some { bz with total_in := bz.total_in + data.length })
      | e :: rest =>
        if e = BZ_OK then
          (BZ_OK, some { bz with wstatus := rest, total_in := bz.total_in + data.length })
        else (e, some { bz with wstatus := rest })

/-! ## The session state -/

structure lbz_state where
  bz_stream : Option BZFILE
  /-- `FILE *f`: `true` is an open file, `false` is `NULL` -/
  f : Bool
  mode : Char
  buf : Option (List Byte)
  buf_size : Nat
  deriving DecidableEq, Repr

/-- The bytes `p[0 .. n)` of a block. -/
def readmem (m : List Byte) (n : Nat) : List Byte := m.take n

/-- The effect of `memmove(m + off, data, |data|)` on the block `m`. -/
def memwrite (m : List Byte) (off : Nat) (data : List Byte) : List Byte :=
  m.take off ++ data ++ m.drop (off + data.length)

def lbz_buffer_init (state : lbz_state) : lbz_state :=
  { state with buf := some [], buf_size := 0 }

def lbz_buffer_free (state : lbz_state) : lbz_state :=
  match state.buf with
  | none => state
  | some _ => { state with buf_size := 0, buf := none }

/-- The function `lbz_buffer_append`; `none` is the failed `assert`.  The block is
not `NULL` where the function is reached: the callers test it, or hold a reader
handle, which `lbz_open` pairs with an allocated block. -/
def lbz_buffer_append (LUAL_BUFFERSIZE : Nat) (state : lbz_state) (data : List Byte) :
    Option lbz_state :=
  if state.buf_size + data.length < LUAL_BUFFERSIZE then
    some { state with
      buf := state.buf.map (fun m => memwrite m state.buf_size data)
      buf_size := state.buf_size + data.length }
  else none

def lbz_buffer_drain (state : lbz_state) (amount : Nat) : lbz_state :=
  { state with
    buf := state.buf.map
      (fun m => memwrite m 0 (readmem (m.drop amount) (state.buf_size - amount)))
    buf_size := state.buf_size - amount }

def lbz_buffer_drain_all (state : lbz_state) : lbz_state :=
  { state with buf_size := 0 }

/-- The live bytes of the carryover buffer: the first `buf_size` bytes of `buf`. -/
def carryover (state : lbz_state) : List Byte :=
  match state.buf with
  | none => []
  | some m => readmem m state.buf_size

/-- The answers the codec of the session still holds. -/
def pending (state : lbz_state) : List Pull :=
  match state.bz_stream with
  | none => []
  | some bz => bz.reads

/-- All bytes of a list of codec answers, in order. -/
def bytesOf (ps : List Pull) : List Byte := (ps.map Pull.data).flatten

/-! ## close -/

/-- The function `lbz_perform_close`: the values it pushes and the state it leaves. -/
def lbz_perform_close (state : lbz_state) (keep_extra_buf : Bool) :
    List LuaValue × lbz_state :=
  let state :=
    if state.mode = 'r' ∧ keep_extra_buf = false then lbz_buffer_free state else state
  match state.bz_stream with
  | none => ([], state)
  | some bz =>
    -- BZ2_bzReadClose, or BZ2_bzWriteClose and the two counters pushed
    let pushed :=
      if state.mode = 'r' then []
      else [LuaValue.number (bz.total_in % 2 ^ 32), LuaValue.number (bz.total_out % 2 ^ 32)]
    -- fclose(state->f); state->bz_stream = NULL; state->f = NULL
    (pushed, { state with bz_stream := none, f := false })

/-- The function `lbz_close`: `return lbz_perform_close(L, state, 0)`. -/
def lbz_close (state : lbz_state) : Outcome × lbz_state :=
  let r := lbz_perform_close state false
  (.values (top r.1.length ([LuaValue.userdata] ++ r.1)), r.2)

/-- The finalizer `lbz_gc`: `lbz_close(L); return 0`. -/
def lbz_gc (state : lbz_state) : Outcome × lbz_state :=
  ((match (lbz_close state).1 with
    | .values _ => .values []
    | o => o), (lbz_close state).2)

/-! ## read -/

/-- Conversion to C `int` by `luaL_checkint`. -/
def wrap32 (n : Int) : Int := (n + 2 ^ 31) % 2 ^ 32 - 2 ^ 31

/-- The C string behind the pointer `lua_tostring` returns for a Lua string: the
bytes before the first NUL (a NUL always follows the last byte). -/
def lua_tostring (s : List Byte) : List Byte := s.takeWhile (fun c => c ≠ 0)

/-- The argument decoding at the head of `lbz_read`; `none` is a raised argument
error.  `strcmp(lua_tostring(L, 2), "*a") == 0` compares C strings. -/
def lbz_read_len (arg2 : LuaValue) : Option Int :=
  match arg2 with
  | .string s => if lua_tostring s = cstr "*a" then some INT_MAX else none
  | .number n => some (wrap32 n)
  | _ => none

/-- The `while(len > 0)` loop of `lbz_read` on a reader handle whose coming
answers are the list argument: the `bzerror` at exit (`BZ_OK` when the loop ended
because `len <= 0`), the accumulated bytes and the answers left.  The request
`nextRead` is positive, so each turn takes one answer. -/
def lbz_read_loop : List Pull → List Byte → Int → Int × List Byte × List Pull
  | [], b, len => if len > 0 then (BZ_SEQUENCE_ERROR, b, []) else (BZ_OK, b, [])
  | p :: rest, b, len =>
    if len > 0 then
      let read : Int := p.data.length
      let b := if read > 0 then b ++ p.data else b
      let len := if read > 0 then len - read else len
      if p.bzerror ≠ BZ_OK then (p.bzerror, b, rest)
      else lbz_read_loop rest b len
    else (BZ_OK, b, p :: rest)

/-- The same loop for any handle: a `NULL` handle or a writer answers the first
`BZ2_bzRead` with an error and no bytes. -/
def lbz_read_pulls (h : Option BZFILE) (b : List Byte) (len : Int) :
    Int × List Byte × Option BZFILE :=
  match h with
  | none => if len > 0 then (BZ_PARAM_ERROR, b, none) else (BZ_OK, b, none)
  | some bz =>
    if bz.writing then
      if len > 0 then (BZ_SEQUENCE_ERROR, b, some bz) else (BZ_OK, b, some bz)
    else
      let r := lbz_read_loop bz.reads b len
      (r.1, r.2.1, some { bz with reads := r.2.2 })

/-- The conversion `(size_t) len` of a C `int` on a 64-bit platform. -/
def to_size_t (len : Int) : Int := if len < 0 then len + 2 ^ 64 else len

/-- The block `if (state->buf_size) { ... }` of `lbz_read`: the bytes added to the
Lua buffer, the state after `lbz_buffer_drain`, and the `len` left. -/
def lbz_read_carry (state : lbz_state) (len : Int) : List Byte × lbz_state × Int :=
  if state.buf_size ≠ 0 then
    let used_len : Int :=
      if (state.buf_size : Int) < to_size_t len then (state.buf_size : Int) else len
    (readmem (state.buf.getD []) used_len.toNat,
     lbz_buffer_drain state used_len.toNat,
     len - used_len)
  else ([], state, len)

/-- The two ways out of `lbz_read` after the loop: `luaL_pushresult(&b); return 1`
when `bzerror` is `BZ_OK`, and the label `handle_error` otherwise. -/
def lbz_read_exit (arg2 : LuaValue) (state : lbz_state) (bzerror : Int) (b : List Byte) :
    Outcome × lbz_state :=
  if bzerror = BZ_OK then (.values (top 1 [LuaValue.userdata, arg2, .string b]), state)
  else if bzerror = BZ_STREAM_END then
    -- Push the data read already and mark the stream done
    let c := lbz_perform_close state false
    (.values (top 1 ([LuaValue.userdata, arg2, .string b] ++ c.1)), c.2)
  else
    match BZ2_bzerror state.bz_stream bzerror with
    | none => (.fault, state)
    | some msg => (.values [.nil, .string msg], state)

def lbz_read (state : lbz_state) (arg2 : LuaValue) : Outcome × lbz_state :=
  match lbz_read_len arg2 with
  | none => (.raise (cstr "bad argument #2 to 'read'"), state)
  | some len =>
    if state.mode ≠ 'r' then
      (.values [.nil, .string (cstr "NOT IN READ MODE")], state)
    else if state.bz_stream = none ∧ state.buf = none then
      (.values [.nil, .string (cstr "CLOSED")], state)
    else if state.buf_size ≠ 0 ∧ state.buf = none then
      -- luaL_addlstring would copy from a NULL block
      (.fault, state)
    else
      -- if (state->buf_size) { ... }
      let c := lbz_read_carry state len
      -- while(len > 0) { ... }
      let r := lbz_read_pulls c.2.1.bz_stream c.1 c.2.2
      lbz_read_exit arg2 { c.2.1 with bz_stream := r.2.2 } r.1 r.2.1

/-! ## write -/

/-- The conversion of `luaL_checklstring`: strings, and numbers as their text. -/
def luaL_checklstring : LuaValue → Option (List Byte)
  | .string s => some s
  | .number n => some (cstr (toString n))
  | _ => none

/-- The `for` loop of `lbz_write` over the arguments 2 .. top. -/
def lbz_write_loop : lbz_state → List LuaValue → Outcome × lbz_state
  | state, [] => (.values [.boolean true], state)
  | state, a :: args =>
    match luaL_checklstring a with
    | none => (.raise (cstr "bad argument to 'write' (string expected)"), state)
    | some str =>
      let w := BZ2_bzWrite state.bz_stream str
      let state := { state with bz_stream := w.2 }
      if w.1 ≠ BZ_OK then
        match BZ2_bzerror state.bz_stream w.1 with
        | none => (.fault, state)
        | some msg => (.values [.nil, .string msg], state)
      else lbz_write_loop state args

def lbz_write (state : lbz_state) (args : List LuaValue) : Outcome × lbz_state :=
  if state.mode ≠ 'w' then
    (.values [.nil, .string (cstr "NOT IN WRITE MODE")], state)
  else lbz_write_loop state args

/-! ## getline -/

/-- Index of the first `c` in `buf`: `memchr`. -/
def memchr : List Byte → Byte → Option Nat
  | [], _ => none
  | x :: xs, c => if x = c then some 0 else (memchr xs c).map (· + 1)

/-- The call `luaL_addlstring(b, s, l)`. -/
def luaL_addlstring (b s : List Byte) (l : Nat) : List Byte := b ++ readmem s l

/-- The call `luaL_addsize(b, n)` when the area handed out by `luaL_prepbuffer` holds `area`. -/
def luaL_addsize (b area : List Byte) (n : Nat) : List Byte := b ++ readmem area n

/-- The function `lbz_handle_eol` on the `buf_len` bytes `buf`: the returned
flag, the Lua buffer and the state; `none` is the failed `assert` of
`lbz_buffer_append`.  When the flag is `true` the Lua buffer has been pushed. -/
def lbz_handle_eol (LUAL_BUFFERSIZE : Nat) (b buf : List Byte) (state : lbz_state)
    (in_buffer keep_eol : Bool) : Option (Bool × List Byte × lbz_state) :=
  match memchr buf NL with
  | none =>
    let b := if in_buffer then luaL_addsize b buf buf.length
             else luaL_addlstring b buf buf.length
    some (false, b, state)
  | some eol =>
    let chars_to_return := if keep_eol then eol + 1 else eol
    let b := if in_buffer then luaL_addsize b buf chars_to_return
             else luaL_addlstring b buf chars_to_return
    match lbz_buffer_append LUAL_BUFFERSIZE state (buf.drop (eol + 1)) with
    | none => none
    | some state => some (true, b, state)

/-- The `while(1)` loop of `lbz_getline_read` on the reader handle `bz` whose
coming answers are the list argument. -/
def lbz_getline_loop (LUAL_BUFFERSIZE : Nat) (keep_eol : Bool) (bz : BZFILE) :
    lbz_state → List Pull → List Byte → Outcome × lbz_state
  | state, [], _ =>
    -- BZ2_bzRead answers BZ_SEQUENCE_ERROR
    let state := { state with bz_stream := some { bz with reads := [] } }
    match BZ2_bzerror state.bz_stream BZ_SEQUENCE_ERROR with
    | none => (.fault, state)
    | some msg => (.values [.nil, .string msg], state)
  | state, p :: rest, b =>
    let state := { state with bz_stream := some { bz with reads := rest } }
    if p.bzerror ≠ BZ_OK ∧ p.bzerror ≠ BZ_STREAM_END then
      -- Error happened, data thrown
      match BZ2_bzerror state.bz_stream p.bzerror with
      | none => (.fault, state)
      | some msg => (.values [.nil, .string msg], state)
    else
      match lbz_handle_eol LUAL_BUFFERSIZE b p.data state true keep_eol with
      | none => (.abort, state)
      | some (false, b, state) => lbz_getline_loop LUAL_BUFFERSIZE keep_eol bz state rest b
      | some (true, b, state) =>
        if p.bzerror = BZ_STREAM_END then
          let c := lbz_perform_close state (decide (state.buf_size ≠ 0))
          (.values (top 1 ([LuaValue.string b] ++ c.1)), c.2)
        else (.values (top 1 [LuaValue.string b]), state)

def lbz_getline_read (LUAL_BUFFERSIZE : Nat) (b : List Byte) (state : lbz_state)
    (keep_eol : Bool) : Outcome × lbz_state :=
  let b := luaL_addlstring b (state.buf.getD []) state.buf_size
  let state := lbz_buffer_drain_all state
  match state.bz_stream with
  | none =>
    -- No more data left at all - return data is 'success'
    let c := lbz_perform_close state false
    (.values (top 1 (c.1 ++ [LuaValue.string b])), c.2)
  | some bz =>
    if bz.writing then
      match BZ2_bzerror state.bz_stream BZ_SEQUENCE_ERROR with
      | none => (.fault, state)
      | some msg => (.values [.nil, .string msg], state)
    else lbz_getline_loop LUAL_BUFFERSIZE keep_eol bz state bz.reads b

def lbz_getline (LUAL_BUFFERSIZE : Nat) (state : lbz_state) (arg2 : LuaValue) :
    Outcome × lbz_state :=
  let skip_eol := lua_toboolean arg2
  if state.bz_stream = none ∧ state.buf = none then
    (.values [.nil, .string (cstr "CLOSED")], state)
  else
    let b : List Byte := []
    if state.buf_size ≠ 0 then
      let data_size := state.buf_size
      let state := lbz_buffer_drain_all state
      match state.buf with
      | none => (.fault, state) -- memchr on a NULL block
      | some m =>
        match lbz_handle_eol LUAL_BUFFERSIZE b (readmem m data_size) state false (!skip_eol) with
        | none => (.abort, state)
        | some (false, b, state) => lbz_getline_read LUAL_BUFFERSIZE b state (!skip_eol)
        | some (true, b, state) => (.values (top 1 [LuaValue.string b]), state)
    else
      lbz_getline_read LUAL_BUFFERSIZE b state (!skip_eol)

/-! ## lines -/

/-- The function `lbz_lines`: the second upvalue of the closure it returns (the
first one is the session itself). -/
def lbz_lines (arg2 : LuaValue) : LuaValue :=
  let skip_eol := !lua_toboolean arg2
  .boolean skip_eol

/-- The function `lbz_line_iter`: drops its arguments, pushes the two upvalues and calls `lbz_getline`. -/
def lbz_line_iter (LUAL_BUFFERSIZE : Nat) (upvalue2 : LuaValue) (state : lbz_state)
    (_args : List LuaValue) : Outcome × lbz_state :=
  lbz_getline LUAL_BUFFERSIZE state upvalue2

/-! ## open -/

/-- What the C library and libbzip2 answer during `lbz_open`, and the bytes the
fresh userdata block happens to hold. -/
structure OpenEnv where
  /-- `fopen` returned a non-`NULL` file -/
  fopen_ok : Bool
  /-- result of `BZ2_bzReadOpen` / `BZ2_bzWriteOpen` and the status stored in `bzerror` -/
  bzopen : Option BZFILE
  bzerror : Int
  junk_buf : Option (List Byte)
  junk_buf_size : Nat

/-- The calls `BZ2_bzReadOpen` and `BZ2_bzWriteOpen` of `lbz_open`: the handle and
the status stored in `bzerror`.  `BZ2_bzWriteOpen` answers a block size outside
1..9 with `NULL` and `BZ_PARAM_ERROR`. -/
def lbz_open_codec (env : OpenEnv) (mode0 : Byte) (level : Int) : Option BZFILE × Int :=
  if mode0 ≠ 'r'.toNat ∧ (level < 1 ∨ 9 < level) then (none, BZ_PARAM_ERROR)
  else (env.bzopen, env.bzerror)

/-- The function `lbz_open`: outcome and the userdata created, if any. -/
def lbz_open (env : OpenEnv) (fname : List Byte) (mode : Option (List Byte))
    (level : Option Int) : Outcome × Option lbz_state :=
  let mode := mode.getD (cstr "r")
  let mode0 : Byte := mode.headD 0
  let level := level.getD 9
  if mode0 ≠ 'r'.toNat ∧ mode0 ≠ 'w'.toNat then
    (.raise (cstr "Illegal mode: " ++ fname), none)
  else if env.fopen_ok = false then
    (.values [.nil, .string (cstr "Failed to open: " ++ fname)], none)
  else
    let state : lbz_state :=
      { bz_stream := none, f := true, mode := Char.ofNat mode0,
        buf := env.junk_buf, buf_size := env.junk_buf_size }
    let o := lbz_open_codec env mode0 level
    let state :=
      if mode0 = 'r'.toNat then lbz_buffer_init { state with bz_stream := o.1 }
      else { state with bz_stream := o.1 }
    if o.2 ≠ BZ_OK then
      match BZ2_bzerror state.bz_stream o.2 with
      | none => (.fault, some state)
      | some msg => (.values [.nil, .string msg], some state)
    else (.values [.userdata], some state)

/-! ## The one-shot functions

`lbz_compress` and `lbz_decompress` drive the low-level interface of libbzip2 on a
`bz_stream`.  The library is a parameter: what one call of `BZ2_bzCompress` or
`BZ2_bzDecompress` does is given by a `Bzlib`.  A `while` loop of the C code is a
function with fuel, `none` when the fuel runs out. -/

/-- The effect of one call of `BZ2_bzCompress` or `BZ2_bzDecompress`. -/
structure BzStep (σ : Type) where
  /-- the return value -/
  ret : Int
  /-- the number of bytes taken at `next_in` -/
  used : Nat
  /-- the bytes written at `next_out` -/
  out : List Byte
  /-- the private state of the library afterwards -/
  state : σ

/-- The low-level interface of libbzip2.  A step sees the private state, the
`avail_in` bytes at `next_in`, and `avail_out`; `compress` also gets the action. -/
structure Bzlib (σc σd : Type) where
  compressInit : Int → Int × σc
  compress : σc → List Byte → Nat → Int → BzStep σc
  decompressInit : Int × σd
  decompress : σd → List Byte → Nat → BzStep σd
  /-- the text `BZ2_bzerror(&stream, &err)` yields in `handle_error` -/
  errtext : Int → List Byte

/-- The C struct `bz_stream`, as far as the two functions use it; `next_in` is the
caller's block from the position of the pointer to its end. -/
structure bz_stream (σ : Type) where
  next_in : List Byte
  avail_in : Nat
  total_in_lo32 : Nat
  state : σ

/-- The bookkeeping libbzip2 does on the stream after a step: it cannot take more
than `avail_in` bytes nor write more than `avail_out`. -/
def bz_advance {σ : Type} (strm : bz_stream σ) (avail_out : Nat) (r : BzStep σ) :
    Int × List Byte × bz_stream σ :=
  let used := min r.used strm.avail_in
  (r.ret, r.out.take avail_out,
   { next_in := strm.next_in.drop used
     avail_in := strm.avail_in - used
     total_in_lo32 := (strm.total_in_lo32 + used) % 2 ^ 32
     state := r.state })

def BZ2_bzCompress {σc σd : Type} (lib : Bzlib σc σd) (strm : bz_stream σc) (avail_out : Nat)
    (action : Int) : Int × List Byte × bz_stream σc :=
  bz_advance strm avail_out
    (lib.compress strm.state (strm.next_in.take strm.avail_in) avail_out action)

def BZ2_bzDecompress {σc σd : Type} (lib : Bzlib σc σd) (strm : bz_stream σd) (avail_out : Nat) :
    Int × List Byte × bz_stream σd :=
  bz_advance strm avail_out
    (lib.decompress strm.state (strm.next_in.take strm.avail_in) avail_out)

/-- The label `handle_error` of `lbz_compress` and `lbz_decompress`. -/
def lbz_handle_error {σc σd : Type} (lib : Bzlib σc σd) (err : Int) : Outcome :=
  .values [.nil, .string (lib.errtext err)]

/-- The loop `while (stream.total_in_lo32 < len)` of `lbz_compress`: `.error err`
is the jump to `handle_error`, `.ok` the stream and the Lua buffer at the exit. -/
def lbz_compress_feed {σc σd : Type} (lib : Bzlib σc σd) (LUAL_BUFFERSIZE len : Nat) :
    Nat → bz_stream σc → List Byte → Option (Except Int (bz_stream σc × List Byte))
  | 0, _, _ => none
  | fuel + 1, stream, b =>
    if stream.total_in_lo32 < len then
      let r := BZ2_bzCompress lib stream LUAL_BUFFERSIZE BZ_RUN
      if r.1 < 0 then some (.error r.1)
      else lbz_compress_feed lib LUAL_BUFFERSIZE len fuel r.2.2 (b ++ r.2.1)
    else some (.ok (stream, b))

/-- The loop `while (1)` of `lbz_compress` that calls `BZ2_bzCompress` with `BZ_FINISH`. -/
def lbz_compress_finish {σc σd : Type} (lib : Bzlib σc σd) (LUAL_BUFFERSIZE : Nat) :
    Nat → bz_stream σc → List Byte → Option (Except Int (List Byte))
  | 0, _, _ => none
  | fuel + 1, stream, b =>
    let r := BZ2_bzCompress lib stream LUAL_BUFFERSIZE BZ_FINISH
    if r.1 < 0 then some (.error r.1)
    else if r.1 = BZ_STREAM_END then some (.ok (b ++ r.2.1))
    else lbz_compress_finish lib LUAL_BUFFERSIZE fuel r.2.2 (b ++ r.2.1)

def lbz_compress {σc σd : Type} (lib : Bzlib σc σd) (LUAL_BUFFERSIZE fuel : Nat)
    (input : List Byte) (level : Option Int) : Option Outcome :=
  let len := input.length
  let level := level.getD 9
  let i := lib.compressInit level
  if i.1 ≠ BZ_OK then some (lbz_handle_error lib i.1)
  else
    let stream : bz_stream σc :=
      { next_in := input, avail_in := len % 2 ^ 32, total_in_lo32 := 0, state := i.2 }
    match lbz_compress_feed lib LUAL_BUFFERSIZE len fuel stream [] with
    | none => none
    | some (.error err) => some (lbz_handle_error lib err)
    | some (.ok (stream, b)) =>
      match lbz_compress_finish lib LUAL_BUFFERSIZE fuel stream b with
      | none => none
      | some (.error err) => some (lbz_handle_error lib err)
      | some (.ok b) => some (.values [.string b])

/-- The loop `while (stream.total_in_lo32 < len)` of `lbz_decompress`. -/
def lbz_decompress_feed {σc σd : Type} (lib : Bzlib σc σd) (LUAL_BUFFERSIZE len : Nat) :
    Nat → bz_stream σd → List Byte → Option (Except Int (List Byte))
  | 0, _, _ => none
  | fuel + 1, stream, b =>
    if stream.total_in_lo32 < len then
      let r := BZ2_bzDecompress lib stream LUAL_BUFFERSIZE
      if r.1 < 0 then some (.error r.1)
      else lbz_decompress_feed lib LUAL_BUFFERSIZE len fuel r.2.2 (b ++ r.2.1)
    else some (.ok b)

def lbz_decompress {σc σd : Type} (lib : Bzlib σc σd) (LUAL_BUFFERSIZE fuel : Nat)
    (input : List Byte) : Option Outcome :=
  let len := input.length
  let i := lib.decompressInit
  if i.1 ≠ BZ_OK then some (lbz_handle_error lib i.1)
  else
    let stream : bz_stream σd :=
      { next_in := input, avail_in := len % 2 ^ 32, total_in_lo32 := 0, state := i.2 }
    match lbz_decompress_feed lib LUAL_BUFFERSIZE len fuel stream [] with
    | none => none
    | some (.error err) => some (lbz_handle_error lib err)
    | some (.ok b) => some (.values [.string b])

/-- What the two loops rely on in the compressor of libbzip2, for the format `enc`
(level and data to compressed stream).  `I level st ab em` relates a private
state to the bytes absorbed and emitted so far; `μ` bounds the calls that take
no input.  A `BZ_RUN` call with input and room does not fail, accounts for what
it takes and writes, and makes progress; a `BZ_FINISH` call with no input left
either ends the stream, and then everything emitted is `enc level` of everything
absorbed, or goes on and makes progress. -/
structure CompressorOK {σc σd : Type} (lib : Bzlib σc σd) (enc : Int → List Byte → List Byte)
    (I : Int → σc → List Byte → List Byte → Prop) (μ : σc → Nat) : Prop where
  init : ∀ level : Int, 1 ≤ level → level ≤ 9 →
    (lib.compressInit level).1 = BZ_OK ∧ I level (lib.compressInit level).2 [] []
  run : ∀ (level : Int) (st : σc) (ab em w : List Byte) (a : Nat),
    I level st ab em → 0 < a → w ≠ [] →
      0 ≤ (lib.compress st w a BZ_RUN).ret
      ∧ (lib.compress st w a BZ_RUN).used ≤ w.length
      ∧ (lib.compress st w a BZ_RUN).out.length ≤ a
      ∧ I level (lib.compress st w a BZ_RUN).state
          (ab ++ w.take (lib.compress st w a BZ_RUN).used)
          (em ++ (lib.compress st w a BZ_RUN).out)
      ∧ ((lib.compress st w a BZ_RUN).used = 0 → μ (lib.compress st w a BZ_RUN).state < μ st)
  finish : ∀ (level : Int) (st : σc) (ab em : List Byte) (a : Nat),
    I level st ab em → 0 < a →
      (lib.compress st [] a BZ_FINISH).out.length ≤ a
      ∧ (((lib.compress st [] a BZ_FINISH).ret = BZ_STREAM_END
            ∧ em ++ (lib.compress st [] a BZ_FINISH).out = enc level ab)
          ∨ ((lib.compress st [] a BZ_FINISH).ret = BZ_FINISH_OK
            ∧ I level (lib.compress st [] a BZ_FINISH).state ab
                (em ++ (lib.compress st [] a BZ_FINISH).out)
            ∧ μ (lib.compress st [] a BZ_FINISH).state < μ st))

/-- What the loop of `lbz_decompress` relies on in the decompressor of libbzip2.
`J st ab em` relates a private state to the bytes absorbed and emitted so far.
On the rest of a well-formed stream a call with room does not fail, accounts for
what it takes and writes, and makes progress; and once a whole stream `enc level B`
is absorbed, all of `B` has been emitted (the end-of-stream trailer is read last). -/
structure DecompressorOK {σc σd : Type} (lib : Bzlib σc σd) (enc : Int → List Byte → List Byte)
    (J : σd → List Byte → List Byte → Prop) (ν : σd → Nat) : Prop where
  init : lib.decompressInit.1 = BZ_OK ∧ J lib.decompressInit.2 [] []
  step : ∀ (level : Int) (B : List Byte) (st : σd) (ab em w : List Byte) (a : Nat),
    J st ab em → 0 < a → w ≠ [] → ab ++ w = enc level B →
      0 ≤ (lib.decompress st w a).ret
      ∧ (lib.decompress st w a).used ≤ w.length
      ∧ (lib.decompress st w a).out.length ≤ a
      ∧ J (lib.decompress st w a).state (ab ++ w.take (lib.decompress st w a).used)
          (em ++ (lib.decompress st w a).out)
      ∧ ((lib.decompress st w a).used = 0 → ν (lib.decompress st w a).state < ν st)
  complete : ∀ (level : Int) (B : List Byte) (st : σd) (em : List Byte),
    J st (enc level B) em → em = B

/-- A small library that meets both contracts: the compressed stream is the data
followed by one zero byte.  The compressor copies its input; the decompressor
keeps the last byte it absorbed back. -/
def copylib : Bzlib Unit (Option Byte) where
  compressInit := fun level => (if 1 ≤ level ∧ level ≤ 9 then BZ_OK else BZ_PARAM_ERROR, ())
  compress := fun _ w a action =>
    if action = BZ_FINISH ∧ w = [] then ⟨BZ_STREAM_END, 0, [0], ()⟩
    else ⟨BZ_RUN_OK, min w.length a, w.take (min w.length a), ()⟩
  decompressInit := (BZ_OK, none)
  decompress := fun held w a =>
    ⟨BZ_OK, min w.length a, (held.toList ++ w.take (min w.length a)).dropLast,
     (held.toList ++ w.take (min w.length a)).getLast?⟩
  errtext := fun _ => cstr "???"

/-- The format of `copylib`. -/
def copyenc (_level : Int) (B : List Byte) : List Byte := B ++ [0]

/-- The compressor of `copylib` has emitted what it absorbed. -/
def copyI (_level : Int) (_st : Unit) (ab em : List Byte) : Prop := em = ab

/-- The decompressor of `copylib` holds the last byte absorbed and has emitted the others. -/
def copyJ (st : Option Byte) (ab em : List Byte) : Prop := st = ab.getLast? ∧ em = ab.dropLast

/-- Neither side of `copylib` ever makes a call that takes no input. -/
def copyμ {σ : Type} (_st : σ) : Nat := 0

/-! ## Sessions used in the statements -/

/-- A reader handle holding the given answers. -/
def reader (reads : List Pull) : BZFILE :=
  { writing := false, reads := reads, wstatus := [], total_in := 0, total_out := 0 }

/-- The state `lbz_open` leaves for mode "r" when the file and the codec open. -/
def fresh (reads : List Pull) : lbz_state :=
  { bz_stream := some (reader reads), f := true, mode := 'r', buf := some [], buf_size := 0 }

/-- The state in which both handles are released and the carryover is freed. -/
def closed (mode : Char) : lbz_state :=
  { bz_stream := none, f := false, mode := mode, buf := none, buf_size := 0 }

/-- The answers of a codec that delivers the chunks `cs` with `BZ_OK` and then
`last` together with `BZ_STREAM_END`. -/
def delivery (cs : List (List Byte)) (last : List Byte) : List Pull :=
  cs.map (fun c => ⟨c, BZ_OK⟩) ++ [⟨last, BZ_STREAM_END⟩]

/-- The failure pair `(nil, "CLOSED")`. -/
def CLOSED : Outcome := .values [.nil, .string (cstr "CLOSED")]

/-- The outcomes of `n` successive `getline` calls with the same argument, and the final state. -/
def getlines (LUAL_BUFFERSIZE : Nat) (arg2 : LuaValue) : Nat → lbz_state → List Outcome × lbz_state
  | 0, state => ([], state)
  | n + 1, state =>
    let r := lbz_getline LUAL_BUFFERSIZE state arg2
    let rs := getlines LUAL_BUFFERSIZE arg2 n r.2
    (r.1 :: rs.1, rs.2)

/-- A call on a read session: `read(arg2)`, or `getline()` which keeps the EOL. -/
inductive Call where
  | read (arg2 : LuaValue)
  | getline
  deriving DecidableEq, Repr

def call (LUAL_BUFFERSIZE : Nat) (state : lbz_state) : Call → Outcome × lbz_state
  | .read arg2 => lbz_read state arg2
  | .getline => lbz_getline LUAL_BUFFERSIZE state .nil

/-- The bytes a call hands to the caller: the string of a successful call, nothing otherwise. -/
def bytesReturned : Outcome → List Byte
  | .values [.string s] => s
  | _ => []

/-- A call succeeded: it returned one string. -/
def succeeded : Outcome → Bool
  | .values [.string _] => true
  | _ => false

/-- The calls are made in order: the bytes returned, concatenated, whether every
call succeeded, and the final state. -/
def run (LUAL_BUFFERSIZE : Nat) : lbz_state → List Call → List Byte × Bool × lbz_state
  | state, [] => ([], true, state)
  | state, c :: cs =>
    let r := call LUAL_BUFFERSIZE state c
    let rs := run LUAL_BUFFERSIZE r.2 cs
    (bytesReturned r.1 ++ rs.1, succeeded r.1 && rs.2.1, rs.2.2)

/-- The shape of the states of a read session: mode 'r', a reader handle that
comes with an allocated buffer, and `buf_size` live bytes inside the block. -/
def ReadInv (state : lbz_state) : Prop :=
  state.mode = 'r'
  ∧ (∀ bz, state.bz_stream = some bz → bz.writing = false ∧ state.buf ≠ none)
  ∧ (∀ m, state.buf = some m → state.buf_size ≤ m.length)
  ∧ (state.buf = none → state.buf_size = 0)

/-- An answer list that ends with an answer given together with `BZ_STREAM_END`. -/
def EndsStream (pulled : List Pull) : Prop :=
  ∃ (pre : List Pull) (p : Pull), pulled = pre ++ [p] ∧ p.bzerror = BZ_STREAM_END

/-- Between `state` and `state'` the answers `pulled` were taken from the codec,
and `out`, followed by the new carryover, is the old carryover followed by the
bytes of those answers.  While the codec is open `pulled` is what it no longer
holds; when it was released in between, `pulled` runs up to and including an
answer given with `BZ_STREAM_END`. -/
def Conserves (state : lbz_state) (out : List Byte) (state' : lbz_state) : Prop :=
  ∃ pulled : List Pull,
    pulled <+: pending state
    ∧ (state'.bz_stream ≠ none → pending state = pulled ++ pending state')
    ∧ (state.bz_stream = none → state'.bz_stream = none)
    ∧ (state.bz_stream ≠ none → state'.bz_stream = none → EndsStream pulled)
    ∧ out ++ carryover state' = carryover state ++ bytesOf pulled

/-- The answers of a codec that delivers the chunks `cs`, each with `BZ_OK`. -/
def oks (cs : List (List Byte)) : List Pull := cs.map (fun c => ⟨c, BZ_OK⟩)

/-- The request of one turn of the loop of `lbz_read`:
`len > LUAL_BUFFERSIZE ? LUAL_BUFFERSIZE : len`. -/
def nextRead (LUAL_BUFFERSIZE : Nat) (len : Int) : Int :=
  if len > LUAL_BUFFERSIZE then LUAL_BUFFERSIZE else len

/-- The codec keeps to the interface of `BZ2_bzRead` along the loop of `lbz_read`
started with `len` bytes to go: no answer holds more bytes than requested. -/
def respects (LUAL_BUFFERSIZE : Nat) : List Pull → Int → Bool
  | [], _ => true
  | p :: rest, len =>
    decide (len ≤ 0)
    || (decide ((p.data.length : Int) ≤ nextRead LUAL_BUFFERSIZE len)
        && (decide (p.bzerror ≠ BZ_OK)
            || respects LUAL_BUFFERSIZE rest (len - p.data.length)))

/-- The calls of `BZ2_bzDecompress` that the loop of `lbz_decompress` makes from
`stream`: one call as long as fewer than `len` bytes are counted as consumed,
each returning a status that is not negative (`BZ_STREAM_END` included), until
the count reaches `len`; `outs` lists the chunks the calls wrote, in order. -/
inductive Drives {σc σd : Type} (lib : Bzlib σc σd) (LUAL_BUFFERSIZE len : Nat) :
    bz_stream σd → List (List Byte) → Prop where
  | done (stream : bz_stream σd) (h : ¬ stream.total_in_lo32 < len) :
      Drives lib LUAL_BUFFERSIZE len stream []
  | step (stream : bz_stream σd) (outs : List (List Byte))
      (h : stream.total_in_lo32 < len)
      (hret : ¬ (BZ2_bzDecompress lib stream LUAL_BUFFERSIZE).1 < 0)
      (hrest : Drives lib LUAL_BUFFERSIZE len
        (BZ2_bzDecompress lib stream LUAL_BUFFERSIZE).2.2 outs) :
      Drives lib LUAL_BUFFERSIZE len stream
        ((BZ2_bzDecompress lib stream LUAL_BUFFERSIZE).2.1 :: outs)

/-- The private state of the decompressor of `lenlib`. -/
inductive LenState where
  | header
  | body (remaining : Nat)
  | idle
  deriving DecidableEq, Repr

/-- A decompressor that ends its stream and refuses calls afterwards, like the one
of libbzip2: the format is one byte `n` followed by `n` data bytes.  After the
last data byte it returns `BZ_STREAM_END`; called again it returns
`BZ_SEQUENCE_ERROR`.  The compressor side is not used. -/
def lenlib : Bzlib Unit LenState where
  compressInit := fun _ => (BZ_PARAM_ERROR, ())
  compress := fun _ _ _ _ => ⟨BZ_SEQUENCE_ERROR, 0, [], ()⟩
  decompressInit := (BZ_OK, .header)
  decompress := fun st w a =>
    match st, w with
    | .idle, _ => ⟨BZ_SEQUENCE_ERROR, 0, [], .idle⟩
    | .header, [] => ⟨BZ_OK, 0, [], .header⟩
    | .header, n :: w' =>
      if min n (min w'.length a) = n then ⟨BZ_STREAM_END, 1 + n, w'.take n, .idle⟩
      else ⟨BZ_OK, 1 + min w'.length a, w'.take (min w'.length a),
            .body (n - min w'.length a)⟩
    | .body r, w =>
      if min r (min w.length a) = r then ⟨BZ_STREAM_END, r, w.take r, .idle⟩
      else ⟨BZ_OK, min w.length a, w.take (min w.length a), .body (r - min w.length a)⟩
  errtext := fun e => cstr (bzerrorstrings.getD (-e).toNat "???")

/-- A call on a read session with its argument: `read(arg2)` or `getline(arg2)`. -/
inductive Op where
  | read (arg2 : LuaValue)
  | getline (arg2 : LuaValue)
  deriving DecidableEq, Repr

def step (LUAL_BUFFERSIZE : Nat) (state : lbz_state) : Op → Outcome × lbz_state
  | .read arg2 => lbz_read state arg2
  | .getline arg2 => lbz_getline LUAL_BUFFERSIZE state arg2

/-- The outcome and the state after each of the calls, made in order. -/
def trace (LUAL_BUFFERSIZE : Nat) : lbz_state → List Op → List (Outcome × lbz_state)
  | _, [] => []
  | state, o :: os =>
    let r := step LUAL_BUFFERSIZE state o
    r :: trace LUAL_BUFFERSIZE r.2 os

/-- A well-shaped read session whose carryover is shorter than `LUAL_BUFFERSIZE` and
whose codec delivers at most `LUAL_BUFFERSIZE` bytes per answer. -/
def Bounded (LUAL_BUFFERSIZE : Nat) (state : lbz_state) : Prop :=
  ReadInv state ∧ state.buf_size < LUAL_BUFFERSIZE
  ∧ ∀ p ∈ pending state, p.data.length ≤ LUAL_BUFFERSIZE

/-- The lines of a byte string, cut after each newline; the newline stays at the end
of a line when `keep_eol` holds, and a last line without newline is a line.  Each
line takes at least one byte, so `fuel` equal to the length is enough. -/
def linesFuel : Nat → Bool → List Byte → List (List Byte)
  | 0, _, _ => []
  | fuel + 1, keep_eol, R =>
    if R = [] then []
    else
      match memchr R NL with
      | none => [R]
      | some j =>
        R.take (if keep_eol then j + 1 else j) :: linesFuel fuel keep_eol (R.drop (j + 1))

def linesOf (keep_eol : Bool) (R : List Byte) : List (List Byte) :=
  linesFuel R.length keep_eol R

/-- A writer handle as `BZ2_bzWriteOpen` returns it. -/
def writer : BZFILE :=
  { writing := true, reads := [], wstatus := [], total_in := 0, total_out := 0 }

/-! # Theorems -/

/-- The C string of the Lua string "*a" is "*a". -/
theorem lua_tostring_all : lua_tostring (cstr "*a") = cstr "*a" := by decide

/-- What the loops take from a handle at each turn is the answer of `BZ2_bzRead`
to a positive request: `BZ_PARAM_ERROR` for `NULL`, `BZ_SEQUENCE_ERROR` for a
writer or a reader past its last answer, and otherwise the next answer. -/
theorem BZ2_bzRead_answers (bz : BZFILE) (len : Int) (hlen : 0 < len) :
    BZ2_bzRead none len = (BZ_PARAM_ERROR, [], none)
    ∧ (bz.writing = true → BZ2_bzRead (some bz) len = (BZ_SEQUENCE_ERROR, [], some bz))
    ∧ (bz.writing = false → bz.reads = [] →
        BZ2_bzRead (some bz) len = (BZ_SEQUENCE_ERROR, [], some bz))
    ∧ (∀ p rest, bz.writing = false → bz.reads = p :: rest →
        BZ2_bzRead (some bz) len = (p.bzerror, p.data, some { bz with reads := rest })) := by
  have h1 : ¬ len < 0 := by omega
  have h2 : ¬ len = 0 := by omega
  refine ⟨rfl, ?_, ?_, ?_⟩
  · intro hw
    simp [BZ2_bzRead, h1, hw]
  · intro hw hr
    simp [BZ2_bzRead, h1, h2, hw, hr]
  · intro p rest hw hr
    simp [BZ2_bzRead, h1, h2, hw, hr]

/-- The open of an existing file in mode "r" with a codec that initialises yields `fresh`. -/
theorem lbz_open_fresh (reads : List Pull) (fname : List Byte) (jb : Option (List Byte))
    (js : Nat) (level : Option Int) :
    lbz_open ⟨true, some (reader reads), BZ_OK, jb, js⟩ fname (some (cstr "r")) level
      = (.values [.userdata], some (fresh reads)) := by
  simp [lbz_open, lbz_open_codec, lbz_buffer_init, fresh, cstr, BZ_OK]

/-! ## C8: close is idempotent -/

/-- C8. On every session state, in read and in write mode, a close (explicit
or by the finalizer) that follows a first close (explicit or by the finalizer)
returns no values and leaves the state exactly as the first close left it, with
both handles released; the first close of an open write-mode session returns
the two byte counters and the finalizer leaves the same state as an explicit close. -/
theorem lbz_close_idempotent (state : lbz_state) :
    lbz_close (lbz_close state).2 = (.values [], (lbz_close state).2)
    ∧ lbz_gc (lbz_close state).2 = (.values [], (lbz_close state).2)
    ∧ lbz_close (lbz_gc state).2 = (.values [], (lbz_gc state).2)
    ∧ (lbz_gc state).2 = (lbz_close state).2
    ∧ (lbz_close state).2.bz_stream = none
    ∧ (∀ (bz : BZFILE) (f : Bool) (buf : Option (List Byte)) (n : Nat),
        lbz_close ⟨some bz, f, 'w', buf, n⟩
          = (.values [.number (bz.total_in % 2 ^ 32), .number (bz.total_out % 2 ^ 32)],
             ⟨none, false, 'w', buf, n⟩)) := by
  rcases state with ⟨bz, f, mode, buf, n⟩
  refine ⟨?_, ?_, ?_, ?_, ?_, ?_⟩
  · by_cases hm : mode = 'r' <;> cases bz <;> cases buf <;>
      simp [lbz_close, lbz_perform_close, lbz_buffer_free, top, hm]
  · by_cases hm : mode = 'r' <;> cases bz <;> cases buf <;>
      simp [lbz_gc, lbz_close, lbz_perform_close, lbz_buffer_free, top, hm]
  · by_cases hm : mode = 'r' <;> cases bz <;> cases buf <;>
      simp [lbz_gc, lbz_close, lbz_perform_close, lbz_buffer_free, top, hm]
  · rfl
  · by_cases hm : mode = 'r' <;> cases bz <;> cases buf <;>
      simp [lbz_close, lbz_perform_close, lbz_buffer_free, hm]
  · intro bz f buf n
    have h : ¬ ('w' = 'r') := by decide
    simp [lbz_close, lbz_perform_close, top, h]

/-! ## C6: the iterator of lines -/

/-- The loop of `lbz_getline_read` never raises a Lua error, and what it returns
is either one value that is not nil, or nil and a message. -/
theorem lbz_getline_loop_shape (LB : Nat) (keep_eol : Bool) (bz : BZFILE)
    (reads : List Pull) :
    ∀ (state : lbz_state) (b : List Byte),
      (∀ msg, (lbz_getline_loop LB keep_eol bz state reads b).1 ≠ .raise msg)
      ∧ ∀ vs, (lbz_getline_loop LB keep_eol bz state reads b).1 = .values vs →
          (∃ msg, vs = [.nil, .string msg]) ∨ (∃ v, vs = [v] ∧ v ≠ .nil) := by
  induction reads with
  | nil =>
    intro state b
    simp [lbz_getline_loop, BZ2_bzerror]
  | cons p rest ih =>
    intro state b
    rw [lbz_getline_loop]
    by_cases he : p.bzerror ≠ BZ_OK ∧ p.bzerror ≠ BZ_STREAM_END
    · rw [if_pos he]
      simp [BZ2_bzerror]
    · rw [if_neg he]
      rcases hh : lbz_handle_eol LB b p.data
          { state with bz_stream := some { bz with reads := rest } } true keep_eol
        with _ | ⟨found, b2, st2⟩
      · simp
      · cases found
        · simpa using ih st2 b2
        · by_cases hs : p.bzerror = BZ_STREAM_END
          · simp only [hs, if_true]
            by_cases hm : st2.mode = 'r' <;> rcases hz : st2.bz_stream with _ | z <;>
              by_cases hk : st2.buf_size = 0 <;> rcases hb : st2.buf with _ | m <;>
              simp [lbz_perform_close, lbz_buffer_free, top, hm, hz, hk, hb]
          · simp [hs, top]

/-- C6. For every session state and caller flag `k`, a step of the iterator made
by `lines(k)` returns the values and leaves the state of `getline` called with
`skipEol = not k`, whatever arguments the loop passes; `lines()` without a flag
strips the EOL; a step raises no Lua error, and what it returns is either a single
value other than nil or the failure pair (nil, message) that ends the loop. -/
theorem lbz_line_iter_is_getline (LB : Nat) (state : lbz_state) (k : LuaValue)
    (args : List LuaValue) :
    lbz_line_iter LB (lbz_lines k) state args
        = lbz_getline LB state (.boolean (!lua_toboolean k))
    ∧ lbz_lines .nil = .boolean true
    ∧ (∀ msg, (lbz_line_iter LB (lbz_lines k) state args).1 ≠ .raise msg)
    ∧ (∀ vs, (lbz_line_iter LB (lbz_lines k) state args).1 = .values vs →
        (∃ msg, vs = [.nil, .string msg]) ∨ (∃ v, vs = [v] ∧ v ≠ .nil)) := by
  refine ⟨rfl, rfl, ?_⟩
  show (∀ msg, (lbz_getline LB state (lbz_lines k)).1 ≠ .raise msg)
    ∧ (∀ vs, (lbz_getline LB state (lbz_lines k)).1 = .values vs →
        (∃ msg, vs = [.nil, .string msg]) ∨ (∃ v, vs = [v] ∧ v ≠ .nil))
  generalize lbz_lines k = a
  have hread : ∀ (b : List Byte) (st : lbz_state) (ke : Bool),
      (∀ msg, (lbz_getline_read LB b st ke).1 ≠ .raise msg)
      ∧ (∀ vs, (lbz_getline_read LB b st ke).1 = .values vs →
        (∃ msg, vs = [.nil, .string msg]) ∨ (∃ v, vs = [v] ∧ v ≠ .nil)) := by
    intro b st ke
    rcases st with ⟨bz, f, mode, buf, n⟩
    rcases bz with _ | z
    · by_cases hm : mode = 'r' <;> rcases buf with _ | m <;>
        simp [lbz_getline_read, lbz_perform_close, lbz_buffer_free, lbz_buffer_drain_all, top, hm]
    · by_cases hw : z.writing = true
      · simp [lbz_getline_read, lbz_buffer_drain_all, hw, BZ2_bzerror]
      · simp only [lbz_getline_read, lbz_buffer_drain_all, hw]
        exact lbz_getline_loop_shape LB ke z z.reads _ _
  rcases state with ⟨bz, f, mode, buf, n⟩
  unfold lbz_getline
  by_cases hc : bz = none ∧ buf = none
  · rw [if_pos hc]
    simp
  · rw [if_neg hc]
    by_cases hn : n ≠ 0
    · rw [if_pos hn]
      rcases buf with _ | m
      · simp [lbz_buffer_drain_all]
      · simp only [lbz_buffer_drain_all]
        rcases hh : lbz_handle_eol LB [] (readmem m n) ⟨bz, f, mode, some m, 0⟩ false
            (!lua_toboolean a) with _ | ⟨found, b2, st2⟩
        · simp
        · cases found
          · exact hread b2 st2 _
          · simp [top]
    · rw [if_neg hn]
      exact hread _ _ _

/-! ## C7: read("*a") on a fresh session -/

/-- The `while` loop of `lbz_read` over a delivery that ends with `BZ_STREAM_END`,
when more bytes are requested than the chunks before the last one hold. -/
theorem lbz_read_loop_delivery (cs : List (List Byte)) (last : List Byte) :
    ∀ (b : List Byte) (len : Int), (cs.flatten.length : Int) < len →
      lbz_read_loop (delivery cs last) b len = (BZ_STREAM_END, b ++ cs.flatten ++ last, []) := by
  induction cs with
  | nil =>
    intro b len h
    have h0 : len > 0 := by simpa using h
    have hne : BZ_STREAM_END ≠ BZ_OK := by decide
    by_cases hl : last = []
    · simp [delivery, lbz_read_loop, h0, hne, hl]
    · have : 0 < last.length := List.length_pos.mpr hl
      simp [delivery, lbz_read_loop, h0, hne, this]
  | cons c cs ih =>
    intro b len h
    simp only [List.flatten_cons, List.length_append, Nat.cast_add] at h
    have hc : (0 : Int) ≤ (c.length : Int) := Int.natCast_nonneg _
    have hcs : (0 : Int) ≤ (cs.flatten.length : Int) := Int.natCast_nonneg _
    have h0 : len > 0 := by omega
    have hrec := ih (b ++ c) (len - c.length) (by omega)
    simp only [delivery] at hrec
    by_cases hl : c = []
    · subst hl
      simp only [List.append_nil, List.length_nil, Nat.cast_zero, sub_zero] at hrec
      simp [delivery, lbz_read_loop, h0, hrec]
    · have : 0 < c.length := List.length_pos.mpr hl
      simp [delivery, lbz_read_loop, h0, this, hrec]

/-- C7. For every content of fewer than `INT_MAX` bytes, delivered by the codec in
any chunks `cs` and a last chunk that comes with `BZ_STREAM_END`, `read("*a")` on
a freshly opened read session returns the whole content in that single call and
leaves the session closed: the next `read`, with a number or with "*a", returns
(nil, "CLOSED") and changes nothing. -/
theorem lbz_read_all_fresh (cs : List (List Byte)) (last : List Byte)
    (hlen : ((cs.flatten ++ last).length : Int) < INT_MAX) :
    lbz_read (fresh (delivery cs last)) (.string (cstr "*a"))
        = (.values [.string (cs.flatten ++ last)], closed 'r')
    ∧ (∀ n : Int, lbz_read (closed 'r') (.number n) = (CLOSED, closed 'r'))
    ∧ lbz_read (closed 'r') (.string (cstr "*a")) = (CLOSED, closed 'r') := by
  refine ⟨?_, ?_, ?_⟩
  · have hl : (cs.flatten.length : Int) < INT_MAX := by
      simp only [List.length_append, Nat.cast_add] at hlen
      have : (0 : Int) ≤ (last.length : Int) := Int.natCast_nonneg _
      omega
    have hloop := lbz_read_loop_delivery cs last [] INT_MAX hl
    have hne : BZ_STREAM_END ≠ BZ_OK := by decide
    simp [lbz_read, lbz_read_len, lua_tostring_all, lbz_read_carry, lbz_read_exit, fresh, reader, lbz_read_pulls,
      hloop, hne, lbz_perform_close, lbz_buffer_free, top, closed]
  · intro n
    simp [lbz_read, lbz_read_len, lua_tostring_all, closed, CLOSED]
  · simp [lbz_read, lbz_read_len, lua_tostring_all, closed, CLOSED]

/-- Witness of C7: the content "ab\ncd" delivered as "ab", "\nc" and, with `BZ_STREAM_END`, "d". -/
theorem lbz_read_all_fresh_witness :
    lbz_read (fresh (delivery [[97, 98], [10, 99]] [100])) (.string (cstr "*a"))
        = (.values [.string [97, 98, 10, 99, 100]], closed 'r')
    ∧ (∀ n : Int, lbz_read (closed 'r') (.number n) = (CLOSED, closed 'r'))
    ∧ lbz_read (closed 'r') (.string (cstr "*a")) = (CLOSED, closed 'r') :=
  lbz_read_all_fresh [[97, 98], [10, 99]] [100] (by decide)

/-! ## C4, C3: the last line without newline -/

/-- C4. The code at the failing input: the codec delivers "abc" together with
`BZ_STREAM_END`.  `getline` does not stop there: it asks the codec again, gets
`BZ_SEQUENCE_ERROR`, returns (nil, message) instead of the line "abc", and leaves
both handles and the buffer unreleased.  Were there another answer ("d\n") the
same call would take it and return "abcd\n": a further chunk is pulled. -/
theorem lbz_getline_pulls_after_stream_end :
    lbz_getline 8192 (fresh [⟨[97, 98, 99], BZ_STREAM_END⟩]) .nil
        = (.values [.nil, .string (cstr "SEQUENCE_ERROR")], fresh [])
    ∧ lbz_getline 8192 (fresh []) .nil
        = (.values [.nil, .string (cstr "SEQUENCE_ERROR")], fresh [])
    ∧ (lbz_getline 8192 (fresh [⟨[97, 98, 99], BZ_STREAM_END⟩, ⟨[100, 10], BZ_OK⟩]) .nil).1
        = .values [.string [97, 98, 99, 100, 10]] := by
  decide

/-- C3. The content "a\nb\nc" delivered in one chunk with `BZ_STREAM_END` gives
"a", "b", "c" (EOL stripped) and "a\n", "b\n", "c" (EOL kept) and then
(nil, "CLOSED"); delivered as "a\nb\n" and then "c" with `BZ_STREAM_END`, the
third call returns (nil, "SEQUENCE_ERROR") instead of "c", and so does the fourth. -/
theorem lbz_getline_last_line_lost :
    (getlines 8192 (.boolean true) 4 (fresh (delivery [] [97, 10, 98, 10, 99]))).1
        = [.values [.string [97]], .values [.string [98]], .values [.string [99]], CLOSED]
    ∧ (getlines 8192 .nil 4 (fresh (delivery [] [97, 10, 98, 10, 99]))).1
        = [.values [.string [97, 10]], .values [.string [98, 10]], .values [.string [99]],
           CLOSED]
    ∧ (getlines 8192 (.boolean true) 4 (fresh (delivery [[97, 10, 98, 10]] [99]))).1
        = [.values [.string [97]], .values [.string [98]],
           .values [.nil, .string (cstr "SEQUENCE_ERROR")],
           .values [.nil, .string (cstr "SEQUENCE_ERROR")]] := by
  decide

/-! ## C5: lines of a content that ends with a newline -/

/-- C5. The code at the failing input: the content "a\nb\n" delivered in one chunk
with `BZ_STREAM_END`.  Successive `getline` calls with the EOL stripped return
"a", "b" and then a third line, the empty string, before (nil, "CLOSED"); the
content "a\n" alone gives "a" and then (nil, "CLOSED"). -/
theorem lbz_getline_extra_empty_line :
    (getlines 8192 (.boolean true) 4 (fresh (delivery [] [97, 10, 98, 10]))).1
        = [.values [.string [97]], .values [.string [98]], .values [.string []], CLOSED]
    ∧ (getlines 8192 (.boolean true) 2 (fresh (delivery [] [97, 10]))).1
        = [.values [.string [97]], CLOSED] := by
  decide

/-! ## C9: write after close -/

/-- C9. The code on a write-mode session after `close`: `write()` without
arguments returns `true`, and `write("x")` hands the `NULL` handle to
`BZ2_bzWrite` and then to `BZ2_bzerror`, which dereferences it. -/
theorem lbz_write_after_close :
    (∀ (bz : BZFILE) (f : Bool) (buf : Option (List Byte)) (n : Nat),
        (lbz_close ⟨some bz, f, 'w', buf, n⟩).2 = ⟨none, false, 'w', buf, n⟩
        ∧ lbz_write (lbz_close ⟨some bz, f, 'w', buf, n⟩).2 []
            = (.values [.boolean true], ⟨none, false, 'w', buf, n⟩)
        ∧ lbz_write (lbz_close ⟨some bz, f, 'w', buf, n⟩).2 [.string [120]]
            = (.fault, ⟨none, false, 'w', buf, n⟩))
    ∧ BZ2_bzWrite none [120] = (BZ_PARAM_ERROR, none)
    ∧ BZ2_bzerror none BZ_PARAM_ERROR = none := by
  refine ⟨?_, rfl, rfl⟩
  intro bz f buf n
  have h : ¬ ('w' = 'r') := by decide
  have hs : (lbz_close ⟨some bz, f, 'w', buf, n⟩).2 = ⟨none, false, 'w', buf, n⟩ := by
    simp [lbz_close, lbz_perform_close, h]
  rw [hs]
  refine ⟨rfl, ?_, ?_⟩
  · simp [lbz_write, lbz_write_loop]
  · have hp : ¬ (BZ_PARAM_ERROR = BZ_OK) := by decide
    simp [lbz_write, lbz_write_loop, luaL_checklstring, BZ2_bzWrite, BZ2_bzerror, hp]

/-! ## C10: codec released and carryover empty -/

/-- C10. The code at the failing input: the content "a\nbc" delivered in one chunk
with `BZ_STREAM_END`; `getline()` returns "a\n" and `read(2)` returns "bc".  The
codec is now released and the carryover holds zero bytes, but the buffer is still
allocated: `getline` returns the empty string as a success and changes the state,
`read(0)` returns the empty string as a success, and `read(1)` hands the `NULL`
handle to the codec (a fault) instead of returning (nil, "CLOSED"). -/
theorem lbz_closed_empty_carryover_not_reported :
    run 8192 (fresh (delivery [] [97, 10, 98, 99])) [.getline, .read (.number 2)]
        = ([97, 10, 98, 99], true, ⟨none, false, 'r', some [98, 99], 0⟩)
    ∧ carryover ⟨none, false, 'r', some [98, 99], 0⟩ = []
    ∧ lbz_getline 8192 ⟨none, false, 'r', some [98, 99], 0⟩ .nil
        = (.values [.string []], closed 'r')
    ∧ lbz_read ⟨none, false, 'r', some [98, 99], 0⟩ (.number 0)
        = (.values [.string []], ⟨none, false, 'r', some [98, 99], 0⟩)
    ∧ lbz_read ⟨none, false, 'r', some [98, 99], 0⟩ (.number 1)
        = (.fault, ⟨none, false, 'r', some [98, 99], 0⟩) := by
  decide

/-! ## C1: no byte lost or duplicated -/

theorem memwrite_zero (m d : List Byte) : memwrite m 0 d = d ++ m.drop d.length := by
  simp [memwrite]

theorem bytesOf_nil : bytesOf [] = [] := rfl

theorem bytesOf_cons (p : Pull) (ps : List Pull) : bytesOf (p :: ps) = p.data ++ bytesOf ps := by
  simp [bytesOf]

theorem bytesOf_append (ps qs : List Pull) : bytesOf (ps ++ qs) = bytesOf ps ++ bytesOf qs := by
  simp [bytesOf]

/-- Draining `k` of the `n` live bytes keeps the other `n - k` in order at the front. -/
theorem drain_keeps (m : List Byte) (n k : Nat) (hn : n ≤ m.length) (hk : k ≤ n) :
    readmem m k ++ readmem (memwrite m 0 (readmem (m.drop k) (n - k))) (n - k) = readmem m n
    ∧ n - k ≤ (memwrite m 0 (readmem (m.drop k) (n - k))).length := by
  have hlen : (readmem (m.drop k) (n - k)).length = n - k := by
    simp only [readmem, List.length_take, List.length_drop]
    omega
  constructor
  · rw [memwrite_zero]
    have e1 : readmem (readmem (m.drop k) (n - k) ++ m.drop (readmem (m.drop k) (n - k)).length)
        (n - k) = readmem (m.drop k) (n - k) := by
      unfold readmem at hlen ⊢
      exact List.take_left' hlen
    rw [e1]
    unfold readmem
    have h2 : n = k + (n - k) := by omega
    conv_rhs => rw [h2, List.take_add]
  · rw [memwrite_zero, List.length_append, hlen]
    omega

/-- The carryover block of `lbz_read` on a well-shaped buffer: `k` bytes are taken
from the front, the others stay in order, and all of them are taken when the
request is not yet satisfied. -/
theorem lbz_read_carry_spec (bz : Option BZFILE) (f : Bool) (m : List Byte) (n : Nat)
    (len : Int) (hn : n ≤ m.length) :
    ∃ (k : Nat) (m' : List Byte) (len' : Int),
      lbz_read_carry ⟨bz, f, 'r', some m, n⟩ len
          = (readmem m k, ⟨bz, f, 'r', some m', n - k⟩, len')
      ∧ k ≤ n ∧ n - k ≤ m'.length
      ∧ readmem m k ++ readmem m' (n - k) = readmem m n
      ∧ (len' > 0 → k = n) := by
  by_cases h0 : n = 0
  · subst h0
    exact ⟨0, m, len, by simp [lbz_read_carry, readmem], le_refl _, Nat.zero_le _,
      by simp [readmem], fun _ => rfl⟩
  · have hk : (if (n : Int) < to_size_t len then (n : Int) else len).toNat ≤ n := by
      unfold to_size_t
      split_ifs <;> omega
    have hall : len - (if (n : Int) < to_size_t len then (n : Int) else len) > 0 →
        (if (n : Int) < to_size_t len then (n : Int) else len).toNat = n := by
      unfold to_size_t
      split_ifs <;> omega
    obtain ⟨hd1, hd2⟩ := drain_keeps m n _ hn hk
    exact ⟨_, _, _, by simp [lbz_read_carry, h0, lbz_buffer_drain], hk, hd2, hd1, hall⟩

/-- The loop of `lbz_read` splits the answers into those it took and those it left. -/
theorem lbz_read_loop_spec (reads : List Pull) :
    ∀ (b : List Byte) (len : Int),
      ∃ pulled, reads = pulled ++ (lbz_read_loop reads b len).2.2
        ∧ (lbz_read_loop reads b len).2.1 = b ++ bytesOf pulled
        ∧ (len ≤ 0 → pulled = [] ∧ (lbz_read_loop reads b len).1 = BZ_OK) := by
  induction reads with
  | nil =>
    intro b len
    refine ⟨[], ?_, ?_, ?_⟩
    · by_cases h : len > 0 <;> simp [lbz_read_loop, h]
    · by_cases h : len > 0 <;> simp [lbz_read_loop, h, bytesOf_nil]
    · intro h
      have : ¬ len > 0 := by omega
      simp [lbz_read_loop, this]
  | cons p rest ih =>
    intro b len
    by_cases h : len > 0
    · have hb : (if (p.data.length : Int) > 0 then b ++ p.data else b) = b ++ p.data := by
        by_cases hl : p.data = []
        · simp [hl]
        · have : 0 < p.data.length := List.length_pos.mpr hl
          simp [this]
      by_cases he : p.bzerror ≠ BZ_OK
      · refine ⟨[p], ?_, ?_, ?_⟩
        · simp [lbz_read_loop, h, he]
        · simp only [lbz_read_loop, h, he, if_true, hb, ne_eq, not_false_eq_true]
          simp [bytesOf]
        · intro h'
          omega
      · obtain ⟨pulled, h1, h2, _⟩ := ih (b ++ p.data)
          (if (p.data.length : Int) > 0 then len - p.data.length else len)
        refine ⟨p :: pulled, ?_, ?_, ?_⟩
        · simp only [lbz_read_loop, h, he, if_true, if_false, hb]
          simpa using h1
        · simp only [lbz_read_loop, h, he, if_true, if_false, hb]
          rw [h2, bytesOf_cons]
          simp
        · intro h'
          omega
    · refine ⟨[], ?_, ?_, ?_⟩
      · simp [lbz_read_loop, h]
      · simp [lbz_read_loop, h, bytesOf_nil]
      · intro _
        simp [lbz_read_loop, h]

/-- When the loop of `lbz_read` ends on `BZ_STREAM_END`, the last answer it took is
the one that came with this status. -/
theorem lbz_read_loop_stream_end (reads : List Pull) :
    ∀ (b : List Byte) (len : Int), (lbz_read_loop reads b len).1 = BZ_STREAM_END →
      ∃ (pre : List Pull) (p : Pull),
        reads = (pre ++ [p]) ++ (lbz_read_loop reads b len).2.2 ∧ p.bzerror = BZ_STREAM_END := by
  induction reads with
  | nil =>
    intro b len h
    by_cases hl : len > 0 <;>
      simp [lbz_read_loop, hl, BZ_SEQUENCE_ERROR, BZ_OK, BZ_STREAM_END] at h
  | cons p rest ih =>
    intro b len h
    by_cases hl : len > 0
    · by_cases he : p.bzerror ≠ BZ_OK
      · simp only [lbz_read_loop, hl, he, if_true, ne_eq, not_false_eq_true] at h ⊢
        exact ⟨[], p, by simp, h⟩
      · simp only [lbz_read_loop, hl, he, if_true, if_false] at h ⊢
        obtain ⟨pre, q, h1, h2⟩ := ih _ _ h
        exact ⟨p :: pre, q, by simpa using h1, h2⟩
    · simp [lbz_read_loop, hl, BZ_OK, BZ_STREAM_END] at h

/-- A successful `read` keeps the shape of the session and loses no byte. -/
theorem lbz_read_conserves (s : lbz_state) (a : LuaValue) (hinv : ReadInv s)
    (hs : succeeded (lbz_read s a).1 = true) :
    ReadInv (lbz_read s a).2 ∧ Conserves s (bytesReturned (lbz_read s a).1) (lbz_read s a).2 := by
  rcases s with ⟨bz, f, mode, buf, n⟩
  obtain ⟨hm, hz, hb, hb0⟩ := hinv
  simp only at hm hz hb hb0
  subst hm
  rcases hl : lbz_read_len a with _ | len
  · simp [lbz_read, hl, succeeded] at hs
  rcases buf with _ | m
  · rcases bz with _ | z
    · simp [lbz_read, hl, succeeded] at hs
    · exact absurd rfl (hz z rfl).2
  have hn : n ≤ m.length := hb m rfl
  obtain ⟨k, m', len', hc, hk, hm', hcat, hall⟩ := lbz_read_carry_spec bz f m n len hn
  simp only [lbz_read, hl, hc] at hs ⊢
  simp only [ne_eq, not_true_eq_false, if_false, reduceCtorEq, and_false, and_self] at hs ⊢
  rcases bz with _ | z
  · by_cases hpos : len' > 0
    · simp [lbz_read_pulls, hpos, lbz_read_exit, BZ2_bzerror, succeeded, BZ_PARAM_ERROR, BZ_OK,
        BZ_STREAM_END] at hs
    · simp only [lbz_read_pulls, hpos, if_false, lbz_read_exit, if_true, top, bytesReturned]
      refine ⟨⟨rfl, by simp, by simpa using hm', by simp⟩, [], by simp [pending], by simp, by simp,
        by simp, ?_⟩
      simpa [carryover, bytesOf_nil] using hcat
  · have hw : z.writing = false := (hz z rfl).1
    obtain ⟨pulled, h1, h2, h3⟩ := lbz_read_loop_spec z.reads (readmem m k) len'
    have hse := lbz_read_loop_stream_end z.reads (readmem m k) len'
    simp only [lbz_read_pulls, hw] at hs ⊢
    simp only [Bool.false_eq_true, if_false] at hs ⊢
    generalize lbz_read_loop z.reads (readmem m k) len' = r at hs h1 h2 h3 hse ⊢
    rcases r with ⟨e, b', rest⟩
    simp only at hs h1 h2 h3 hse ⊢
    by_cases he : e = BZ_OK
    · subst he
      simp only [lbz_read_exit, if_true, top, bytesReturned]
      refine ⟨⟨rfl, by simp [hw], by simpa using hm', by simp⟩, pulled, ?_, ?_, by simp,
        by simp, ?_⟩
      · simp [pending, h1]
      · intro _
        simpa [pending] using h1
      · subst h2
        by_cases hpos : len' > 0
        · have hkn := hall hpos
          subst hkn
          simp [carryover, readmem]
        · have := (h3 (by omega)).1
          subst this
          simpa [carryover, bytesOf_nil] using hcat
    · by_cases hend : e = BZ_STREAM_END
      · subst hend
        have hpos : len' > 0 := by
          by_contra hcon
          exact he (h3 (by omega)).2
        have hkn := hall hpos
        subst hkn
        subst h2
        simp only [lbz_read_exit, he, if_false, if_true, lbz_perform_close, lbz_buffer_free,
          and_self, top, bytesReturned]
        obtain ⟨pre, q, hq1, hq2⟩ := hse rfl
        have hpq : pulled = pre ++ [q] := by
          rw [h1] at hq1
          exact List.append_cancel_right hq1
        refine ⟨⟨rfl, by simp, by simp, by simp⟩, pulled, ?_, by simp, by simp,
          fun _ _ => ⟨pre, q, hpq, hq2⟩, ?_⟩
        · simp [pending, h1]
        · simp [carryover, readmem]
      · simp [lbz_read_exit, he, hend, BZ2_bzerror, succeeded] at hs

/-- The function `lbz_handle_eol` with the EOL kept, on an empty carryover: without
a newline all of `data` joins the Lua buffer; with one, the Lua buffer followed by
the new carryover is the old Lua buffer followed by `data`. -/
theorem lbz_handle_eol_keep (LB : Nat) (b data : List Byte) (bz : Option BZFILE) (f : Bool)
    (m : List Byte) (in_buffer : Bool) (found : Bool) (b' : List Byte) (st' : lbz_state)
    (h : lbz_handle_eol LB b data ⟨bz, f, 'r', some m, 0⟩ in_buffer true = some (found, b', st')) :
    (found = false → b' = b ++ data ∧ st' = ⟨bz, f, 'r', some m, 0⟩)
    ∧ (found = true → ∃ (m' : List Byte) (j : Nat),
        st' = ⟨bz, f, 'r', some m', j⟩ ∧ j ≤ m'.length ∧ b' ++ readmem m' j = b ++ data) := by
  unfold lbz_handle_eol at h
  rcases hmc : memchr data NL with _ | eol
  · rw [hmc] at h
    cases in_buffer <;>
      simp only [luaL_addsize, luaL_addlstring, readmem, List.take_length, if_true,
        Bool.false_eq_true, if_false, Option.some.injEq, Prod.mk.injEq] at h <;>
      obtain ⟨h1, h2, h3⟩ := h <;> subst h1 <;> simp [h2.symm, h3.symm]
  · rw [hmc] at h
    simp only [lbz_buffer_append, if_true, Nat.zero_add, Option.map_some'] at h
    by_cases hlt : (List.drop (eol + 1) data).length < LB
    · simp only [hlt, if_true] at h
      have hb : b' = b ++ data.take (eol + 1) := by
        cases in_buffer <;>
          simp only [luaL_addsize, luaL_addlstring, readmem, if_true, Bool.false_eq_true,
            if_false, Option.some.injEq, Prod.mk.injEq] at h <;> exact h.2.1.symm
      have hst : st' = ⟨bz, f, 'r', some (memwrite m 0 (List.drop (eol + 1) data)),
          (List.drop (eol + 1) data).length⟩ := by
        cases in_buffer <;>
          simp only [Option.some.injEq, Prod.mk.injEq] at h <;> exact h.2.2.symm
      have hf : found = true := by
        cases in_buffer <;>
          simp only [Option.some.injEq, Prod.mk.injEq] at h <;> exact h.1.symm
      subst hf
      refine ⟨by simp, fun _ => ⟨_, _, hst, ?_, ?_⟩⟩
      · rw [memwrite_zero]
        simp
      · rw [hb, memwrite_zero]
        unfold readmem
        rw [List.take_left' rfl, List.append_assoc, List.take_append_drop]
    · rw [List.length_drop] at hlt
      simp [hlt] at h

/-- Closing an open read session while keeping the buffer. -/
theorem lbz_perform_close_keep (z : BZFILE) (f : Bool) (m : List Byte) (n : Nat) :
    lbz_perform_close ⟨some z, f, 'r', some m, n⟩ true = ([], ⟨none, false, 'r', some m, n⟩) := by
  simp [lbz_perform_close]

/-- Closing an open read session and freeing the buffer. -/
theorem lbz_perform_close_free (z : BZFILE) (f : Bool) (m : List Byte) (n : Nat) :
    lbz_perform_close ⟨some z, f, 'r', some m, n⟩ false = ([], ⟨none, false, 'r', none, 0⟩) := by
  simp [lbz_perform_close, lbz_buffer_free]

/-- A successful run of the loop of `lbz_getline_read` (EOL kept), entered with an
empty carryover, keeps the shape of the session and loses no byte. -/
theorem lbz_getline_loop_conserves (LB : Nat) (z : BZFILE) (hw : z.writing = false)
    (reads : List Pull) :
    ∀ (sz : Option BZFILE) (f : Bool) (m b : List Byte),
      succeeded (lbz_getline_loop LB true z ⟨sz, f, 'r', some m, 0⟩ reads b).1 = true →
      ReadInv (lbz_getline_loop LB true z ⟨sz, f, 'r', some m, 0⟩ reads b).2
      ∧ ∃ pulled : List Pull, pulled <+: reads
        ∧ ((lbz_getline_loop LB true z ⟨sz, f, 'r', some m, 0⟩ reads b).2.bz_stream ≠ none →
            reads = pulled ++ pending (lbz_getline_loop LB true z ⟨sz, f, 'r', some m, 0⟩ reads b).2)
        ∧ ((lbz_getline_loop LB true z ⟨sz, f, 'r', some m, 0⟩ reads b).2.bz_stream = none →
            EndsStream pulled)
        ∧ bytesReturned (lbz_getline_loop LB true z ⟨sz, f, 'r', some m, 0⟩ reads b).1
            ++ carryover (lbz_getline_loop LB true z ⟨sz, f, 'r', some m, 0⟩ reads b).2
          = b ++ bytesOf pulled := by
  induction reads with
  | nil =>
    intro sz f m b hs
    simp [lbz_getline_loop, BZ2_bzerror, succeeded] at hs
  | cons p rest ih =>
    intro sz f m b
    rw [lbz_getline_loop]
    by_cases he : p.bzerror ≠ BZ_OK ∧ p.bzerror ≠ BZ_STREAM_END
    · rw [if_pos he]
      intro hs
      simp [BZ2_bzerror, succeeded] at hs
    · rw [if_neg he]
      rcases hh : lbz_handle_eol LB b p.data
          ⟨some { z with reads := rest }, f, 'r', some m, 0⟩ true true
        with _ | ⟨found, b2, st2⟩
      · intro hs
        simp [succeeded] at hs
      · obtain ⟨hnf, hfd⟩ := lbz_handle_eol_keep LB b p.data _ f m true found b2 st2 hh
        cases found
        · obtain ⟨hb2, hst2⟩ := hnf rfl
          subst hb2 hst2
          intro hs
          obtain ⟨hinv, pulled, h1, h2, hE, h3⟩ := ih _ f m (b ++ p.data) hs
          refine ⟨hinv, p :: pulled, ?_, ?_, ?_, ?_⟩
          · exact (List.prefix_cons_inj p).mpr h1
          · intro hne
            rw [List.cons_append, ← h2 hne]
          · intro hnone
            obtain ⟨pre, q, hq1, hq2⟩ := hE hnone
            exact ⟨p :: pre, q, by simp [hq1], hq2⟩
          · rw [h3, bytesOf_cons, List.append_assoc]
        · obtain ⟨m', j, hst2, hj, hcat⟩ := hfd rfl
          subst hst2
          intro hs
          by_cases hend : p.bzerror = BZ_STREAM_END
          · by_cases hj0 : j = 0
            · subst hj0
              have hd : decide ((0 : Nat) ≠ 0) = false := by simp
              simp only [hend, if_true, hd, lbz_perform_close_free, top, bytesReturned]
              simp only [readmem, List.take_zero, List.append_nil] at hcat
              refine ⟨⟨rfl, by simp, by simp, by simp⟩, [p], by simp, by simp,
                fun _ => ⟨[], p, by simp, hend⟩, ?_⟩
              simp [carryover, bytesOf, hcat]
            · have hd : decide (j ≠ 0) = true := by simp [hj0]
              simp only [hend, if_true, hd, lbz_perform_close_keep, top, bytesReturned]
              refine ⟨⟨rfl, by simp, by simpa using hj, by simp⟩, [p], by simp, by simp,
                fun _ => ⟨[], p, by simp, hend⟩, ?_⟩
              simp [carryover, bytesOf, hcat]
          · simp only [hend, if_false, top, bytesReturned]
            refine ⟨⟨rfl, by simp [hw], by simpa using hj, by simp⟩, [p], by simp,
              by simp [pending], by simp, ?_⟩
            simp [carryover, bytesOf, hcat]

/-- A successful `lbz_getline_read` (EOL kept), entered with an empty carryover,
keeps the shape of the session and loses no byte. -/
theorem lbz_getline_read_conserves (LB : Nat) (bz : Option BZFILE) (f : Bool)
    (buf : Option (List Byte)) (b : List Byte)
    (hz : ∀ z, bz = some z → z.writing = false ∧ buf ≠ none)
    (hs : succeeded (lbz_getline_read LB b ⟨bz, f, 'r', buf, 0⟩ true).1 = true) :
    ReadInv (lbz_getline_read LB b ⟨bz, f, 'r', buf, 0⟩ true).2
    ∧ ∃ pulled : List Pull, pulled <+: pending ⟨bz, f, 'r', buf, 0⟩
      ∧ ((lbz_getline_read LB b ⟨bz, f, 'r', buf, 0⟩ true).2.bz_stream ≠ none →
          pending ⟨bz, f, 'r', buf, 0⟩
            = pulled ++ pending (lbz_getline_read LB b ⟨bz, f, 'r', buf, 0⟩ true).2)
      ∧ (bz = none → (lbz_getline_read LB b ⟨bz, f, 'r', buf, 0⟩ true).2.bz_stream = none)
      ∧ (bz ≠ none → (lbz_getline_read LB b ⟨bz, f, 'r', buf, 0⟩ true).2.bz_stream = none →
          EndsStream pulled)
      ∧ bytesReturned (lbz_getline_read LB b ⟨bz, f, 'r', buf, 0⟩ true).1
          ++ carryover (lbz_getline_read LB b ⟨bz, f, 'r', buf, 0⟩ true).2
        = b ++ bytesOf pulled := by
  rcases bz with _ | z
  · have hr : lbz_getline_read LB b ⟨none, f, 'r', buf, 0⟩ true
        = (.values [.string b], ⟨none, f, 'r', none, 0⟩) := by
      rcases buf with _ | m <;>
        simp [lbz_getline_read, lbz_buffer_drain_all, lbz_perform_close, lbz_buffer_free,
          luaL_addlstring, readmem, top]
    rw [hr]
    refine ⟨⟨rfl, by simp, by simp, by simp⟩, [], by simp, by simp, by simp, by simp, ?_⟩
    simp [bytesReturned, carryover, bytesOf_nil]
  · obtain ⟨hw, hbuf⟩ := hz z rfl
    rcases buf with _ | m
    · exact absurd rfl hbuf
    · have hr : lbz_getline_read LB b ⟨some z, f, 'r', some m, 0⟩ true
          = lbz_getline_loop LB true z ⟨some z, f, 'r', some m, 0⟩ z.reads b := by
        simp [lbz_getline_read, lbz_buffer_drain_all, luaL_addlstring, readmem, hw]
      rw [hr] at hs ⊢
      obtain ⟨hinv, pulled, h1, h2, hE, h3⟩ :=
        lbz_getline_loop_conserves LB z hw z.reads (some z) f m b hs
      exact ⟨hinv, pulled, by simpa [pending] using h1, by simpa [pending] using h2,
        by simp, fun _ => hE, h3⟩

/-- A successful `getline()` (EOL kept) keeps the shape of the session and loses no byte. -/
theorem lbz_getline_conserves (LB : Nat) (s : lbz_state) (hinv : ReadInv s)
    (hs : succeeded (lbz_getline LB s .nil).1 = true) :
    ReadInv (lbz_getline LB s .nil).2
    ∧ Conserves s (bytesReturned (lbz_getline LB s .nil).1) (lbz_getline LB s .nil).2 := by
  rcases s with ⟨bz, f, mode, buf, n⟩
  obtain ⟨hm, hz, hb, hb0⟩ := hinv
  simp only at hm hz hb hb0
  subst hm
  unfold lbz_getline at hs ⊢
  simp only [lua_toboolean, Bool.not_false] at hs ⊢
  by_cases hc : bz = none ∧ buf = none
  · rw [if_pos hc] at hs
    simp [succeeded] at hs
  · rw [if_neg hc] at hs ⊢
    by_cases hn : n ≠ 0
    · rw [if_pos hn] at hs ⊢
      rcases buf with _ | m
      · exact absurd (hb0 rfl) hn
      · have hnm : n ≤ m.length := hb m rfl
        simp only [lbz_buffer_drain_all] at hs ⊢
        rcases hh : lbz_handle_eol LB [] (readmem m n) ⟨bz, f, 'r', some m, 0⟩ false true
          with _ | ⟨found, b2, st2⟩
        · rw [hh] at hs
          simp [succeeded] at hs
        · rw [hh] at hs
          obtain ⟨hnf, hfd⟩ := lbz_handle_eol_keep LB [] (readmem m n) bz f m false found b2 st2 hh
          cases found
          · obtain ⟨hb2, hst2⟩ := hnf rfl
            subst hb2 hst2
            simp only at hs ⊢
            obtain ⟨hi, pulled, h1, h2, h3, hE, h4⟩ :=
              lbz_getline_read_conserves LB bz f (some m) _ hz hs
            refine ⟨hi, pulled, by simpa [pending] using h1, by simpa [pending] using h2, h3,
              hE, ?_⟩
            simpa [carryover] using h4
          · obtain ⟨m', j, hst2, hj, hcat⟩ := hfd rfl
            subst hst2
            simp only [top, bytesReturned]
            refine ⟨⟨rfl, ?_, by simpa using hj, by simp⟩, [], by simp, by simp [pending],
              by simp, ?_, ?_⟩
            · intro z hzz
              exact ⟨(hz z hzz).1, by simp⟩
            · intro h1 h2
              exact absurd h2 h1
            · simpa [carryover, bytesOf_nil] using hcat
    · rw [if_neg hn] at hs ⊢
      have hn0 : n = 0 := by omega
      subst hn0
      obtain ⟨hi, pulled, h1, h2, h3, hE, h4⟩ := lbz_getline_read_conserves LB bz f buf [] hz hs
      refine ⟨hi, pulled, h1, h2, h3, hE, ?_⟩
      rw [h4]
      rcases buf with _ | m <;> simp [carryover, readmem]

/-- Nothing is pulled and nothing moves when no call is made. -/
theorem Conserves.refl (s : lbz_state) : Conserves s [] s :=
  ⟨[], List.nil_prefix, fun _ => by simp, fun h => h, fun h1 h2 => absurd h2 h1,
    by simp [bytesOf_nil]⟩

/-- Conservation composes along successive calls. -/
theorem Conserves.trans {s s1 s2 : lbz_state} {o1 o2 : List Byte}
    (h1 : Conserves s o1 s1) (h2 : Conserves s1 o2 s2) : Conserves s (o1 ++ o2) s2 := by
  obtain ⟨p1, hp1, he1, hn1, hE1, hc1⟩ := h1
  obtain ⟨p2, hp2, he2, hn2, hE2, hc2⟩ := h2
  refine ⟨p1 ++ p2, ?_, ?_, fun h => hn2 (hn1 h), ?_, ?_⟩
  · by_cases hs1 : s1.bz_stream = none
    · have : pending s1 = [] := by simp [pending, hs1]
      rw [this] at hp2
      have : p2 = [] := List.prefix_nil.mp hp2
      subst this
      simpa using hp1
    · rw [he1 hs1]
      exact (List.prefix_append_right_inj p1).mpr hp2
  · intro hs2
    have hs1 : s1.bz_stream ≠ none := fun h => hs2 (hn2 h)
    rw [he1 hs1, he2 hs2, List.append_assoc]
  · intro hs hs2
    by_cases hs1 : s1.bz_stream = none
    · have hp : pending s1 = [] := by simp [pending, hs1]
      rw [hp] at hp2
      have hnil : p2 = [] := List.prefix_nil.mp hp2
      subst hnil
      simpa using hE1 hs hs1
    · obtain ⟨pre, q, hq1, hq2⟩ := hE2 hs1 hs2
      exact ⟨p1 ++ pre, q, by simp [hq1], hq2⟩
  · rw [List.append_assoc, hc2, ← List.append_assoc, hc1, bytesOf_append, List.append_assoc]

/-- Every successful call on a well-shaped read session conserves the bytes. -/
theorem call_conserves (LB : Nat) (s : lbz_state) (c : Call) (hinv : ReadInv s)
    (hs : succeeded (call LB s c).1 = true) :
    ReadInv (call LB s c).2 ∧ Conserves s (bytesReturned (call LB s c).1) (call LB s c).2 := by
  cases c with
  | read a => exact lbz_read_conserves s a hinv hs
  | getline => exact lbz_getline_conserves LB s hinv hs

/-- A run of successful calls from a well-shaped read session conserves the bytes. -/
theorem run_conserves_from (LB : Nat) (calls : List Call) :
    ∀ s : lbz_state, ReadInv s → (run LB s calls).2.1 = true →
      Conserves s (run LB s calls).1 (run LB s calls).2.2 := by
  induction calls with
  | nil =>
    intro s _ _
    exact Conserves.refl s
  | cons c cs ih =>
    intro s hinv h
    simp only [run, Bool.and_eq_true] at h ⊢
    obtain ⟨hi, hc⟩ := call_conserves LB s c hinv h.1
    exact hc.trans (ih _ hi h.2)

theorem fresh_ReadInv (reads : List Pull) : ReadInv (fresh reads) :=
  ⟨rfl, by simp [fresh, reader], by simp [fresh], by simp [fresh]⟩

/-- Among the answers of a codec that reports `BZ_STREAM_END` once, with its last
answer, the only prefix ending with such an answer is the whole list. -/
theorem EndsStream.delivery (cs : List (List Byte)) (last : List Byte) (pulled : List Pull)
    (hp : pulled <+: delivery cs last) (hE : EndsStream pulled) : pulled = delivery cs last := by
  obtain ⟨t, ht⟩ := hp
  obtain ⟨pre, q, hq1, hq2⟩ := hE
  rcases List.eq_nil_or_concat t with hnil | ⟨t', y, hty⟩
  · subst hnil
    simpa using ht
  · subst hty hq1
    unfold LuaBz2.delivery at ht
    rw [List.concat_eq_append, ← List.append_assoc] at ht
    have h := (List.append_inj' ht (by simp)).1
    have hmem : q ∈ cs.map (fun c => (⟨c, BZ_OK⟩ : Pull)) := by
      rw [← h]
      simp
    obtain ⟨c, _, hc⟩ := List.mem_map.mp hmem
    rw [← hc] at hq2
    simp [BZ_OK, BZ_STREAM_END] at hq2

/-- C1, as it holds. On a freshly opened read session, for every sequence of
`read(n)`, `read("*a")` and `getline()` (EOL kept) calls, in any order, each of
which returns a success: the bytes returned, concatenated in call order and
followed by the bytes of the carryover, are exactly the bytes of the answers
`pulled` from the codec so far.  While the codec is open, `pulled` is what the
codec no longer holds.  The codec is released only at an answer given with
`BZ_STREAM_END`, and `pulled` then runs up to and including such an answer; so
with a codec that reports `BZ_STREAM_END` once, with its last bytes, the bytes
returned and the carryover are then the whole decompressed content. -/
theorem run_conserves (LB : Nat) (reads : List Pull) (calls : List Call)
    (h : (run LB (fresh reads) calls).2.1 = true) :
    (∃ pulled : List Pull, pulled <+: reads
      ∧ ((run LB (fresh reads) calls).2.2.bz_stream ≠ none →
          reads = pulled ++ pending (run LB (fresh reads) calls).2.2)
      ∧ ((run LB (fresh reads) calls).2.2.bz_stream = none → EndsStream pulled)
      ∧ (run LB (fresh reads) calls).1 ++ carryover (run LB (fresh reads) calls).2.2
          = bytesOf pulled)
    ∧ (∀ (cs : List (List Byte)) (last : List Byte), reads = delivery cs last →
        (run LB (fresh reads) calls).2.2.bz_stream = none →
        (run LB (fresh reads) calls).1 ++ carryover (run LB (fresh reads) calls).2.2
          = cs.flatten ++ last) := by
  obtain ⟨pulled, h1, h2, _, hE, h4⟩ :=
    run_conserves_from LB calls (fresh reads) (fresh_ReadInv reads) h
  have h1' : pulled <+: reads := by simpa [pending, fresh, reader] using h1
  have hE' : (run LB (fresh reads) calls).2.2.bz_stream = none → EndsStream pulled :=
    hE (by simp [fresh])
  have h4' : (run LB (fresh reads) calls).1 ++ carryover (run LB (fresh reads) calls).2.2
      = bytesOf pulled := by
    rw [h4]
    simp [carryover, fresh, readmem]
  refine ⟨⟨pulled, h1', ?_, hE', h4'⟩, ?_⟩
  · intro hne
    simpa [pending, fresh, reader] using h2 hne
  · intro cs last hr hnone
    subst hr
    rw [h4', EndsStream.delivery cs last pulled h1' (hE' hnone)]
    have hid : (Pull.data ∘ fun c => (⟨c, BZ_OK⟩ : Pull)) = id := rfl
    simp [LuaBz2.delivery, bytesOf, hid]

/-- Witness of C1: the codec delivers "a\nb" and then, with
`BZ_STREAM_END`, "c\nd"; the calls getline, read(1), getline, getline all succeed,
the last but one releases the codec, and the four results are the whole content. -/
theorem run_conserves_witness :
    (run 8 (fresh (delivery [[97, 10, 98]] [99, 10, 100]))
        [.getline, .read (.number 1), .getline, .getline]).2.1 = true
    ∧ (run 8 (fresh (delivery [[97, 10, 98]] [99, 10, 100]))
        [.getline, .read (.number 1), .getline, .getline]).2.2.bz_stream = none
    ∧ (run 8 (fresh (delivery [[97, 10, 98]] [99, 10, 100]))
          [.getline, .read (.number 1), .getline, .getline]).1
        ++ carryover (run 8 (fresh (delivery [[97, 10, 98]] [99, 10, 100]))
          [.getline, .read (.number 1), .getline, .getline]).2.2
        = [[97, 10, 98]].flatten ++ [99, 10, 100]
    ∧ (run 8 (fresh (delivery [[97, 10, 98]] [99, 10, 100]))
          [.getline, .read (.number 1), .getline, .getline]).1 = [97, 10, 98, 99, 10, 100] :=
  ⟨by decide, by decide,
   (run_conserves 8 (delivery [[97, 10, 98]] [99, 10, 100])
      [.getline, .read (.number 1), .getline, .getline] (by decide)).2
      [[97, 10, 98]] [99, 10, 100] rfl (by decide),
   by decide⟩

/-- C1 as stated fails.  (1) The codec delivers "ab" and then reports
`BZ_DATA_ERROR`: `getline` pulls both answers, returns (nil, message) and throws
the bytes "ab" away, so the bytes returned plus the carryover are not the bytes
pulled.  (2) The codec delivers "a\nbc" with `BZ_STREAM_END`: `getline()` returns
"a\n" and leaves "bc" in the carryover, and the final `read("*a")` does not
return that remainder: it takes it out of the carryover and ends in a fault. -/
theorem run_loses_bytes :
    (¬ ∃ pulled : List Pull,
        [(⟨[97, 98], BZ_OK⟩ : Pull), ⟨[], BZ_DATA_ERROR⟩]
          = pulled ++ pending (run 8192 (fresh [⟨[97, 98], BZ_OK⟩, ⟨[], BZ_DATA_ERROR⟩])
              [.getline]).2.2
        ∧ (run 8192 (fresh [⟨[97, 98], BZ_OK⟩, ⟨[], BZ_DATA_ERROR⟩]) [.getline]).1
            ++ carryover (run 8192 (fresh [⟨[97, 98], BZ_OK⟩, ⟨[], BZ_DATA_ERROR⟩])
              [.getline]).2.2
          = bytesOf pulled)
    ∧ call 8192 (fresh [⟨[97, 98], BZ_OK⟩, ⟨[], BZ_DATA_ERROR⟩]) .getline
        = (.values [.nil, .string (cstr "DATA_ERROR")], fresh [])
    ∧ call 8192 (fresh (delivery [] [97, 10, 98, 99])) .getline
        = (.values [.string [97, 10]], ⟨none, false, 'r', some [98, 99], 2⟩)
    ∧ call 8192 ⟨none, false, 'r', some [98, 99], 2⟩ (.read (.string (cstr "*a")))
        = (.fault, ⟨none, false, 'r', some [98, 99], 0⟩) := by
  refine ⟨?_, by decide, by decide, by decide⟩
  rintro ⟨pulled, h1, h2⟩
  have e1 : pending (run 8192 (fresh [⟨[97, 98], BZ_OK⟩, ⟨[], BZ_DATA_ERROR⟩])
      [.getline]).2.2 = [] := by decide
  have e2 : (run 8192 (fresh [⟨[97, 98], BZ_OK⟩, ⟨[], BZ_DATA_ERROR⟩]) [.getline]).1
      ++ carryover (run 8192 (fresh [⟨[97, 98], BZ_OK⟩, ⟨[], BZ_DATA_ERROR⟩])
        [.getline]).2.2 = [] := by decide
  rw [e1, List.append_nil] at h1
  rw [e2, ← h1] at h2
  exact absurd h2 (by decide)

/-! ## C2: the round trip of the one-shot functions -/

/-- With a block of `2 ^ 32` bytes or more the first loop of `lbz_compress` has no
normal exit: the 32-bit counter `total_in_lo32` stays below `len`. -/
theorem lbz_compress_feed_no_exit {σc σd : Type} (lib : Bzlib σc σd) (LB len : Nat)
    (hlen : 2 ^ 32 ≤ len) (fuel : Nat) :
    ∀ (stream : bz_stream σc) (b : List Byte), stream.total_in_lo32 < 2 ^ 32 →
      ∀ r, lbz_compress_feed lib LB len fuel stream b ≠ some (.ok r) := by
  induction fuel with
  | zero =>
    intro stream b _ r
    simp [lbz_compress_feed]
  | succ fuel ih =>
    intro stream b h r
    have hlt : stream.total_in_lo32 < len := by omega
    rw [lbz_compress_feed, if_pos hlt]
    by_cases he : (BZ2_bzCompress lib stream LB BZ_RUN).1 < 0
    · simp [he]
    · simp only [he, if_false]
      apply ih
      simp only [BZ2_bzCompress, bz_advance]
      exact Nat.mod_lt _ (by norm_num)

/-- C2 as stated fails: whatever the library does, `lbz_compress` never returns a
string for the block of `2 ^ 32` zero bytes, at any level and with any fuel,
because `total_in_lo32 < len` holds for ever; so the round trip is not the
identity on every byte sequence. -/
theorem lbz_compress_fails_on_4GiB :
    ¬ ∃ (σc σd : Type) (lib : Bzlib σc σd) (LB fuel : Nat) (level : Option Int) (z : List Byte),
      lbz_compress lib LB fuel (List.replicate (2 ^ 32) 0) level = some (.values [.string z]) := by
  rintro ⟨σc, σd, lib, LB, fuel, level, z, h⟩
  revert h
  unfold lbz_compress
  simp only [List.length_replicate]
  by_cases hi : (lib.compressInit (level.getD 9)).1 ≠ BZ_OK
  · rw [if_pos hi]
    simp [lbz_handle_error]
  · rw [if_neg hi]
    have hne := lbz_compress_feed_no_exit lib LB (2 ^ 32) (le_refl _) fuel
      { next_in := List.replicate (2 ^ 32) 0, avail_in := 2 ^ 32 % 2 ^ 32, total_in_lo32 := 0,
        state := (lib.compressInit (level.getD 9)).2 } [] (by norm_num)
    rcases hf : lbz_compress_feed lib LB (2 ^ 32) fuel
        { next_in := List.replicate (2 ^ 32) 0, avail_in := 2 ^ 32 % 2 ^ 32, total_in_lo32 := 0,
          state := (lib.compressInit (level.getD 9)).2 } [] with _ | r
    · simp
    · rcases r with err | r
      · simp [lbz_handle_error]
      · exact absurd hf (hne r)

/-- Under the compressor contract the first loop of `lbz_compress` ends, with all
of the block absorbed and the emitted bytes in the Lua buffer. -/
theorem lbz_compress_feed_ok {σc σd : Type} (lib : Bzlib σc σd)
    (enc : Int → List Byte → List Byte) (I : Int → σc → List Byte → List Byte → Prop)
    (μ : σc → Nat) (hc : CompressorOK lib enc I μ) (LB : Nat) (hLB : 0 < LB) (level : Int)
    (B : List Byte) (hB : B.length < 2 ^ 32) :
    ∀ (n m : Nat) (stream : bz_stream σc) (b ab : List Byte),
      stream.next_in.length = n → μ stream.state = m →
      B = ab ++ stream.next_in → stream.avail_in = stream.next_in.length →
      stream.total_in_lo32 = ab.length → I level stream.state ab b →
      ∃ (fuel0 : Nat) (st' : σc) (t : Nat) (b' : List Byte), I level st' B b'
        ∧ ∀ fuel, fuel0 ≤ fuel →
            lbz_compress_feed lib LB B.length fuel stream b = some (.ok (⟨[], 0, t, st'⟩, b')) := by
  intro n
  induction n using Nat.strong_induction_on with
  | _ n ihn =>
    intro m
    induction m using Nat.strong_induction_on with
    | _ m ihm =>
      intro stream b ab hn hm hsplit hav htot hI
      rcases stream with ⟨next_in, avail_in, total, st⟩
      simp only at hn hm hsplit hav htot hI
      subst hav htot
      by_cases hnil : next_in = []
      · subst hnil
        simp only [List.append_nil] at hsplit
        subst hsplit
        refine ⟨1, st, B.length, b, hI, ?_⟩
        intro fuel hf
        obtain ⟨fuel', rfl⟩ : ∃ k, fuel = k + 1 := ⟨fuel - 1, by omega⟩
        simp [lbz_compress_feed]
      · have hlen : B.length = ab.length + next_in.length := by rw [hsplit, List.length_append]
        have hpos : 0 < next_in.length := List.length_pos.mpr hnil
        obtain ⟨hret, hused, hout, hI', hprog⟩ := hc.run level st ab b next_in LB hI hLB hnil
        have hstep : BZ2_bzCompress lib ⟨next_in, next_in.length, ab.length, st⟩ LB BZ_RUN
            = ((lib.compress st next_in LB BZ_RUN).ret, (lib.compress st next_in LB BZ_RUN).out,
               ⟨next_in.drop (lib.compress st next_in LB BZ_RUN).used,
                (next_in.drop (lib.compress st next_in LB BZ_RUN).used).length,
                (ab ++ next_in.take (lib.compress st next_in LB BZ_RUN).used).length,
                (lib.compress st next_in LB BZ_RUN).state⟩) := by
          simp only [BZ2_bzCompress, bz_advance, List.take_length]
          rw [Nat.min_eq_left hused, List.take_of_length_le hout, List.length_drop,
            List.length_append, List.length_take, Nat.min_eq_left hused,
            Nat.mod_eq_of_lt (by omega)]
        generalize lib.compress st next_in LB BZ_RUN = r at hret hused hout hI' hprog hstep
        have hsplit' : B = (ab ++ next_in.take r.used) ++ next_in.drop r.used := by
          rw [List.append_assoc, List.take_append_drop]
          exact hsplit
        have hrec : ∃ (fuel0 : Nat) (st' : σc) (t : Nat) (b' : List Byte), I level st' B b'
            ∧ ∀ fuel, fuel0 ≤ fuel →
              lbz_compress_feed lib LB B.length fuel
                ⟨next_in.drop r.used, (next_in.drop r.used).length,
                 (ab ++ next_in.take r.used).length, r.state⟩ (b ++ r.out)
                = some (.ok (⟨[], 0, t, st'⟩, b')) := by
          by_cases hu : r.used = 0
          · have hμ := hprog hu
            have hlen' : (next_in.drop r.used).length = n := by
              rw [hu, List.drop_zero]
              exact hn
            exact ihm (μ r.state) (by omega) _ (b ++ r.out) (ab ++ next_in.take r.used) hlen' rfl
              hsplit' rfl rfl hI'
          · have hlen' : (next_in.drop r.used).length < n := by
              rw [List.length_drop]
              omega
            exact ihn _ hlen' (μ r.state) _ (b ++ r.out) (ab ++ next_in.take r.used) rfl rfl
              hsplit' rfl rfl hI'
        obtain ⟨fuel0, st', t, b', hI'', hall⟩ := hrec
        refine ⟨fuel0 + 1, st', t, b', hI'', ?_⟩
        intro fuel hf
        obtain ⟨fuel', rfl⟩ : ∃ k, fuel = k + 1 := ⟨fuel - 1, by omega⟩
        have hlt : ab.length < B.length := by omega
        rw [lbz_compress_feed]
        simp only [hlt, if_true, hstep]
        have : ¬ r.ret < 0 := by omega
        simp only [this, if_false]
        exact hall fuel' (by omega)

/-- Under the compressor contract the `BZ_FINISH` loop of `lbz_compress` ends with
the whole compressed stream in the Lua buffer. -/
theorem lbz_compress_finish_ok {σc σd : Type} (lib : Bzlib σc σd)
    (enc : Int → List Byte → List Byte) (I : Int → σc → List Byte → List Byte → Prop)
    (μ : σc → Nat) (hc : CompressorOK lib enc I μ) (LB : Nat) (hLB : 0 < LB) (level : Int)
    (B : List Byte) :
    ∀ (m : Nat) (st : σc) (t : Nat) (b : List Byte), μ st = m → I level st B b →
      ∃ fuel0 : Nat, ∀ fuel, fuel0 ≤ fuel →
        lbz_compress_finish lib LB fuel ⟨[], 0, t, st⟩ b = some (.ok (enc level B)) := by
  intro m
  induction m using Nat.strong_induction_on with
  | _ m ihm =>
    intro st t b hm hI
    obtain ⟨hout, hcase⟩ := hc.finish level st B b LB hI hLB
    have hstep : BZ2_bzCompress lib ⟨[], 0, t, st⟩ LB BZ_FINISH
        = ((lib.compress st [] LB BZ_FINISH).ret, (lib.compress st [] LB BZ_FINISH).out,
           ⟨[], 0, t % 2 ^ 32, (lib.compress st [] LB BZ_FINISH).state⟩) := by
      simp only [BZ2_bzCompress, bz_advance, List.take_nil, List.drop_nil, Nat.min_zero,
        Nat.sub_zero, Nat.add_zero]
      rw [List.take_of_length_le hout]
    generalize lib.compress st [] LB BZ_FINISH = r at hout hcase hstep
    rcases hcase with ⟨hret, henc⟩ | ⟨hret, hI', hμ⟩
    · refine ⟨1, ?_⟩
      intro fuel hf
      obtain ⟨fuel', rfl⟩ : ∃ k, fuel = k + 1 := ⟨fuel - 1, by omega⟩
      rw [lbz_compress_finish]
      simp only [hstep, hret, henc]
      simp [BZ_STREAM_END]
    · obtain ⟨fuel0, hall⟩ := ihm (μ r.state) (by omega) r.state (t % 2 ^ 32) (b ++ r.out) rfl hI'
      refine ⟨fuel0 + 1, ?_⟩
      intro fuel hf
      obtain ⟨fuel', rfl⟩ : ∃ k, fuel = k + 1 := ⟨fuel - 1, by omega⟩
      rw [lbz_compress_finish]
      simp only [hstep, hret]
      have h1 : ¬ BZ_FINISH_OK < 0 := by decide
      have h2 : ¬ BZ_FINISH_OK = BZ_STREAM_END := by decide
      simp only [h1, h2, if_false]
      exact hall fuel' (by omega)

/-- Under the decompressor contract the loop of `lbz_decompress` on a compressed
stream ends with the original bytes in the Lua buffer. -/
theorem lbz_decompress_feed_ok {σc σd : Type} (lib : Bzlib σc σd)
    (enc : Int → List Byte → List Byte) (J : σd → List Byte → List Byte → Prop)
    (ν : σd → Nat) (hd : DecompressorOK lib enc J ν) (LB : Nat) (hLB : 0 < LB) (level : Int)
    (B : List Byte) (hE : (enc level B).length < 2 ^ 32) :
    ∀ (n m : Nat) (stream : bz_stream σd) (b ab : List Byte),
      stream.next_in.length = n → ν stream.state = m →
      enc level B = ab ++ stream.next_in → stream.avail_in = stream.next_in.length →
      stream.total_in_lo32 = ab.length → J stream.state ab b →
      ∃ fuel0 : Nat, ∀ fuel, fuel0 ≤ fuel →
        lbz_decompress_feed lib LB (enc level B).length fuel stream b = some (.ok B) := by
  intro n
  induction n using Nat.strong_induction_on with
  | _ n ihn =>
    intro m
    induction m using Nat.strong_induction_on with
    | _ m ihm =>
      intro stream b ab hn hm hsplit hav htot hJ
      rcases stream with ⟨next_in, avail_in, total, st⟩
      simp only at hn hm hsplit hav htot hJ
      subst hav htot
      by_cases hnil : next_in = []
      · subst hnil
        simp only [List.append_nil] at hsplit
        subst hsplit
        have hb : b = B := hd.complete level B st b hJ
        subst hb
        refine ⟨1, ?_⟩
        intro fuel hf
        obtain ⟨fuel', rfl⟩ : ∃ k, fuel = k + 1 := ⟨fuel - 1, by omega⟩
        simp [lbz_decompress_feed]
      · have hlen : (enc level B).length = ab.length + next_in.length := by
          rw [hsplit, List.length_append]
        have hpos : 0 < next_in.length := List.length_pos.mpr hnil
        obtain ⟨hret, hused, hout, hJ', hprog⟩ :=
          hd.step level B st ab b next_in LB hJ hLB hnil hsplit.symm
        have hstep : BZ2_bzDecompress lib ⟨next_in, next_in.length, ab.length, st⟩ LB
            = ((lib.decompress st next_in LB).ret, (lib.decompress st next_in LB).out,
               ⟨next_in.drop (lib.decompress st next_in LB).used,
                (next_in.drop (lib.decompress st next_in LB).used).length,
                (ab ++ next_in.take (lib.decompress st next_in LB).used).length,
                (lib.decompress st next_in LB).state⟩) := by
          simp only [BZ2_bzDecompress, bz_advance, List.take_length]
          rw [Nat.min_eq_left hused, List.take_of_length_le hout, List.length_drop,
            List.length_append, List.length_take, Nat.min_eq_left hused,
            Nat.mod_eq_of_lt (by omega)]
        generalize lib.decompress st next_in LB = r at hret hused hout hJ' hprog hstep
        have hsplit' : enc level B = (ab ++ next_in.take r.used) ++ next_in.drop r.used := by
          rw [List.append_assoc, List.take_append_drop]
          exact hsplit
        have hrec : ∃ fuel0 : Nat, ∀ fuel, fuel0 ≤ fuel →
              lbz_decompress_feed lib LB (enc level B).length fuel
                ⟨next_in.drop r.used, (next_in.drop r.used).length,
                 (ab ++ next_in.take r.used).length, r.state⟩ (b ++ r.out)
                = some (.ok B) := by
          by_cases hu : r.used = 0
          · have hν := hprog hu
            have hlen' : (next_in.drop r.used).length = n := by
              rw [hu, List.drop_zero]
              exact hn
            exact ihm (ν r.state) (by omega) _ (b ++ r.out) (ab ++ next_in.take r.used) hlen' rfl
              hsplit' rfl rfl hJ'
          · have hlen' : (next_in.drop r.used).length < n := by
              rw [List.length_drop]
              omega
            exact ihn _ hlen' (ν r.state) _ (b ++ r.out) (ab ++ next_in.take r.used) rfl rfl
              hsplit' rfl rfl hJ'
        obtain ⟨fuel0, hall⟩ := hrec
        refine ⟨fuel0 + 1, ?_⟩
        intro fuel hf
        obtain ⟨fuel', rfl⟩ : ∃ k, fuel = k + 1 := ⟨fuel - 1, by omega⟩
        have hlt : ab.length < (enc level B).length := by omega
        rw [lbz_decompress_feed]
        simp only [hlt, if_true, hstep]
        have : ¬ r.ret < 0 := by omega
        simp only [this, if_false]
        exact hall fuel' (by omega)

/-- C2, as it holds.  For every library that meets the contracts of the compressor
and the decompressor for a format `enc`, every level in 1..9 and every byte
sequence `B` such that `B` and its compressed form have fewer than `2 ^ 32` bytes:
with enough fuel `lbz_compress` returns the string `enc level B`, and
`lbz_decompress` of that string returns exactly `B`. -/
theorem lbz_roundtrip {σc σd : Type} (lib : Bzlib σc σd) (enc : Int → List Byte → List Byte)
    (I : Int → σc → List Byte → List Byte → Prop) (μ : σc → Nat)
    (J : σd → List Byte → List Byte → Prop) (ν : σd → Nat)
    (hc : CompressorOK lib enc I μ) (hd : DecompressorOK lib enc J ν)
    (LB : Nat) (hLB : 0 < LB) (level : Int) (h1 : 1 ≤ level) (h9 : level ≤ 9)
    (B : List Byte) (hB : B.length < 2 ^ 32) (hE : (enc level B).length < 2 ^ 32) :
    ∃ fuel0 : Nat, ∀ fuel, fuel0 ≤ fuel →
      lbz_compress lib LB fuel B (some level) = some (.values [.string (enc level B)])
      ∧ lbz_decompress lib LB fuel (enc level B) = some (.values [.string B]) := by
  obtain ⟨hi, hI0⟩ := hc.init level h1 h9
  obtain ⟨f1, st', t, b', hI', hfeed⟩ :=
    lbz_compress_feed_ok lib enc I μ hc LB hLB level B hB B.length _
      ⟨B, B.length % 2 ^ 32, 0, (lib.compressInit level).2⟩ [] [] rfl rfl rfl
      (Nat.mod_eq_of_lt hB) rfl hI0
  obtain ⟨f2, hfin⟩ := lbz_compress_finish_ok lib enc I μ hc LB hLB level B _ st' t b' rfl hI'
  obtain ⟨hdi, hJ0⟩ := hd.init
  obtain ⟨f3, hdec⟩ :=
    lbz_decompress_feed_ok lib enc J ν hd LB hLB level B hE (enc level B).length _
      ⟨enc level B, (enc level B).length % 2 ^ 32, 0, lib.decompressInit.2⟩ [] [] rfl rfl rfl
      (Nat.mod_eq_of_lt hE) rfl hJ0
  refine ⟨f1 + f2 + f3, ?_⟩
  intro fuel hf
  constructor
  · simp only [lbz_compress, Option.getD_some, hi, ne_eq, not_true_eq_false, if_false,
      hfeed fuel (by omega), hfin fuel (by omega)]
  · simp only [lbz_decompress, hdi, ne_eq, not_true_eq_false, if_false, hdec fuel (by omega)]

theorem dropLast_append_getLast?_toList (l : List Byte) :
    l.dropLast ++ l.getLast?.toList = l := by
  by_cases h : l = []
  · subst h
    rfl
  · rw [List.getLast?_eq_getLast _ h]
    exact List.dropLast_append_getLast h

/-- The library `copylib` meets the compressor contract. -/
theorem copylib_compressor : CompressorOK copylib copyenc copyI copyμ where
  init := by
    intro level h1 h9
    simp [copylib, copyI, h1, h9]
  run := by
    intro level st ab em w a hI ha hw
    have hne : ¬ (BZ_RUN = BZ_FINISH ∧ w = []) := fun h => hw h.2
    have hk : 0 < min w.length a := by
      have := List.length_pos.mpr hw
      omega
    simp only [copylib, hne, if_false, copyI] at hI ⊢
    refine ⟨by decide, Nat.min_le_left _ _, ?_, by rw [hI], fun h => by omega⟩
    rw [List.length_take]
    omega
  finish := by
    intro level st ab em a hI ha
    simp only [copylib, and_self, if_true, copyI] at hI ⊢
    refine ⟨by simpa using ha, Or.inl ⟨trivial, ?_⟩⟩
    rw [hI]
    rfl

/-- The library `copylib` meets the decompressor contract. -/
theorem copylib_decompressor : DecompressorOK copylib copyenc copyJ copyμ where
  init := by simp [copylib, copyJ]
  step := by
    intro level B st ab em w a hJ ha hw _
    obtain ⟨hst, hem⟩ := hJ
    have hk : 0 < min w.length a := by
      have := List.length_pos.mpr hw
      omega
    have hw' : w.take (min w.length a) ≠ [] := by
      intro h
      have := congrArg List.length h
      rw [List.length_take] at this
      simp only [List.length_nil] at this
      omega
    have hwl : (w.take (min w.length a)).length ≤ a := by
      rw [List.length_take]
      omega
    simp only [copylib, copyJ]
    generalize w.take (min w.length a) = w' at hw' hwl
    refine ⟨by decide, Nat.min_le_left _ _, ?_, ⟨?_, ?_⟩, fun h => by omega⟩
    · rw [List.length_dropLast, List.length_append]
      have : st.toList.length ≤ 1 := by cases st <;> simp
      omega
    · rw [List.getLast?_append_of_ne_nil _ hw', List.getLast?_append_of_ne_nil _ hw']
    · rw [List.dropLast_append_of_ne_nil _ hw', List.dropLast_append_of_ne_nil _ hw', hem, hst,
        ← List.append_assoc]
      congr 1
      exact dropLast_append_getLast?_toList ab
  complete := by
    intro level B st em hJ
    obtain ⟨_, hem⟩ := hJ
    simpa [copyenc] using hem

/-- Witness of C2: the library `copylib`, chunks of 2 bytes, level 9
and the bytes "hi\n"; with fuel 10 the two functions evaluate to the results. -/
theorem lbz_roundtrip_witness :
    (∃ fuel0 : Nat, ∀ fuel, fuel0 ≤ fuel →
      lbz_compress copylib 2 fuel [104, 105, 10] (some 9)
          = some (.values [.string (copyenc 9 [104, 105, 10])])
      ∧ lbz_decompress copylib 2 fuel (copyenc 9 [104, 105, 10])
          = some (.values [.string [104, 105, 10]]))
    ∧ lbz_compress copylib 2 10 [104, 105, 10] (some 9)
        = some (.values [.string [104, 105, 10, 0]])
    ∧ lbz_decompress copylib 2 10 [104, 105, 10, 0] = some (.values [.string [104, 105, 10]]) :=
  ⟨lbz_roundtrip copylib copyenc copyI copyμ copyJ copyμ copylib_compressor
      copylib_decompressor 2 (by decide) 9 (by decide) (by decide) [104, 105, 10]
      (by decide) (by decide),
   by decide, by decide⟩

/-! ## C11: calls in the wrong mode -/

/-- C11 as stated fails: on a write-mode session `read("x")`, and `read()` without
argument, raise an argument error; they do not return (nil, "NOT IN READ MODE"). -/
theorem lbz_read_wrong_mode_bad_argument :
    lbz_read ⟨some writer, true, 'w', none, 0⟩ (.string [120])
        = (.raise (cstr "bad argument #2 to 'read'"), ⟨some writer, true, 'w', none, 0⟩)
    ∧ lbz_read ⟨some writer, true, 'w', none, 0⟩ .nil
        = (.raise (cstr "bad argument #2 to 'read'"), ⟨some writer, true, 'w', none, 0⟩) := by
  decide

/-- C11, as it holds.  On a write-mode session, open or closed, `read` with a number,
or with a string whose bytes before its first NUL are "*a" (the code compares C
strings, so "*a" followed by a NUL and anything counts), returns
(nil, "NOT IN READ MODE"); `read` with any other string, with nil or no argument,
with a boolean or with a userdata raises an argument error instead, the mode not
yet tested.  On a read-mode session, open or closed, `write` with any argument
list returns (nil, "NOT IN WRITE MODE").  In all these cases no field of the
session changes, the codec handle and its answers included. -/
theorem lbz_wrong_mode (bz : Option BZFILE) (f : Bool) (buf : Option (List Byte)) (n : Nat) :
    (∀ k : Int, lbz_read ⟨bz, f, 'w', buf, n⟩ (.number k)
        = (.values [.nil, .string (cstr "NOT IN READ MODE")], ⟨bz, f, 'w', buf, n⟩))
    ∧ (∀ str : List Byte, lbz_read ⟨bz, f, 'w', buf, n⟩ (.string str)
        = if lua_tostring str = cstr "*a" then
            (.values [.nil, .string (cstr "NOT IN READ MODE")], ⟨bz, f, 'w', buf, n⟩)
          else (.raise (cstr "bad argument #2 to 'read'"), ⟨bz, f, 'w', buf, n⟩))
    ∧ lbz_read ⟨bz, f, 'w', buf, n⟩ (.string (cstr "*a"))
        = (.values [.nil, .string (cstr "NOT IN READ MODE")], ⟨bz, f, 'w', buf, n⟩)
    ∧ (∀ t : List Byte, lbz_read ⟨bz, f, 'w', buf, n⟩ (.string (cstr "*a" ++ 0 :: t))
        = (.values [.nil, .string (cstr "NOT IN READ MODE")], ⟨bz, f, 'w', buf, n⟩))
    ∧ lbz_read ⟨bz, f, 'w', buf, n⟩ .nil
        = (.raise (cstr "bad argument #2 to 'read'"), ⟨bz, f, 'w', buf, n⟩)
    ∧ (∀ b : Bool, lbz_read ⟨bz, f, 'w', buf, n⟩ (.boolean b)
        = (.raise (cstr "bad argument #2 to 'read'"), ⟨bz, f, 'w', buf, n⟩))
    ∧ lbz_read ⟨bz, f, 'w', buf, n⟩ .userdata
        = (.raise (cstr "bad argument #2 to 'read'"), ⟨bz, f, 'w', buf, n⟩)
    ∧ (∀ args : List LuaValue, lbz_write ⟨bz, f, 'r', buf, n⟩ args
        = (.values [.nil, .string (cstr "NOT IN WRITE MODE")], ⟨bz, f, 'r', buf, n⟩)) := by
  have h1 : ('w' : Char) ≠ 'r' := by decide
  have h2 : ('r' : Char) ≠ 'w' := by decide
  have hz : ∀ t : List Byte, lua_tostring (cstr "*a" ++ 0 :: t) = cstr "*a" := by
    intro t
    simp [lua_tostring, cstr, List.takeWhile]
  refine ⟨?_, ?_, ?_, ?_, ?_, ?_, ?_, ?_⟩
  · intro k
    simp [lbz_read, lbz_read_len, h1]
  · intro str
    by_cases hs : lua_tostring str = cstr "*a"
    · simp [lbz_read, lbz_read_len, hs, h1]
    · simp [lbz_read, lbz_read_len, hs]
  · simp [lbz_read, lbz_read_len, lua_tostring_all, h1]
  · intro t
    simp [lbz_read, lbz_read_len, hz t, h1]
  · simp [lbz_read, lbz_read_len]
  · intro b
    simp [lbz_read, lbz_read_len]
  · simp [lbz_read, lbz_read_len]
  · intro args
    simp [lbz_write, h2]

/-! ## C12: getline on a write-mode session -/

/-- C12. The code on a session opened in write mode.  `lbz_open` leaves `buf` and
`buf_size` as the fresh userdata block holds them.  When they hold two bytes
"x\n", `getline` returns them as a line; when `buf_size` is not 0 and `buf` is
`NULL` it faults; when `buf_size` is 0 it calls `BZ2_bzRead` on the write stream
and returns the codec's (nil, "SEQUENCE_ERROR").  No mode is tested. -/
theorem lbz_getline_write_mode :
    lbz_open ⟨true, some writer, BZ_OK, some [120, 10], 2⟩ [102] (some (cstr "w")) none
        = (.values [.userdata], some ⟨some writer, true, 'w', some [120, 10], 2⟩)
    ∧ lbz_getline 8192 ⟨some writer, true, 'w', some [120, 10], 2⟩ .nil
        = (.values [.string [120, 10]], ⟨some writer, true, 'w', some [120, 10], 0⟩)
    ∧ (lbz_getline 8192 ⟨some writer, true, 'w', none, 3⟩ .nil).1 = .fault
    ∧ lbz_getline 8192 ⟨some writer, true, 'w', some [120, 10], 0⟩ .nil
        = (.values [.nil, .string (cstr "SEQUENCE_ERROR")],
           ⟨some writer, true, 'w', some [120, 10], 0⟩)
    ∧ BZ2_bzRead (some writer) 8192 = (BZ_SEQUENCE_ERROR, [], some writer) := by
  decide

/-! ## C13: release of the codec and the file -/

/-- C13. The code at the failing input `open(path, "w", 10)` on a path that can be
created: the file is open, `BZ2_bzWriteOpen` returns `NULL`, and `lbz_open` hands
that `NULL` to `BZ2_bzerror`.  The userdata holds an open file and a `NULL` codec
handle, and neither `close` nor the finalizer releases the file.  The same holds
in read mode when `BZ2_bzReadOpen` fails. -/
theorem lbz_open_codec_failure_leaks_file :
    lbz_open ⟨true, some writer, BZ_OK, none, 0⟩ [102] (some (cstr "w")) (some 10)
        = (.fault, some ⟨none, true, 'w', none, 0⟩)
    ∧ lbz_close ⟨none, true, 'w', none, 0⟩ = (.values [], ⟨none, true, 'w', none, 0⟩)
    ∧ lbz_gc ⟨none, true, 'w', none, 0⟩ = (.values [], ⟨none, true, 'w', none, 0⟩)
    ∧ lbz_open ⟨true, none, -3, none, 0⟩ [102] (some (cstr "r")) none
        = (.fault, some ⟨none, true, 'r', some [], 0⟩)
    ∧ lbz_close ⟨none, true, 'r', some [], 0⟩ = (.values [], ⟨none, true, 'r', none, 0⟩)
    ∧ lbz_gc ⟨none, true, 'r', some [], 0⟩ = (.values [], ⟨none, true, 'r', none, 0⟩) := by
  decide

/-! ## C17: the mode string of open -/

/-- C17 as stated fails: with the mode strings "rb", "w+" and "read" `lbz_open`
goes on to `fopen` (here the file cannot be opened, and the failure of `fopen` is
what is returned); the empty mode string raises the error. -/
theorem lbz_open_accepts_longer_modes :
    lbz_open ⟨false, none, BZ_OK, none, 0⟩ [102] (some (cstr "rb")) none
        = (.values [.nil, .string (cstr "Failed to open: " ++ [102])], none)
    ∧ lbz_open ⟨false, none, BZ_OK, none, 0⟩ [102] (some (cstr "w+")) none
        = (.values [.nil, .string (cstr "Failed to open: " ++ [102])], none)
    ∧ lbz_open ⟨false, none, BZ_OK, none, 0⟩ [102] (some (cstr "read")) none
        = (.values [.nil, .string (cstr "Failed to open: " ++ [102])], none)
    ∧ lbz_open ⟨true, some (reader []), BZ_OK, none, 0⟩ [102] (some (cstr "rb")) none
        = (.values [.userdata], some (fresh []))
    ∧ lbz_open ⟨false, none, BZ_OK, none, 0⟩ [102] (some (cstr "")) none
        = (.raise (cstr "Illegal mode: " ++ [102]), none) := by
  decide

/-- C17, as it holds.  `lbz_open` raises the invalid-mode error, whatever the file
system would answer and without creating a session, exactly for the mode strings
whose first character is neither 'r' nor 'w' (the empty string among them); every
other mode string reaches `fopen`, whose failure is then the result; an omitted
mode is the mode "r". -/
theorem lbz_open_mode (env : OpenEnv) (fname : List Byte) (mode : Option (List Byte))
    (level : Option Int) :
    (lbz_open env fname mode level = (.raise (cstr "Illegal mode: " ++ fname), none)
      ↔ ((mode.getD (cstr "r")).headD 0 ≠ 'r'.toNat ∧ (mode.getD (cstr "r")).headD 0 ≠ 'w'.toNat))
    ∧ (lbz_open { env with fopen_ok := false } fname mode level
          = (.values [.nil, .string (cstr "Failed to open: " ++ fname)], none)
      ↔ ¬ ((mode.getD (cstr "r")).headD 0 ≠ 'r'.toNat
            ∧ (mode.getD (cstr "r")).headD 0 ≠ 'w'.toNat))
    ∧ lbz_open env fname none level = lbz_open env fname (some (cstr "r")) level := by
  refine ⟨?_, ?_, rfl⟩
  · constructor
    · intro h
      by_contra hc
      have h1 := congrArg Prod.fst h
      unfold lbz_open at h1
      simp only [] at h1
      rw [if_neg hc] at h1
      split_ifs at h1
      all_goals first
        | exact Outcome.noConfusion h1
        | (split at h1 <;> exact Outcome.noConfusion h1)
    · intro h
      unfold lbz_open
      simp only []
      rw [if_pos h]
  · constructor
    · intro h hc
      have h1 := congrArg Prod.fst h
      unfold lbz_open at h1
      simp only [] at h1
      rw [if_pos hc] at h1
      exact Outcome.noConfusion h1
    · intro h
      unfold lbz_open
      simp only []
      rw [if_neg h, if_pos trivial]

/-! ## C15, C16: the codec ends or fails during read -/

/-- The loop of `lbz_read` runs through chunks delivered with `BZ_OK` as long as
more bytes are requested than they hold. -/
theorem lbz_read_loop_oks (cs : List (List Byte)) (t : List Pull) :
    ∀ (b : List Byte) (len : Int), (cs.flatten.length : Int) < len →
      lbz_read_loop (oks cs ++ t) b len
        = lbz_read_loop t (b ++ cs.flatten) (len - cs.flatten.length) := by
  induction cs with
  | nil =>
    intro b len _
    simp [oks]
  | cons c cs ih =>
    intro b len h
    simp only [List.flatten_cons, List.length_append, Nat.cast_add] at h
    have hc : (0 : Int) ≤ (c.length : Int) := Int.natCast_nonneg _
    have hcs : (0 : Int) ≤ (cs.flatten.length : Int) := Int.natCast_nonneg _
    have h0 : len > 0 := by omega
    have hrec := ih (b ++ c) (len - c.length) (by omega)
    simp only [oks] at hrec ⊢
    by_cases hl : c = []
    · subst hl
      simp only [List.append_nil, List.length_nil, Nat.cast_zero, sub_zero] at hrec
      simp [lbz_read_loop, h0, hrec]
    · have hcpos : (c.length : Int) > 0 := by
        have : 0 < c.length := List.length_pos.mpr hl
        omega
      have hne : ¬ (BZ_OK ≠ BZ_OK) := fun hh => hh rfl
      have e1 : len - (c.length : Int) - (cs.flatten.length : Int)
          = len - ((c.length : Int) + (cs.flatten.length : Int)) := by omega
      rw [List.map_cons, List.cons_append, lbz_read_loop]
      simp only [h0, if_true, hcpos, hne, if_false]
      rw [hrec, List.flatten_cons, List.length_append, Nat.cast_add, e1, List.append_assoc]

/-- The loop of `lbz_read` stops at the first answer whose status is not `BZ_OK`,
after adding its bytes. -/
theorem lbz_read_loop_stop (cs : List (List Byte)) (d : List Byte) (e : Int) (rest : List Pull)
    (b : List Byte) (len : Int) (he : e ≠ BZ_OK) (h : (cs.flatten.length : Int) < len) :
    lbz_read_loop (oks cs ++ ⟨d, e⟩ :: rest) b len = (e, b ++ cs.flatten ++ d, rest) := by
  rw [lbz_read_loop_oks cs _ b len h]
  have h0 : len - (cs.flatten.length : Int) > 0 := by omega
  generalize len - (cs.flatten.length : Int) = len' at h0
  generalize b ++ cs.flatten = b'
  by_cases hl : d = []
  · subst hl
    simp [lbz_read_loop, h0, he]
  · have : 0 < d.length := List.length_pos.mpr hl
    simp [lbz_read_loop, h0, he, this]

/-- The carryover block of `lbz_read` when more is requested than the carryover
holds: all of it is taken and the carryover is empty afterwards. -/
theorem lbz_read_carry_all (bz : Option BZFILE) (f : Bool) (m : List Byte) (n : Nat)
    (len : Int) (hn : n ≤ m.length) (hlen : (n : Int) < len) :
    (lbz_read_carry ⟨bz, f, 'r', some m, n⟩ len).1 = readmem m n
    ∧ (lbz_read_carry ⟨bz, f, 'r', some m, n⟩ len).2.2 = len - n
    ∧ (lbz_read_carry ⟨bz, f, 'r', some m, n⟩ len).2.1.bz_stream = bz
    ∧ (lbz_read_carry ⟨bz, f, 'r', some m, n⟩ len).2.1.mode = 'r'
    ∧ (lbz_read_carry ⟨bz, f, 'r', some m, n⟩ len).2.1.buf_size = 0
    ∧ (lbz_read_carry ⟨bz, f, 'r', some m, n⟩ len).2.1.buf ≠ none
    ∧ carryover (lbz_read_carry ⟨bz, f, 'r', some m, n⟩ len).2.1 = [] := by
  have hpos : ¬ len < 0 := by omega
  by_cases h0 : n = 0
  · subst h0
    simp [lbz_read_carry, readmem, carryover]
  · simp [lbz_read_carry, h0, to_size_t, hpos, hlen, lbz_buffer_drain, carryover, readmem]

/-- What `lbz_read` does on an open read session when the request is not satisfied
before the codec answers with a status `e` other than `BZ_OK`: the exit of the
function on the accumulated bytes, with the carryover emptied. -/
theorem lbz_read_until_status (bz : BZFILE) (f : Bool) (m : List Byte) (n : Nat)
    (cs : List (List Byte)) (d : List Byte) (e : Int) (rest : List Pull) (a : LuaValue)
    (len : Int) (hw : bz.writing = false) (hreads : bz.reads = oks cs ++ ⟨d, e⟩ :: rest)
    (he : e ≠ BZ_OK) (hn : n ≤ m.length) (ha : lbz_read_len a = some len)
    (hlen : (n : Int) + cs.flatten.length < len) :
    lbz_read ⟨some bz, f, 'r', some m, n⟩ a
      = lbz_read_exit a
          { (lbz_read_carry ⟨some bz, f, 'r', some m, n⟩ len).2.1 with
            bz_stream := some { bz with reads := rest } }
          e (readmem m n ++ cs.flatten ++ d) := by
  have hcs : (0 : Int) ≤ (cs.flatten.length : Int) := Int.natCast_nonneg _
  obtain ⟨c1, c2, c3, _, _, _, _⟩ := lbz_read_carry_all (some bz) f m n len hn (by omega)
  have hloop := lbz_read_loop_stop cs d e rest (readmem m n) (len - n) he (by omega)
  unfold lbz_read
  simp only [ha, ne_eq, not_true_eq_false, if_false, reduceCtorEq, and_false, c1, c2, c3,
    lbz_read_pulls, hw, Bool.false_eq_true, hreads, hloop]

/-- C15. On an open read session holding `n` carryover bytes, when the codec
delivers chunks `cs` with `BZ_OK` and then `last` together with `BZ_STREAM_END`
before the request is satisfied, `read` returns as a success the carryover bytes
followed by all the chunks and by `last`, and leaves the session fully closed
(codec and file released, buffer freed): the next `read` and the next `getline`
return (nil, "CLOSED").  No buffered byte is discarded by that close: whenever
the loop of `read` is to pull from the codec, the carryover is empty. -/
theorem lbz_read_stream_end (bz : BZFILE) (f : Bool) (m : List Byte) (n : Nat)
    (cs : List (List Byte)) (last : List Byte) (rest : List Pull) (a : LuaValue) (len : Int)
    (hw : bz.writing = false) (hreads : bz.reads = oks cs ++ ⟨last, BZ_STREAM_END⟩ :: rest)
    (hn : n ≤ m.length) (ha : lbz_read_len a = some len)
    (hlen : (n : Int) + cs.flatten.length < len) :
    lbz_read ⟨some bz, f, 'r', some m, n⟩ a
        = (.values [.string (carryover ⟨some bz, f, 'r', some m, n⟩ ++ cs.flatten ++ last)],
           closed 'r')
    ∧ (∀ k : Int, lbz_read (closed 'r') (.number k) = (CLOSED, closed 'r'))
    ∧ lbz_read (closed 'r') (.string (cstr "*a")) = (CLOSED, closed 'r')
    ∧ (∀ (LB : Nat) (arg : LuaValue), lbz_getline LB (closed 'r') arg = (CLOSED, closed 'r'))
    ∧ (∀ len' : Int, 0 < (lbz_read_carry ⟨some bz, f, 'r', some m, n⟩ len').2.2 →
        carryover (lbz_read_carry ⟨some bz, f, 'r', some m, n⟩ len').2.1 = []) := by
  refine ⟨?_, ?_, ?_, ?_, ?_⟩
  · have hne : BZ_STREAM_END ≠ BZ_OK := by decide
    rw [lbz_read_until_status bz f m n cs last BZ_STREAM_END rest a len hw hreads hne hn ha hlen]
    obtain ⟨_, _, _, c4, c5, c6, _⟩ :=
      lbz_read_carry_all (some bz) f m n len hn
        (by have := Int.natCast_nonneg cs.flatten.length; omega)
    generalize (lbz_read_carry ⟨some bz, f, 'r', some m, n⟩ len).2.1 = st at c4 c5 c6
    rcases st with ⟨sbz, sf, smode, sbuf, sn⟩
    simp only at c4 c5 c6
    subst c4 c5
    rcases sbuf with _ | sm
    · exact absurd rfl c6
    · simp only [lbz_read_exit, hne, if_false, if_true, lbz_perform_close_free, top, carryover,
        closed]
      simp
  · intro k
    simp [lbz_read, lbz_read_len, lua_tostring_all, closed, CLOSED]
  · simp [lbz_read, lbz_read_len, lua_tostring_all, closed, CLOSED]
  · intro LB arg
    simp [lbz_getline, closed, CLOSED]
  · intro len' hpos
    obtain ⟨k, m', len'', hc, hk, _, _, hall⟩ := lbz_read_carry_spec (some bz) f m n len' hn
    rw [hc] at hpos ⊢
    have hkn := hall hpos
    subst hkn
    simp [carryover, readmem]

/-- Witness of C15: the carryover holds "x", the codec delivers "ab" and then,
with `BZ_STREAM_END`, "c"; `read(10)` returns "xabc". -/
theorem lbz_read_stream_end_witness :
    lbz_read ⟨some (reader (oks [[97, 98]] ++ [Pull.mk [99] BZ_STREAM_END])), true, 'r',
          some [120], 1⟩ (.number 10)
        = (.values [.string (carryover ⟨some (reader (oks [[97, 98]]
              ++ [Pull.mk [99] BZ_STREAM_END])), true, 'r', some [120], 1⟩
            ++ [[97, 98]].flatten ++ [99])], closed 'r')
    ∧ (∀ k : Int, lbz_read (closed 'r') (.number k) = (CLOSED, closed 'r'))
    ∧ lbz_read (closed 'r') (.string (cstr "*a")) = (CLOSED, closed 'r')
    ∧ (∀ (LB : Nat) (arg : LuaValue), lbz_getline LB (closed 'r') arg = (CLOSED, closed 'r'))
    ∧ (∀ len' : Int, 0 < (lbz_read_carry ⟨some (reader (oks [[97, 98]]
            ++ [Pull.mk [99] BZ_STREAM_END])), true, 'r', some [120], 1⟩ len').2.2 →
        carryover (lbz_read_carry ⟨some (reader (oks [[97, 98]]
            ++ [Pull.mk [99] BZ_STREAM_END])), true, 'r', some [120], 1⟩ len').2.1 = []) :=
  lbz_read_stream_end (reader (oks [[97, 98]] ++ [Pull.mk [99] BZ_STREAM_END])) true [120] 1
    [[97, 98]] [99] [] (.number 10) 10 rfl rfl (by decide) (by decide) (by decide)

/-- C16 as stated fails: the codec delivers "ab" and then reports `BZ_DATA_ERROR`;
`read(5)` has accumulated two bytes and returns (nil, "DATA_ERROR"), not "ab";
the same with one byte taken from the carryover before the error. -/
theorem lbz_read_error_drops_bytes :
    lbz_read (fresh [⟨[97, 98], BZ_OK⟩, ⟨[], BZ_DATA_ERROR⟩]) (.number 5)
        = (.values [.nil, .string (cstr "DATA_ERROR")], fresh [])
    ∧ lbz_read ⟨some (reader [⟨[], BZ_DATA_ERROR⟩]), true, 'r', some [120], 1⟩ (.number 5)
        = (.values [.nil, .string (cstr "DATA_ERROR")],
           ⟨some (reader []), true, 'r', some [120], 0⟩) := by
  decide

/-- C16, as it holds.  On an open read session holding `n` carryover bytes, when
the codec delivers chunks `cs` with `BZ_OK` and then reports a status `e` that is
neither `BZ_OK` nor `BZ_STREAM_END` before the request is satisfied, `read`
returns the failure (nil, message) however many bytes it has accumulated; the
carryover is empty afterwards and the codec, still open, has given away the
answers pulled: the accumulated bytes are dropped. -/
theorem lbz_read_codec_error (bz : BZFILE) (f : Bool) (m : List Byte) (n : Nat)
    (cs : List (List Byte)) (d : List Byte) (e : Int) (rest : List Pull) (a : LuaValue)
    (len : Int) (hw : bz.writing = false) (hreads : bz.reads = oks cs ++ ⟨d, e⟩ :: rest)
    (he : e ≠ BZ_OK) (he' : e ≠ BZ_STREAM_END) (hn : n ≤ m.length)
    (ha : lbz_read_len a = some len) (hlen : (n : Int) + cs.flatten.length < len) :
    (∃ msg, (lbz_read ⟨some bz, f, 'r', some m, n⟩ a).1 = .values [.nil, .string msg])
    ∧ carryover (lbz_read ⟨some bz, f, 'r', some m, n⟩ a).2 = []
    ∧ (lbz_read ⟨some bz, f, 'r', some m, n⟩ a).2.bz_stream = some { bz with reads := rest } := by
  rw [lbz_read_until_status bz f m n cs d e rest a len hw hreads he hn ha hlen]
  obtain ⟨_, _, _, _, c5, c6, c7⟩ :=
    lbz_read_carry_all (some bz) f m n len hn
      (by have := Int.natCast_nonneg cs.flatten.length; omega)
  generalize (lbz_read_carry ⟨some bz, f, 'r', some m, n⟩ len).2.1 = st at c5 c6 c7
  rcases st with ⟨sbz, sf, smode, sbuf, sn⟩
  simp only at c5
  subst c5
  refine ⟨by simp [lbz_read_exit, he, he', BZ2_bzerror], ?_,
    by simp [lbz_read_exit, he, he', BZ2_bzerror]⟩
  simpa [lbz_read_exit, he, he', BZ2_bzerror, carryover] using c7

/-- Witness of C16: the carryover holds "x", the codec delivers "ab" and then
reports `BZ_DATA_ERROR`; `read(10)` fails. -/
theorem lbz_read_codec_error_witness :
    (∃ msg, (lbz_read ⟨some (reader (oks [[97, 98]] ++ [Pull.mk [] BZ_DATA_ERROR])), true, 'r',
        some [120], 1⟩ (.number 10)).1 = .values [.nil, .string msg])
    ∧ carryover (lbz_read ⟨some (reader (oks [[97, 98]] ++ [Pull.mk [] BZ_DATA_ERROR])), true,
        'r', some [120], 1⟩ (.number 10)).2 = []
    ∧ (lbz_read ⟨some (reader (oks [[97, 98]] ++ [Pull.mk [] BZ_DATA_ERROR])), true, 'r',
        some [120], 1⟩ (.number 10)).2.bz_stream
      = some { reader (oks [[97, 98]] ++ [Pull.mk [] BZ_DATA_ERROR]) with reads := [] } :=
  lbz_read_codec_error (reader (oks [[97, 98]] ++ [Pull.mk [] BZ_DATA_ERROR])) true [120] 1
    [[97, 98]] [] BZ_DATA_ERROR [] (.number 10) 10 rfl rfl (by decide) (by decide) (by decide)
    (by decide) (by decide)

/-! ## C20: the bytes read(n) returns -/

/-- The request never exceeds the bytes still to go nor `LUAL_BUFFERSIZE`. -/
theorem nextRead_eq_min (LB : Nat) (len : Int) : nextRead LB len = min len (LB : Int) := by
  unfold nextRead
  split_ifs with h
  · exact (min_eq_right (le_of_lt h)).symm
  · exact (min_eq_left (not_lt.mp h)).symm

/-- With a codec that keeps to the requests, the loop of `lbz_read` accumulates at
most `len` bytes, and exactly `len` when it ends without a status other than `BZ_OK`. -/
theorem lbz_read_loop_respects (LB : Nat) (reads : List Pull) :
    ∀ (b : List Byte) (len : Int), 0 ≤ len → respects LB reads len = true →
      ∃ pulled, reads = pulled ++ (lbz_read_loop reads b len).2.2
        ∧ (lbz_read_loop reads b len).2.1 = b ++ bytesOf pulled
        ∧ ((bytesOf pulled).length : Int) ≤ len
        ∧ ((lbz_read_loop reads b len).1 = BZ_OK → ((bytesOf pulled).length : Int) = len) := by
  induction reads with
  | nil =>
    intro b len h0 _
    refine ⟨[], ?_, ?_, by simpa [bytesOf_nil] using h0, ?_⟩
    · by_cases h : len > 0 <;> simp [lbz_read_loop, h]
    · by_cases h : len > 0 <;> simp [lbz_read_loop, h, bytesOf_nil]
    · by_cases h : len > 0
      · simp [lbz_read_loop, h, BZ_SEQUENCE_ERROR, BZ_OK]
      · intro _
        simp only [bytesOf_nil, List.length_nil, Nat.cast_zero]
        omega
  | cons p rest ih =>
    intro b len h0 hr
    by_cases h : len > 0
    · have hb : (if (p.data.length : Int) > 0 then b ++ p.data else b) = b ++ p.data := by
        by_cases hl : p.data = []
        · simp [hl]
        · have : 0 < p.data.length := List.length_pos.mpr hl
          simp [this]
      have hlen' : (if (p.data.length : Int) > 0 then len - p.data.length else len)
          = len - p.data.length := by
        by_cases hl : p.data = []
        · simp [hl]
        · have : 0 < p.data.length := List.length_pos.mpr hl
          simp [this]
      have hnp : ¬ len ≤ 0 := by omega
      simp only [respects, hnp, decide_False, Bool.false_or, Bool.and_eq_true,
        decide_eq_true_eq, Bool.or_eq_true] at hr
      obtain ⟨hle, hrest⟩ := hr
      have hle' : (p.data.length : Int) ≤ len := by
        rw [nextRead_eq_min] at hle
        exact le_trans hle (min_le_left _ _)
      by_cases he : p.bzerror ≠ BZ_OK
      · refine ⟨[p], ?_, ?_, ?_, ?_⟩
        · simp [lbz_read_loop, h, he]
        · simp only [lbz_read_loop, h, he, if_true, hb, ne_eq, not_false_eq_true]
          simp [bytesOf]
        · simpa [bytesOf] using hle'
        · simp only [lbz_read_loop, h, he, if_true, ne_eq, not_false_eq_true]
          intro hc
          exact False.elim (by simp at hc)
      · have hrest' : respects LB rest (len - p.data.length) = true := by
          rcases hrest with hh | hh
          · exact absurd hh he
          · exact hh
        obtain ⟨pulled, h1, h2, h3, h4⟩ := ih (b ++ p.data) (len - p.data.length) (by omega) hrest'
        refine ⟨p :: pulled, ?_, ?_, ?_, ?_⟩
        · simp only [lbz_read_loop, h, he, if_true, if_false, hb, hlen']
          simpa using h1
        · simp only [lbz_read_loop, h, he, if_true, if_false, hb, hlen']
          rw [h2, bytesOf_cons]
          simp
        · rw [bytesOf_cons, List.length_append, Nat.cast_add]
          omega
        · simp only [lbz_read_loop, h, he, if_true, if_false, hb, hlen']
          intro hc
          have := h4 hc
          rw [bytesOf_cons, List.length_append, Nat.cast_add]
          omega
    · have hz : len = 0 := by omega
      refine ⟨[], ?_, ?_, ?_, ?_⟩
      · simp [lbz_read_loop, h]
      · simp [lbz_read_loop, h, bytesOf_nil]
      · simpa [bytesOf_nil] using h0
      · intro _
        simp [bytesOf_nil, hz]

/-- The carryover block of `lbz_read` for a request of `n` bytes: `min n k` bytes
are taken from the front of the `k` carryover bytes and the others stay in order. -/
theorem lbz_read_carry_min (bz : Option BZFILE) (f : Bool) (m : List Byte) (k n : Nat)
    (hk : k ≤ m.length) :
    ∃ m' : List Byte,
      lbz_read_carry ⟨bz, f, 'r', some m, k⟩ (n : Int)
        = ((readmem m k).take (min n k), ⟨bz, f, 'r', some m', k - min n k⟩,
           (n : Int) - (min n k : Nat))
      ∧ k - min n k ≤ m'.length
      ∧ readmem m' (k - min n k) = (readmem m k).drop (min n k) := by
  have hsplit : ∀ j, j ≤ k → readmem m j = (readmem m k).take j := by
    intro j hj
    simp only [readmem, List.take_take]
    rw [Nat.min_eq_left hj]
  have hkeep : ∀ j, j ≤ k → ∀ m', readmem m j ++ readmem m' (k - j) = readmem m k →
      readmem m' (k - j) = (readmem m k).drop j := by
    intro j hj m' h
    have hl : (readmem m j).length = j := by
      simp only [readmem, List.length_take]
      omega
    have := congrArg (List.drop j) h
    rw [List.drop_left' hl] at this
    exact this
  by_cases h0 : k = 0
  · subst h0
    exact ⟨m, by simp [lbz_read_carry, readmem], by simp, by simp [readmem]⟩
  · have hn0 : ¬ (n : Int) < 0 := by omega
    by_cases hlt : k < n
    · have hmin : min n k = k := by omega
      obtain ⟨hd1, hd2⟩ := drain_keeps m k k hk (le_refl _)
      refine ⟨memwrite m 0 (readmem (m.drop k) (k - k)), ?_, ?_, ?_⟩
      · simp only [lbz_read_carry, h0, ne_eq, not_false_eq_true, if_true, to_size_t, hn0,
          if_false, Nat.cast_lt, hlt, Int.toNat_ofNat, lbz_buffer_drain, Option.getD_some,
          Option.map_some', hmin, List.take_length]
        rw [← hsplit k (le_refl _)]
      · rw [hmin]
        exact hd2
      · rw [hmin]
        exact hkeep k (le_refl _) _ hd1
    · have hmin : min n k = n := by omega
      have hnk : n ≤ k := by omega
      obtain ⟨hd1, hd2⟩ := drain_keeps m k n hk hnk
      refine ⟨memwrite m 0 (readmem (m.drop n) (k - n)), ?_, ?_, ?_⟩
      · simp only [lbz_read_carry, h0, ne_eq, not_false_eq_true, if_true, to_size_t, hn0,
          if_false, Nat.cast_lt, hlt, Int.toNat_ofNat, lbz_buffer_drain, Option.getD_some,
          Option.map_some', hmin]
        rw [← hsplit n hnk]
      · rw [hmin]
        exact hd2
      · rw [hmin]
        exact hkeep n hnk _ hd1

/-- C20 as stated fails: `luaL_checkint` turns the count 2147483648 into a negative
C `int`, so `read(2147483648)` on a fresh session whose codec has "abc" to
deliver returns the empty string without asking the codec, although the codec
reported neither `BZ_STREAM_END` nor an error. -/
theorem lbz_read_count_overflow :
    lbz_read (fresh [⟨[97, 98, 99], BZ_OK⟩]) (.number 2147483648)
        = (.values [.string []], fresh [⟨[97, 98, 99], BZ_OK⟩])
    ∧ lbz_read_len (.number 2147483648) = some (-2147483648) := by
  decide

/-- C20, as it holds.  On an open read session holding `k` carryover bytes, for a
count `n` from 0 to `INT_MAX` and a codec that never answers with more bytes than
requested: a successful `read(n)` returns at most `n` bytes, the first
`min n k` of which are the front of the carryover, and exactly `n` bytes when the
codec is still open afterwards (it reported neither `BZ_STREAM_END` nor an
error); the carryover keeps its other bytes in order; when `n ≤ k` the result is
the first `n` carryover bytes and the codec handle is untouched; each request
is `min(remaining, LUAL_BUFFERSIZE)`. -/
theorem lbz_read_count (LB : Nat) (bz : BZFILE) (f : Bool) (m : List Byte) (k n : Nat)
    (hw : bz.writing = false) (hk : k ≤ m.length) (hn : (n : Int) ≤ INT_MAX)
    (hr : respects LB bz.reads ((n : Int) - (min n k : Nat)) = true) :
    (∀ z, (lbz_read ⟨some bz, f, 'r', some m, k⟩ (.number n)).1 = .values [.string z] →
        z.length ≤ n
        ∧ z.take (min n k) = (carryover ⟨some bz, f, 'r', some m, k⟩).take (min n k)
        ∧ ((lbz_read ⟨some bz, f, 'r', some m, k⟩ (.number n)).2.bz_stream ≠ none →
            z.length = n))
    ∧ carryover (lbz_read ⟨some bz, f, 'r', some m, k⟩ (.number n)).2
        = (carryover ⟨some bz, f, 'r', some m, k⟩).drop (min n k)
    ∧ (n ≤ k →
        (lbz_read ⟨some bz, f, 'r', some m, k⟩ (.number n)).1
            = .values [.string ((carryover ⟨some bz, f, 'r', some m, k⟩).take n)]
        ∧ (lbz_read ⟨some bz, f, 'r', some m, k⟩ (.number n)).2.bz_stream = some bz)
    ∧ (∀ len : Int, nextRead LB len = min len (LB : Int)) := by
  have hl : lbz_read_len (.number (n : Int)) = some (n : Int) := by
    have hw32 : wrap32 (n : Int) = (n : Int) := by
      unfold wrap32
      unfold INT_MAX at hn
      norm_num
      omega
    simp only [lbz_read_len, hw32]
  obtain ⟨m', hc, hm', hrest⟩ := lbz_read_carry_min (some bz) f m k n hk
  have hj : min n k ≤ k := Nat.min_le_right _ _
  have hjn : min n k ≤ n := Nat.min_le_left _ _
  have hcl : (readmem m k).length = k := by
    simp only [readmem, List.length_take]
    omega
  have htl : ((readmem m k).take (min n k)).length = min n k := by
    rw [List.length_take, hcl]
    omega
  obtain ⟨pulled, h1, h2, h3, h4⟩ := lbz_read_loop_respects LB bz.reads
    ((readmem m k).take (min n k)) ((n : Int) - (min n k : Nat)) (by omega) hr
  obtain ⟨pulled', g1, _, h5⟩ := lbz_read_loop_spec bz.reads
    ((readmem m k).take (min n k)) ((n : Int) - (min n k : Nat))
  have hread : lbz_read ⟨some bz, f, 'r', some m, k⟩ (.number (n : Int))
      = lbz_read_exit (.number (n : Int))
          ⟨some { bz with reads := (lbz_read_loop bz.reads ((readmem m k).take (min n k))
              ((n : Int) - (min n k : Nat))).2.2 }, f, 'r', some m', k - min n k⟩
          (lbz_read_loop bz.reads ((readmem m k).take (min n k))
              ((n : Int) - (min n k : Nat))).1
          (lbz_read_loop bz.reads ((readmem m k).take (min n k))
              ((n : Int) - (min n k : Nat))).2.1 := by
    simp only [lbz_read, hl, hc, ne_eq, not_true_eq_false, if_false, reduceCtorEq, and_false,
      lbz_read_pulls, hw, Bool.false_eq_true]
  rw [hread]
  generalize lbz_read_loop bz.reads ((readmem m k).take (min n k))
    ((n : Int) - (min n k : Nat)) = r at h1 h2 h3 h4 h5 g1
  rcases r with ⟨e, b', rest⟩
  simp only at h1 h2 h3 h4 h5 g1
  subst h2
  have hlenb : (List.take (min n k) (readmem m k) ++ bytesOf pulled).length
      = min n k + (bytesOf pulled).length := by
    rw [List.length_append, htl]
  refine ⟨?_, ?_, ?_, nextRead_eq_min LB⟩
  · intro z hz
    by_cases he : e = BZ_OK
    · subst he
      simp only [lbz_read_exit, if_true, top, List.length_cons, List.length_nil, Nat.reduceAdd,
        Nat.reduceSub, List.drop_succ_cons, List.drop_zero, Outcome.values.injEq, List.cons.injEq,
        LuaValue.string.injEq, and_true] at hz ⊢
      subst hz
      have h4' := h4 rfl
      refine ⟨by rw [hlenb]; omega, ?_, fun _ => by rw [hlenb]; omega⟩
      rw [List.take_left' htl]
      simp [carryover]
    · by_cases hend : e = BZ_STREAM_END
      · subst hend
        rcases m' with m'
        simp only [lbz_read_exit, he, if_false, if_true, lbz_perform_close_free, top,
          List.length_cons, List.length_nil, Nat.reduceAdd, List.append_nil, Nat.reduceSub,
          List.drop_succ_cons, List.drop_zero, Outcome.values.injEq, List.cons.injEq,
          LuaValue.string.injEq, and_true] at hz ⊢
        subst hz
        refine ⟨by rw [hlenb]; omega, ?_, fun hne => absurd rfl hne⟩
        rw [List.take_left' htl]
        simp [carryover]
      · simp [lbz_read_exit, he, hend, BZ2_bzerror] at hz
  · by_cases he : e = BZ_OK
    · subst he
      simp only [lbz_read_exit, if_true, carryover]
      exact hrest
    · have hpos : ¬ ((n : Int) - (min n k : Nat) ≤ 0) := fun hle => he (h5 hle).2
      have hjk : min n k = k := by omega
      by_cases hend : e = BZ_STREAM_END
      · subst hend
        simp only [lbz_read_exit, he, if_false, if_true, lbz_perform_close_free, carryover]
        rw [hjk, List.drop_of_length_le (by omega)]
      · simp only [lbz_read_exit, he, hend, if_false, BZ2_bzerror, carryover]
        exact hrest
  · intro hnk
    have hmin : min n k = n := by omega
    have hzero : (n : Int) - (min n k : Nat) ≤ 0 := by omega
    obtain ⟨hp, he⟩ := h5 hzero
    subst hp he
    have h1' : rest = bz.reads := by simpa using g1.symm
    subst h1'
    have hb0 : bytesOf pulled = [] := by
      have := h4 rfl
      exact List.length_eq_zero.mp (by omega)
    simp only [lbz_read_exit, if_true, top, hb0, List.append_nil, hmin, carryover]
    simp

/-- Witness of C20: the carryover holds "xy", the codec delivers "ab" and "c" to
requests of 3 and 1 bytes, and `read(5)` is made with `LUAL_BUFFERSIZE` 4. -/
theorem lbz_read_count_witness :
    respects 4 (reader [⟨[97, 98], BZ_OK⟩, ⟨[99], BZ_OK⟩]).reads
        (((5 : Nat) : Int) - ((min 5 2 : Nat) : Int)) = true
    ∧ carryover (lbz_read ⟨some (reader [⟨[97, 98], BZ_OK⟩, ⟨[99], BZ_OK⟩]), true, 'r',
          some [120, 121], 2⟩ (.number ((5 : Nat) : Int))).2
        = (carryover ⟨some (reader [⟨[97, 98], BZ_OK⟩, ⟨[99], BZ_OK⟩]), true, 'r',
            some [120, 121], 2⟩).drop (min 5 2)
    ∧ (lbz_read ⟨some (reader [⟨[97, 98], BZ_OK⟩, ⟨[99], BZ_OK⟩]), true, 'r',
          some [120, 121], 2⟩ (.number ((5 : Nat) : Int))).1
        = .values [.string [120, 121, 97, 98, 99]]
    ∧ [120, 121, 97, 98, 99].length ≤ 5 :=
  ⟨by decide,
   (lbz_read_count 4 (reader [⟨[97, 98], BZ_OK⟩, ⟨[99], BZ_OK⟩]) true [120, 121] 2 5 rfl
      (by decide) (by decide) (by decide)).2.1,
   by decide,
   ((lbz_read_count 4 (reader [⟨[97, 98], BZ_OK⟩, ⟨[99], BZ_OK⟩]) true [120, 121] 2 5 rfl
      (by decide) (by decide) (by decide)).1 [120, 121, 97, 98, 99] (by decide)).1⟩

/-! ## C14: the loop of decompress -/

/-- The loop of `lbz_decompress` returns a string exactly when its calls drive the
codec until the count of consumed bytes reaches `len`, and the string is the
Lua buffer followed by the chunks written, in order. -/
theorem lbz_decompress_feed_iff {σc σd : Type} (lib : Bzlib σc σd) (LB len : Nat) (fuel : Nat) :
    ∀ (stream : bz_stream σd) (b z : List Byte),
      lbz_decompress_feed lib LB len fuel stream b = some (.ok z)
        ↔ ∃ outs, Drives lib LB len stream outs ∧ outs.length < fuel ∧ z = b ++ outs.flatten := by
  induction fuel with
  | zero =>
    intro stream b z
    simp [lbz_decompress_feed]
  | succ fuel ih =>
    intro stream b z
    rw [lbz_decompress_feed]
    by_cases hlt : stream.total_in_lo32 < len
    · rw [if_pos hlt]
      by_cases hret : (BZ2_bzDecompress lib stream LB).1 < 0
      · simp only [hret, if_true]
        constructor
        · intro h
          simp at h
        · rintro ⟨outs, hd, _, _⟩
          cases hd with
          | done _ h => exact absurd hlt h
          | step _ _ _ hr _ => exact absurd hret hr
      · simp only [hret, if_false]
        rw [ih]
        constructor
        · rintro ⟨outs, hd, hl, hz⟩
          refine ⟨_ :: outs, Drives.step stream outs hlt hret hd, by simpa using hl, ?_⟩
          simpa using hz
        · rintro ⟨outs, hd, hl, hz⟩
          cases hd with
          | done _ h => exact absurd hlt h
          | step _ outs' _ _ hrest =>
            exact ⟨outs', hrest, by simpa using hl, by simpa using hz⟩
    · rw [if_neg hlt]
      constructor
      · intro h
        refine ⟨[], Drives.done stream hlt, by simp, ?_⟩
        simpa using h.symm
      · rintro ⟨outs, hd, _, hz⟩
        cases hd with
        | done _ _ => simp [hz]
        | step _ _ h _ _ => exact absurd h hlt

/-- C14 as stated fails.  With a decompressor that ends its stream as libbzip2
does, the stream "\x02ab" decompresses to "ab"; followed by one byte of garbage,
the first call writes "ab" and returns `BZ_STREAM_END` with 3 of the 4 bytes
consumed, the loop calls the codec again, gets `BZ_SEQUENCE_ERROR`, and
`lbz_decompress` returns (nil, message): the garbage is not ignored. -/
theorem lbz_decompress_trailing_garbage :
    lbz_decompress lenlib 8192 10 [2, 97, 98] = some (.values [.string [97, 98]])
    ∧ (BZ2_bzDecompress lenlib ⟨[2, 97, 98, 33], 4, 0, .header⟩ 8192).1 = BZ_STREAM_END
    ∧ (BZ2_bzDecompress lenlib ⟨[2, 97, 98, 33], 4, 0, .header⟩ 8192).2.1 = [97, 98]
    ∧ (BZ2_bzDecompress lenlib ⟨[2, 97, 98, 33], 4, 0, .header⟩ 8192).2.2.total_in_lo32 = 3
    ∧ lbz_decompress lenlib 8192 10 [2, 97, 98, 33]
        = some (.values [.nil, .string (cstr "SEQUENCE_ERROR")]) := by
  decide

/-- C14, as it holds.  When the decompressor initialises, `lbz_decompress` returns
a string exactly when its calls drive the codec, one call as long as fewer than
`len(data)` bytes are counted as consumed and none returning a negative status,
until all bytes are consumed; the string is the concatenation, in order, of the
chunks the calls wrote.  `BZ_STREAM_END` is not required: the empty string gives
the empty string without any call.  Nor does it stop the loop: when a call
returns `BZ_STREAM_END` with bytes left, the codec is called again, and when that
call returns a negative status the loop ends in `handle_error`. -/
theorem lbz_decompress_drives {σc σd : Type} (lib : Bzlib σc σd) (LB fuel : Nat)
    (input z : List Byte) (hinit : lib.decompressInit.1 = BZ_OK) :
    (lbz_decompress lib LB fuel input = some (.values [.string z])
      ↔ ∃ outs, Drives lib LB input.length
            ⟨input, input.length % 2 ^ 32, 0, lib.decompressInit.2⟩ outs
          ∧ outs.length < fuel ∧ z = outs.flatten)
    ∧ (0 < fuel → lbz_decompress lib LB fuel [] = some (.values [.string []]))
    ∧ (∀ (stream : bz_stream σd) (b : List Byte) (f : Nat),
        stream.total_in_lo32 < input.length →
        (BZ2_bzDecompress lib stream LB).1 = BZ_STREAM_END →
        (BZ2_bzDecompress lib stream LB).2.2.total_in_lo32 < input.length →
        (BZ2_bzDecompress lib (BZ2_bzDecompress lib stream LB).2.2 LB).1 < 0 →
        lbz_decompress_feed lib LB input.length (f + 2) stream b
          = some (.error (BZ2_bzDecompress lib (BZ2_bzDecompress lib stream LB).2.2 LB).1)) := by
  refine ⟨?_, ?_, ?_⟩
  · have hiff := lbz_decompress_feed_iff lib LB input.length fuel
      ⟨input, input.length % 2 ^ 32, 0, lib.decompressInit.2⟩ [] z
    simp only [List.nil_append] at hiff
    rw [← hiff]
    unfold lbz_decompress
    simp only [hinit, ne_eq, not_true_eq_false, if_false]
    rcases lbz_decompress_feed lib LB input.length fuel
        ⟨input, input.length % 2 ^ 32, 0, lib.decompressInit.2⟩ [] with _ | r
    · simp
    · rcases r with err | b
      · simp [lbz_handle_error]
      · simp
  · intro hf
    obtain ⟨fuel', rfl⟩ : ∃ k, fuel = k + 1 := ⟨fuel - 1, by omega⟩
    simp [lbz_decompress, hinit, lbz_decompress_feed]
  · intro stream b f h1 h2 h3 h4
    have hne : ¬ (BZ_STREAM_END < 0) := by decide
    rw [lbz_decompress_feed, if_pos h1]
    simp only [h2, hne, if_false]
    rw [lbz_decompress_feed, if_pos h3]
    simp only [h4, if_true]

/-- Witness of C14: the decompressor `lenlib` on the stream "\x02ab". -/
theorem lbz_decompress_drives_witness :
    lenlib.decompressInit.1 = BZ_OK
    ∧ (∃ outs, Drives lenlib 8192 [2, 97, 98].length
          ⟨[2, 97, 98], [2, 97, 98].length % 2 ^ 32, 0, lenlib.decompressInit.2⟩ outs
        ∧ outs.length < 10 ∧ [97, 98] = outs.flatten)
    ∧ lbz_decompress lenlib 8192 10 [] = some (.values [.string []]) :=
  ⟨rfl, (lbz_decompress_drives lenlib 8192 10 [2, 97, 98] [97, 98] rfl).1.mp (by decide),
   (lbz_decompress_drives lenlib 8192 10 [2, 97, 98] [97, 98] rfl).2.1 (by decide)⟩

/-! ## C18: the carryover stays below its capacity -/

theorem memchr_lt (buf : List Byte) (c : Byte) :
    ∀ i, memchr buf c = some i → i < buf.length := by
  induction buf with
  | nil =>
    intro i h
    simp [memchr] at h
  | cons x xs ih =>
    intro i h
    by_cases hx : x = c
    · simp only [memchr, hx, if_true, Option.some.injEq] at h
      subst h
      simp
    · simp only [memchr, hx, if_false, Option.map_eq_some'] at h
      obtain ⟨j, hj, rfl⟩ := h
      have := ih j hj
      simp only [List.length_cons]
      omega

/-- On an empty carryover and a chunk of at most `LUAL_BUFFERSIZE` bytes the
`assert` of `lbz_buffer_append` holds: `lbz_handle_eol` either finds no newline
and leaves the state, or stores a remainder shorter than `LUAL_BUFFERSIZE`. -/
theorem lbz_handle_eol_bounded (LB : Nat) (b data : List Byte) (bz : Option BZFILE) (f : Bool)
    (m : List Byte) (in_buffer keep_eol : Bool) (hdata : data.length ≤ LB) :
    (∃ b', lbz_handle_eol LB b data ⟨bz, f, 'r', some m, 0⟩ in_buffer keep_eol
        = some (false, b', ⟨bz, f, 'r', some m, 0⟩))
    ∨ (∃ (b' m' : List Byte) (j : Nat),
        lbz_handle_eol LB b data ⟨bz, f, 'r', some m, 0⟩ in_buffer keep_eol
          = some (true, b', ⟨bz, f, 'r', some m', j⟩)
        ∧ j ≤ m'.length ∧ j < LB) := by
  unfold lbz_handle_eol
  rcases hmc : memchr data NL with _ | eol
  · exact Or.inl ⟨_, rfl⟩
  · have hlt := memchr_lt data NL eol hmc
    have hrem : (List.drop (eol + 1) data).length < LB := by
      rw [List.length_drop]
      omega
    refine Or.inr ⟨(if in_buffer = true
        then luaL_addsize b data (if keep_eol = true then eol + 1 else eol)
        else luaL_addlstring b data (if keep_eol = true then eol + 1 else eol)),
      memwrite m 0 (List.drop (eol + 1) data), (List.drop (eol + 1) data).length,
      ?_, ?_, hrem⟩
    · simp only [lbz_buffer_append, Nat.zero_add, hrem, if_true, Option.map_some']
    · rw [memwrite_zero]
      simp

/-- The loop of `lbz_getline_read`, entered with an empty carryover on chunks of at
most `LUAL_BUFFERSIZE` bytes, never fails the `assert` and leaves a bounded session. -/
theorem lbz_getline_loop_bounded (LB : Nat) (hLB : 0 < LB) (keep_eol : Bool) (z : BZFILE)
    (hw : z.writing = false) (reads : List Pull) :
    (∀ p ∈ reads, p.data.length ≤ LB) →
    ∀ (sz : Option BZFILE) (f : Bool) (m b : List Byte),
      (lbz_getline_loop LB keep_eol z ⟨sz, f, 'r', some m, 0⟩ reads b).1 ≠ .abort
      ∧ Bounded LB (lbz_getline_loop LB keep_eol z ⟨sz, f, 'r', some m, 0⟩ reads b).2 := by
  induction reads with
  | nil =>
    intro _ sz f m b
    simp only [lbz_getline_loop, BZ2_bzerror]
    exact ⟨by simp, ⟨rfl, by simp [hw], by simp, by simp⟩, hLB, by simp [pending]⟩
  | cons p rest ih =>
    intro hreads sz f m b
    have hp : p.data.length ≤ LB := hreads p (List.mem_cons_self _ _)
    have hrest : ∀ q ∈ rest, q.data.length ≤ LB :=
      fun q hq => hreads q (List.mem_cons_of_mem _ hq)
    rw [lbz_getline_loop]
    by_cases he : p.bzerror ≠ BZ_OK ∧ p.bzerror ≠ BZ_STREAM_END
    · rw [if_pos he]
      simp only [BZ2_bzerror]
      exact ⟨by simp, ⟨rfl, by simp [hw], by simp, by simp⟩, hLB, by simpa [pending] using hrest⟩
    · rw [if_neg he]
      rcases lbz_handle_eol_bounded LB b p.data (some { z with reads := rest }) f m true keep_eol hp
        with ⟨b', hh⟩ | ⟨b', m', j, hh, hj, hjLB⟩
      · rw [hh]
        exact ih hrest _ f m b'
      · rw [hh]
        by_cases hend : p.bzerror = BZ_STREAM_END
        · by_cases hj0 : j = 0
          · subst hj0
            have hd : decide ((0 : Nat) ≠ 0) = false := by simp
            simp only [hend, if_true, hd, lbz_perform_close_free]
            exact ⟨by simp [top], ⟨rfl, by simp, by simp, by simp⟩, hLB, by simp [pending]⟩
          · have hd : decide (j ≠ 0) = true := by simp [hj0]
            simp only [hend, if_true, hd, lbz_perform_close_keep]
            exact ⟨by simp [top], ⟨rfl, by simp, by simpa using hj, by simp⟩, hjLB,
              by simp [pending]⟩
        · simp only [hend, if_false]
          exact ⟨by simp [top], ⟨rfl, by simp [hw], by simpa using hj, by simp⟩, hjLB,
            by simpa [pending] using hrest⟩

/-- The function `lbz_getline_read`, entered with an empty carryover, never fails the
`assert` and leaves a bounded session. -/
theorem lbz_getline_read_bounded (LB : Nat) (hLB : 0 < LB) (bz : Option BZFILE) (f : Bool)
    (buf : Option (List Byte)) (b : List Byte) (keep_eol : Bool)
    (hz : ∀ z, bz = some z → z.writing = false ∧ buf ≠ none)
    (hreads : ∀ p ∈ pending ⟨bz, f, 'r', buf, 0⟩, p.data.length ≤ LB) :
    (lbz_getline_read LB b ⟨bz, f, 'r', buf, 0⟩ keep_eol).1 ≠ .abort
    ∧ Bounded LB (lbz_getline_read LB b ⟨bz, f, 'r', buf, 0⟩ keep_eol).2 := by
  rcases bz with _ | z
  · have hr : lbz_getline_read LB b ⟨none, f, 'r', buf, 0⟩ keep_eol
        = (.values [.string b], ⟨none, f, 'r', none, 0⟩) := by
      rcases buf with _ | m <;>
        simp [lbz_getline_read, lbz_buffer_drain_all, lbz_perform_close, lbz_buffer_free,
          luaL_addlstring, readmem, top]
    rw [hr]
    exact ⟨by simp, ⟨rfl, by simp, by simp, by simp⟩, hLB, by simp [pending]⟩
  · obtain ⟨hw, hbuf⟩ := hz z rfl
    rcases buf with _ | m
    · exact absurd rfl hbuf
    · have hr : lbz_getline_read LB b ⟨some z, f, 'r', some m, 0⟩ keep_eol
          = lbz_getline_loop LB keep_eol z ⟨some z, f, 'r', some m, 0⟩ z.reads b := by
        simp [lbz_getline_read, lbz_buffer_drain_all, luaL_addlstring, readmem, hw]
      rw [hr]
      exact lbz_getline_loop_bounded LB hLB keep_eol z hw z.reads
        (by simpa [pending] using hreads) (some z) f m b

/-- Every `getline` on a bounded session passes the `assert` and leaves a bounded session. -/
theorem lbz_getline_bounded (LB : Nat) (hLB : 0 < LB) (s : lbz_state) (arg : LuaValue)
    (hs : Bounded LB s) :
    (lbz_getline LB s arg).1 ≠ .abort ∧ Bounded LB (lbz_getline LB s arg).2 := by
  rcases s with ⟨bz, f, mode, buf, n⟩
  obtain ⟨⟨hm, hz, hb, hb0⟩, hn, hreads⟩ := hs
  simp only at hm hz hb hb0 hn
  subst hm
  unfold lbz_getline
  by_cases hc : bz = none ∧ buf = none
  · rw [if_pos hc]
    exact ⟨by simp, ⟨rfl, hz, hb, hb0⟩, hn, hreads⟩
  · rw [if_neg hc]
    by_cases hn0 : n ≠ 0
    · rw [if_pos hn0]
      rcases buf with _ | m
      · exact absurd (hb0 rfl) hn0
      · have hnm : n ≤ m.length := hb m rfl
        have hdl : (readmem m n).length ≤ LB := by
          simp only [readmem, List.length_take]
          omega
        simp only [lbz_buffer_drain_all]
        rcases lbz_handle_eol_bounded LB [] (readmem m n) bz f m false (!lua_toboolean arg) hdl
          with ⟨b', hh⟩ | ⟨b', m', j, hh, hj, hjLB⟩
        · rw [hh]
          exact lbz_getline_read_bounded LB hLB bz f (some m) b' _ hz
            (by simpa [pending] using hreads)
        · rw [hh]
          refine ⟨by simp [top], ⟨rfl, ?_, by simpa using hj, by simp⟩, hjLB,
            by simpa [pending] using hreads⟩
          intro z hzz
          exact ⟨(hz z hzz).1, by simp⟩
    · rw [if_neg hn0]
      have h0 : n = 0 := by omega
      subst h0
      exact lbz_getline_read_bounded LB hLB bz f buf [] _ hz hreads

/-- Every `read` on a bounded session leaves a bounded session; `read` has no `assert`. -/
theorem lbz_read_bounded (LB : Nat) (hLB : 0 < LB) (s : lbz_state) (a : LuaValue)
    (hs : Bounded LB s) :
    (lbz_read s a).1 ≠ .abort ∧ Bounded LB (lbz_read s a).2 := by
  rcases s with ⟨bz, f, mode, buf, n⟩
  obtain ⟨⟨hm, hz, hb, hb0⟩, hn, hreads⟩ := hs
  simp only at hm hz hb hb0 hn
  subst hm
  have hsame : Bounded LB ⟨bz, f, 'r', buf, n⟩ := ⟨⟨rfl, hz, hb, hb0⟩, hn, hreads⟩
  rcases hl : lbz_read_len a with _ | len
  · simp only [lbz_read, hl]
    exact ⟨by simp, hsame⟩
  rcases buf with _ | m
  · rcases bz with _ | z
    · simp only [lbz_read, hl]
      exact ⟨by simp, hsame⟩
    · exact absurd rfl (hz z rfl).2
  have hnm : n ≤ m.length := hb m rfl
  obtain ⟨k, m', len', hc, hk, hm', _, _⟩ := lbz_read_carry_spec bz f m n len hnm
  simp only [lbz_read, hl, hc]
  simp only [ne_eq, not_true_eq_false, if_false, reduceCtorEq, and_false, and_self]
  rcases bz with _ | z
  · by_cases hpos : len' > 0
    · simp only [lbz_read_pulls, hpos, if_true, lbz_read_exit, BZ2_bzerror]
      have h1 : ¬ BZ_PARAM_ERROR = BZ_OK := by decide
      have h2 : ¬ BZ_PARAM_ERROR = BZ_STREAM_END := by decide
      simp only [h1, h2, if_false]
      exact ⟨by simp, ⟨rfl, by simp, by simpa using hm', by simp⟩, by simp only; omega,
        by simp [pending]⟩
    · simp only [lbz_read_pulls, hpos, if_false, lbz_read_exit, if_true]
      exact ⟨by simp, ⟨rfl, by simp, by simpa using hm', by simp⟩, by simp only; omega,
        by simp [pending]⟩
  · have hw : z.writing = false := (hz z rfl).1
    obtain ⟨pulled, h1, _, _⟩ := lbz_read_loop_spec z.reads (readmem m k) len'
    simp only [lbz_read_pulls, hw, Bool.false_eq_true, if_false]
    generalize lbz_read_loop z.reads (readmem m k) len' = r at h1
    rcases r with ⟨e, b', rest⟩
    simp only at h1 ⊢
    have hrest : ∀ q ∈ rest, q.data.length ≤ LB := by
      intro q hq
      apply hreads q
      simp only [pending, h1]
      exact List.mem_append_right _ hq
    by_cases he : e = BZ_OK
    · simp only [lbz_read_exit, he, if_true]
      exact ⟨by simp, ⟨rfl, by simp [hw], by simpa using hm', by simp⟩, by simp only; omega,
        by simpa [pending] using hrest⟩
    · by_cases hend : e = BZ_STREAM_END
      · subst hend
        simp only [lbz_read_exit, he, if_false, if_true, lbz_perform_close_free]
        exact ⟨by simp [top], ⟨rfl, by simp, by simp, by simp⟩, hLB, by simp [pending]⟩
      · simp only [lbz_read_exit, he, hend, if_false, BZ2_bzerror]
        exact ⟨by simp, ⟨rfl, by simp [hw], by simpa using hm', by simp⟩, by simp only; omega,
          by simpa [pending] using hrest⟩

/-- In a bounded session the carryover is shorter than `LUAL_BUFFERSIZE`, its
length is `buf_size`, and the carryover block of `lbz_read` drains exactly the
bytes it takes: never more than the buffer holds. -/
theorem Bounded.facts {LB : Nat} {s : lbz_state} (hs : Bounded LB s) :
    s.buf_size < LB ∧ (carryover s).length = s.buf_size
    ∧ ∀ len : Int, (lbz_read_carry s len).1.length + (lbz_read_carry s len).2.1.buf_size
        = s.buf_size := by
  rcases s with ⟨bz, f, mode, buf, n⟩
  obtain ⟨⟨hm, hz, hb, hb0⟩, hn, _⟩ := hs
  simp only at hm hz hb hb0 hn
  subst hm
  refine ⟨hn, ?_, ?_⟩
  · rcases buf with _ | m
    · simp [carryover, hb0 rfl]
    · have := hb m rfl
      simp only [carryover, readmem, List.length_take]
      omega
  · intro len
    rcases buf with _ | m
    · have h0 : n = 0 := hb0 rfl
      subst h0
      simp [lbz_read_carry]
    · obtain ⟨k, m', len', hc, hk, _, _, _⟩ := lbz_read_carry_spec bz f m n len (hb m rfl)
      have := hb m rfl
      rw [hc]
      simp only [readmem, List.length_take]
      omega

/-- Every call of a sequence made on a bounded session passes the `assert` and
leaves a bounded session. -/
theorem trace_bounded (LB : Nat) (hLB : 0 < LB) (ops : List Op) :
    ∀ s : lbz_state, Bounded LB s →
      ∀ x ∈ trace LB s ops, x.1 ≠ .abort ∧ Bounded LB x.2 := by
  induction ops with
  | nil =>
    intro s _ x hx
    simp [trace] at hx
  | cons o os ih =>
    intro s hs x hx
    have hstep : (step LB s o).1 ≠ .abort ∧ Bounded LB (step LB s o).2 := by
      cases o with
      | read a => exact lbz_read_bounded LB hLB s a hs
      | getline a => exact lbz_getline_bounded LB hLB s a hs
    simp only [trace, List.mem_cons] at hx
    rcases hx with rfl | hx
    · exact hstep
    · exact ih _ hstep.2 x hx

theorem fresh_Bounded (LB : Nat) (hLB : 0 < LB) (reads : List Pull)
    (hreads : ∀ p ∈ reads, p.data.length ≤ LB) : Bounded LB (fresh reads) :=
  ⟨fresh_ReadInv reads, hLB, by simpa [pending, fresh, reader] using hreads⟩

/-- C18. From a successful read-mode open, with a positive `LUAL_BUFFERSIZE` and a
codec that delivers at most `LUAL_BUFFERSIZE` bytes per pull, after every
sequence of `read` and `getline` calls with any arguments: no call fails the
assertion of `lbz_buffer_append`, the carryover length is `buf_size` and is
strictly less than `LUAL_BUFFERSIZE`, and the carryover block of `read` drains
exactly the bytes it takes, never more than the buffer holds; the same holds
of the fresh session. -/
theorem lbz_carryover_bounded (LB : Nat) (hLB : 0 < LB) (reads : List Pull)
    (hreads : ∀ p ∈ reads, p.data.length ≤ LB) (ops : List Op) :
    ((fresh reads).buf_size < LB
      ∧ ∀ len : Int, (lbz_read_carry (fresh reads) len).1.length
          + (lbz_read_carry (fresh reads) len).2.1.buf_size = (fresh reads).buf_size)
    ∧ ∀ x ∈ trace LB (fresh reads) ops,
        x.1 ≠ .abort ∧ x.2.buf_size < LB ∧ (carryover x.2).length = x.2.buf_size
        ∧ ∀ len : Int, (lbz_read_carry x.2 len).1.length + (lbz_read_carry x.2 len).2.1.buf_size
            = x.2.buf_size := by
  have hf := fresh_Bounded LB hLB reads hreads
  refine ⟨⟨hf.facts.1, hf.facts.2.2⟩, ?_⟩
  intro x hx
  obtain ⟨hna, hb⟩ := trace_bounded LB hLB ops (fresh reads) hf x hx
  exact ⟨hna, hb.facts⟩

/-- Witness of C18: `LUAL_BUFFERSIZE` 4, the codec delivers "a\nb" and then, with
`BZ_STREAM_END`, "c\nd"; the calls are getline(), read(1), getline(true). -/
theorem lbz_carryover_bounded_witness :
    0 < 4
    ∧ (∀ p ∈ delivery [[97, 10, 98]] [99, 10, 100], p.data.length ≤ 4)
    ∧ ∀ x ∈ trace 4 (fresh (delivery [[97, 10, 98]] [99, 10, 100]))
          [.getline .nil, .read (.number 1), .getline (.boolean true)],
        x.1 ≠ .abort ∧ x.2.buf_size < 4 ∧ (carryover x.2).length = x.2.buf_size
        ∧ ∀ len : Int, (lbz_read_carry x.2 len).1.length + (lbz_read_carry x.2 len).2.1.buf_size
            = x.2.buf_size :=
  ⟨by decide, by decide,
   (lbz_carryover_bounded 4 (by decide) (delivery [[97, 10, 98]] [99, 10, 100]) (by decide)
      [.getline .nil, .read (.number 1), .getline (.boolean true)]).2⟩

/-! ## C19: a newline in the chunk that comes with BZ_STREAM_END -/

/-- With the newlines kept, the lines of a byte string put together are the string. -/
theorem linesFuel_flatten (fuel : Nat) :
    ∀ R : List Byte, R.length ≤ fuel → (linesFuel fuel true R).flatten = R := by
  induction fuel with
  | zero =>
    intro R h
    have : R = [] := List.length_eq_zero.mp (by omega)
    subst this
    rfl
  | succ fuel ih =>
    intro R h
    rw [linesFuel]
    by_cases hR : R = []
    · simp [hR]
    · rw [if_neg hR]
      rcases hmc : memchr R NL with _ | j
      · simp
      · have hj := memchr_lt R NL j hmc
        simp only [if_true, List.flatten_cons]
        rw [ih (R.drop (j + 1)) (by rw [List.length_drop]; omega), List.take_append_drop]

/-- The function `lbz_handle_eol` on bytes without newline adds them all to the Lua buffer. -/
theorem lbz_handle_eol_none (LB : Nat) (b data : List Byte) (st : lbz_state)
    (in_buffer keep_eol : Bool) (h : memchr data NL = none) :
    lbz_handle_eol LB b data st in_buffer keep_eol = some (false, b ++ data, st) := by
  unfold lbz_handle_eol
  rw [h]
  cases in_buffer <;> simp [luaL_addsize, luaL_addlstring, readmem]

/-- The function `lbz_handle_eol` on an empty carryover and at most `LUAL_BUFFERSIZE`
bytes with a first newline at `i`: the line goes to the Lua buffer and the bytes
after the newline to the carryover. -/
theorem lbz_handle_eol_some (LB : Nat) (b data : List Byte) (bz : Option BZFILE) (f : Bool)
    (m : List Byte) (in_buffer keep_eol : Bool) (i : Nat) (h : memchr data NL = some i)
    (hlen : data.length ≤ LB) :
    lbz_handle_eol LB b data ⟨bz, f, 'r', some m, 0⟩ in_buffer keep_eol
      = some (true, b ++ data.take (if keep_eol = true then i + 1 else i),
          ⟨bz, f, 'r', some (memwrite m 0 (data.drop (i + 1))), (data.drop (i + 1)).length⟩) := by
  have hlt := memchr_lt data NL i h
  have hrem : (List.drop (i + 1) data).length < LB := by
    rw [List.length_drop]
    omega
  have hrem' : data.length - (i + 1) < LB := by
    rw [List.length_drop] at hrem
    exact hrem
  unfold lbz_handle_eol
  rw [h]
  cases in_buffer <;>
    simp [lbz_buffer_append, hrem', luaL_addsize, luaL_addlstring, readmem]

/-- The state `getline` leaves when it found a newline in the chunk delivered with
`BZ_STREAM_END`: closed when nothing follows the newline, and otherwise both
handles released and the remainder in the buffer. -/
theorem lbz_getline_loop_stream_end (LB : Nat) (keep_eol : Bool) (z : BZFILE) (f : Bool)
    (m : List Byte) (cs : List (List Byte)) (chunk : List Byte) (i : Nat) (rest : List Pull)
    (hcs : ∀ c ∈ cs, memchr c NL = none) (hi : memchr chunk NL = some i)
    (hlen : chunk.length ≤ LB) :
    ∀ (sz : Option BZFILE) (b : List Byte),
      lbz_getline_loop LB keep_eol z ⟨sz, f, 'r', some m, 0⟩
          (oks cs ++ ⟨chunk, BZ_STREAM_END⟩ :: rest) b
        = (.values [.string (b ++ cs.flatten ++ chunk.take (if keep_eol = true then i + 1 else i))],
           if chunk.drop (i + 1) = [] then closed 'r'
           else ⟨none, false, 'r', some (memwrite m 0 (chunk.drop (i + 1))),
                 (chunk.drop (i + 1)).length⟩) := by
  induction cs with
  | nil =>
    intro sz b
    have he : ¬ (BZ_STREAM_END ≠ BZ_OK ∧ BZ_STREAM_END ≠ BZ_STREAM_END) := fun h => h.2 rfl
    simp only [oks, List.map_nil, List.nil_append, List.flatten_nil, List.append_nil]
    rw [lbz_getline_loop]
    simp only [he, if_false]
    rw [lbz_handle_eol_some LB b chunk _ f m true keep_eol i hi hlen]
    by_cases hrem : chunk.drop (i + 1) = []
    · have hd : decide ((List.drop (i + 1) chunk).length ≠ 0) = false := by simp [hrem]
      simp only [if_true, hd, lbz_perform_close_free, top]
      simp [hrem, closed]
    · have hd : decide ((List.drop (i + 1) chunk).length ≠ 0) = true := by
        have : (List.drop (i + 1) chunk).length ≠ 0 := fun h => hrem (List.length_eq_zero.mp h)
        exact decide_eq_true this
      simp only [if_true, hd, lbz_perform_close_keep, top]
      simp [hrem]
  | cons c cs ih =>
    intro sz b
    have hc : memchr c NL = none := hcs c (List.mem_cons_self _ _)
    have hcs' : ∀ c' ∈ cs, memchr c' NL = none := fun c' h => hcs c' (List.mem_cons_of_mem _ h)
    have he : ¬ (BZ_OK ≠ BZ_OK ∧ BZ_OK ≠ BZ_STREAM_END) := fun h => h.1 rfl
    simp only [oks, List.map_cons, List.cons_append]
    rw [lbz_getline_loop]
    simp only [he, if_false]
    rw [lbz_handle_eol_none LB b c _ true keep_eol hc]
    have := ih hcs' (some { z with reads := List.map (fun c => ⟨c, BZ_OK⟩) cs
      ++ ⟨chunk, BZ_STREAM_END⟩ :: rest }) (b ++ c)
    simp only [oks] at this
    simp only [this, List.flatten_cons, List.append_assoc]

/-- A `getline` that finds a newline in the carryover returns the line and keeps the
bytes after it; the codec handle is not touched. -/
theorem lbz_getline_carry_line (LB : Nat) (bz : Option BZFILE) (f : Bool) (m : List Byte)
    (n j : Nat) (arg : LuaValue) (hn0 : n ≠ 0) (hn : n ≤ m.length) (hLB : n < LB)
    (hj : memchr (readmem m n) NL = some j) :
    lbz_getline LB ⟨bz, f, 'r', some m, n⟩ arg
      = (.values [.string ((readmem m n).take (if (!lua_toboolean arg) = true then j + 1 else j))],
         ⟨bz, f, 'r', some (memwrite m 0 ((readmem m n).drop (j + 1))),
          ((readmem m n).drop (j + 1)).length⟩) := by
  have hlen : (readmem m n).length ≤ LB := by
    simp only [readmem, List.length_take]
    omega
  unfold lbz_getline
  have hc : ¬ (bz = none ∧ (some m : Option (List Byte)) = none) := fun h => by simp at h
  simp only [hc, if_false, hn0, ne_eq, not_false_eq_true, if_true, lbz_buffer_drain_all]
  rw [lbz_handle_eol_some LB [] (readmem m n) bz f m false _ j hj hlen]
  simp [top]

/-- A `getline` on a released codec and a carryover without newline returns the
carryover as the last line and closes the session fully. -/
theorem lbz_getline_carry_last (LB : Nat) (f : Bool) (m : List Byte) (n : Nat) (arg : LuaValue)
    (hn0 : n ≠ 0) (hj : memchr (readmem m n) NL = none) :
    lbz_getline LB ⟨none, f, 'r', some m, n⟩ arg
      = (.values [.string (readmem m n)], ⟨none, f, 'r', none, 0⟩) := by
  unfold lbz_getline
  have hc : ¬ ((none : Option BZFILE) = none ∧ (some m : Option (List Byte)) = none) :=
    fun h => by simp at h
  simp only [hc, if_false, hn0, ne_eq, not_false_eq_true, if_true, lbz_buffer_drain_all]
  rw [lbz_handle_eol_none LB [] (readmem m n) _ false _ hj]
  simp [lbz_getline_read, lbz_buffer_drain_all, lbz_perform_close, lbz_buffer_free,
    luaL_addlstring, readmem, top]

/-- With the codec released, successive `getline` calls return the lines of the
carryover, one per call. -/
theorem lbz_getlines_from_carryover (LB : Nat) (arg : LuaValue) (fuel : Nat) :
    ∀ (f : Bool) (m : List Byte) (n : Nat), n ≤ m.length → n < LB →
      (getlines LB arg (linesFuel fuel (!lua_toboolean arg) (readmem m n)).length
          ⟨none, f, 'r', some m, n⟩).1
        = (linesFuel fuel (!lua_toboolean arg) (readmem m n)).map
            (fun l => Outcome.values [.string l]) := by
  induction fuel with
  | zero =>
    intro f m n _ _
    simp [linesFuel, getlines]
  | succ fuel ih =>
    intro f m n hn hLB
    rw [linesFuel]
    by_cases hR : readmem m n = []
    · simp [hR, getlines]
    · rw [if_neg hR]
      have hn0 : n ≠ 0 := by
        intro h0
        apply hR
        simp [h0, readmem]
      rcases hmc : memchr (readmem m n) NL with _ | j
      · simp only [List.length_singleton, getlines, List.map_cons, List.map_nil,
          lbz_getline_carry_last LB f m n arg hn0 hmc]
      · have hjlt := memchr_lt (readmem m n) NL j hmc
        have hRl : (readmem m n).length = n := by
          simp only [readmem, List.length_take]
          omega
        have hrem : readmem (memwrite m 0 ((readmem m n).drop (j + 1)))
            ((readmem m n).drop (j + 1)).length = (readmem m n).drop (j + 1) := by
          rw [memwrite_zero]
          unfold readmem
          exact List.take_left' rfl
        have hih := ih f (memwrite m 0 ((readmem m n).drop (j + 1)))
          ((readmem m n).drop (j + 1)).length
          (by rw [memwrite_zero]; simp)
          (by rw [List.length_drop]; omega)
        rw [hrem] at hih
        simp only [List.length_cons, getlines, List.map_cons,
          lbz_getline_carry_line LB none f m n j arg hn0 hn hLB hmc, hih]

/-- C19. On an open read session whose carryover holds no newline, when the codec
delivers chunks `cs` without newline and then, together with `BZ_STREAM_END`, a
chunk whose first newline is at `i`: `getline` returns the carryover, the chunks
and the chunk up to that newline (the newline included iff the EOL is kept), and
releases codec and file in that call; the carryover afterwards holds the bytes of
the chunk after the newline; when there are none the session is fully closed
(buffer freed), otherwise the buffer is kept, and the following `getline` calls
return the lines of that remainder, one per call, before any of them reports
CLOSED; with the EOL kept these lines put together are the remainder. -/
theorem lbz_getline_stream_end_newline (LB : Nat) (z : BZFILE) (f : Bool) (m : List Byte)
    (n : Nat) (cs : List (List Byte)) (chunk : List Byte) (i : Nat) (rest : List Pull)
    (arg : LuaValue) (hw : z.writing = false)
    (hreads : z.reads = oks cs ++ ⟨chunk, BZ_STREAM_END⟩ :: rest) (hn : n ≤ m.length)
    (hR : memchr (readmem m n) NL = none) (hcs : ∀ c ∈ cs, memchr c NL = none)
    (hi : memchr chunk NL = some i) (hlen : chunk.length ≤ LB) :
    lbz_getline LB ⟨some z, f, 'r', some m, n⟩ arg
        = (.values [.string (carryover ⟨some z, f, 'r', some m, n⟩ ++ cs.flatten
              ++ chunk.take (if (!lua_toboolean arg) = true then i + 1 else i))],
           if chunk.drop (i + 1) = [] then closed 'r'
           else ⟨none, false, 'r', some (memwrite m 0 (chunk.drop (i + 1))),
                 (chunk.drop (i + 1)).length⟩)
    ∧ (lbz_getline LB ⟨some z, f, 'r', some m, n⟩ arg).2.bz_stream = none
    ∧ (lbz_getline LB ⟨some z, f, 'r', some m, n⟩ arg).2.f = false
    ∧ carryover (lbz_getline LB ⟨some z, f, 'r', some m, n⟩ arg).2 = chunk.drop (i + 1)
    ∧ (getlines LB arg (linesOf (!lua_toboolean arg) (chunk.drop (i + 1))).length
          (lbz_getline LB ⟨some z, f, 'r', some m, n⟩ arg).2).1
        = (linesOf (!lua_toboolean arg) (chunk.drop (i + 1))).map
            (fun l => Outcome.values [.string l])
    ∧ (linesOf true (chunk.drop (i + 1))).flatten = chunk.drop (i + 1) := by
  have hilt := memchr_lt chunk NL i hi
  have hmain : lbz_getline LB ⟨some z, f, 'r', some m, n⟩ arg
        = (.values [.string (carryover ⟨some z, f, 'r', some m, n⟩ ++ cs.flatten
              ++ chunk.take (if (!lua_toboolean arg) = true then i + 1 else i))],
           if chunk.drop (i + 1) = [] then closed 'r'
           else ⟨none, false, 'r', some (memwrite m 0 (chunk.drop (i + 1))),
                 (chunk.drop (i + 1)).length⟩) := by
    have hloop := lbz_getline_loop_stream_end LB (!lua_toboolean arg) z f m cs chunk i rest
      hcs hi hlen (some z)
    unfold lbz_getline
    have hc : ¬ ((some z : Option BZFILE) = none ∧ (some m : Option (List Byte)) = none) :=
      fun h => by simp at h
    rw [if_neg hc]
    by_cases hn0 : n ≠ 0
    · rw [if_pos hn0]
      simp only [lbz_buffer_drain_all]
      rw [lbz_handle_eol_none LB [] (readmem m n) _ false _ hR]
      simp only [List.nil_append, lbz_getline_read, lbz_buffer_drain_all, luaL_addlstring,
        Option.getD_some, readmem, List.take_zero, List.append_nil, hw, Bool.false_eq_true,
        if_false, hreads, carryover]
      exact hloop _
    · rw [if_neg hn0]
      have h0 : n = 0 := by omega
      subst h0
      simp only [lbz_getline_read, lbz_buffer_drain_all, luaL_addlstring, Option.getD_some,
        readmem, List.take_zero, List.append_nil, hw, Bool.false_eq_true, if_false, hreads,
        carryover]
      exact hloop _
  refine ⟨hmain, ?_, ?_, ?_, ?_, linesFuel_flatten _ _ (le_refl _)⟩
  · rw [hmain]
    by_cases hrem : chunk.drop (i + 1) = [] <;> simp [hrem, closed]
  · rw [hmain]
    by_cases hrem : chunk.drop (i + 1) = [] <;> simp [hrem, closed]
  · rw [hmain]
    by_cases hrem : chunk.drop (i + 1) = []
    · simp [hrem, closed, carryover]
    · simp only [hrem, if_false, carryover, memwrite_zero, readmem]
      exact List.take_left' rfl
  · rw [hmain]
    by_cases hrem : chunk.drop (i + 1) = []
    · simp [hrem, linesOf, linesFuel, getlines]
    · simp only [hrem, if_false, linesOf]
      have hrm : readmem (memwrite m 0 (chunk.drop (i + 1))) (chunk.drop (i + 1)).length
          = chunk.drop (i + 1) := by
        rw [memwrite_zero]
        unfold readmem
        exact List.take_left' rfl
      have := lbz_getlines_from_carryover LB arg (chunk.drop (i + 1)).length false
        (memwrite m 0 (chunk.drop (i + 1))) (chunk.drop (i + 1)).length
        (by rw [memwrite_zero]; simp) (by rw [List.length_drop]; omega)
      rw [hrm] at this
      exact this

/-- Witness of C19: the carryover holds "x", the codec delivers "a" and then
"b\nc\nd" together with `BZ_STREAM_END`; `getline()` with `LUAL_BUFFERSIZE` 8
returns "xab\n", the carryover is "c\nd", and the next two calls return "c\n"
and "d". -/
theorem lbz_getline_stream_end_newline_witness :
    (∀ c ∈ [[97]], memchr c NL = none)
    ∧ memchr [98, 10, 99, 10, 100] NL = some 1
    ∧ lbz_getline 8 ⟨some (reader [⟨[97], BZ_OK⟩, ⟨[98, 10, 99, 10, 100], BZ_STREAM_END⟩]),
          true, 'r', some [120], 1⟩ .nil
        = (.values [.string [120, 97, 98, 10]], ⟨none, false, 'r', some [99, 10, 100], 3⟩)
    ∧ carryover (lbz_getline 8
          ⟨some (reader [⟨[97], BZ_OK⟩, ⟨[98, 10, 99, 10, 100], BZ_STREAM_END⟩]),
            true, 'r', some [120], 1⟩ .nil).2
        = [98, 10, 99, 10, 100].drop (1 + 1)
    ∧ (getlines 8 .nil 2 ⟨none, false, 'r', some [99, 10, 100], 3⟩).1
        = [.values [.string [99, 10]], .values [.string [100]]] :=
  ⟨by decide, by decide, by decide,
   (lbz_getline_stream_end_newline 8
      (reader [⟨[97], BZ_OK⟩, ⟨[98, 10, 99, 10, 100], BZ_STREAM_END⟩]) true [120] 1 [[97]]
      [98, 10, 99, 10, 100] 1 [] .nil rfl rfl (by decide) (by decide) (by decide) (by decide)
      (by decide)).2.2.2.1,
   by decide⟩

end LuaBz2
